import Mathlib

/-!
# Verification of the reqray call-tree aggregation engine

This file is a shallow embedding of the call-path aggregation core of the
`reqray` crate (`src/internal.rs`, `src/lib.rs`) together with proofs of the
specified properties.

Modelling choices:
* `usize` indices, thread ids, callsite identifiers and span ids are `Nat`.
* `quanta` timestamps are `Nat` nanoseconds; `Clock::delta` saturates at zero,
  which is exactly truncated subtraction on `Nat` (`delta`).
* `Duration` values are `Nat` nanoseconds (additions never overflow in the
  source's domain).
* `HashMap`s are association lists with unique keys (`lookupA`, `insertA`,
  `removeA` mirror `get`, `insert`, `remove`).
* The `tracing` registry is modelled by a `State` that stores the structural
  span records (`spans`, written once per span by `new_span`), the per-span
  extensions (`timing` for `SpanTimingInfo`, `pools` for the root-owned
  `CallPathPool`) and the list of pools handed to the
  `FinishedCallTreeProcessor` (`finished`).
* Each lifecycle hook is a partial function `State -> Option State`; `none`
  models a panic (a failing `expect`/`unwrap` or an out-of-bounds index /
  missing `HashMap` key).
* Host behaviour (which hooks may be called when) is modelled by ghost
  host states and legality checkers over event traces; several checkers of
  different strength are used by the different claims.
-/

namespace Reqray

/-- Association-list lookup, modelling `HashMap::get` / `Extensions::get`. -/
def lookupA {α : Type} (k : Nat) : List (Nat × α) → Option α
  | [] => none
  | (k', v) :: rest => if k' = k then some v else lookupA k rest

/-- Association-list insert-or-replace, modelling `HashMap::insert`. -/
def insertA {α : Type} (k : Nat) (v : α) : List (Nat × α) → List (Nat × α)
  | [] => [(k, v)]
  | (k', v') :: rest => if k' = k then (k, v) :: rest else (k', v') :: insertA k v rest

/-- Association-list removal, modelling `HashMap::remove`. -/
def removeA {α : Type} (k : Nat) : List (Nat × α) → List (Nat × α)
  | [] => []
  | (k', v') :: rest => if k' = k then rest else (k', v') :: removeA k rest

/-- The keys of an association list. -/
def keysA {α : Type} (l : List (Nat × α)) : List Nat := l.map Prod.fst

/-- Sum of `f key value` over all entries of an association list. -/
def sumOver {α : Type} (l : List (Nat × α)) (f : Nat → α → Nat) : Nat :=
  l.foldr (fun p acc => f p.1 p.2 + acc) 0

/-- `quanta::Clock::delta(start, end)`: saturating difference in nanoseconds. -/
def delta (t1 t2 : Nat) : Nat := t2 - t1

/-- `PerThreadInfo` from `internal.rs`. -/
structure PerThreadInfo where
  last_enter : Nat
  last_enter_own : Nat
deriving DecidableEq, Repr

/-- `SpanTimingInfo` from `internal.rs`. -/
structure SpanTimingInfo where
  call_path_idx : Nat
  sum_with_children : Nat
  sum_own : Nat
  per_thread : List (Nat × PerThreadInfo)
deriving DecidableEq, Repr

/-- `SpanTimingInfo::for_call_path_idx`. -/
def SpanTimingInfo.for_call_path_idx (idx : Nat) : SpanTimingInfo :=
  ⟨idx, 0, 0, []⟩

/-- `CallPathTiming` from `internal.rs`; `span_meta` keeps the callsite
identifier that stands for the static span metadata. -/
structure CallPathTiming where
  parent_idx : Option Nat
  depth : Nat
  call_count : Nat
  span_meta : Nat
  children : List (Nat × Nat)
  sum_with_children : Nat
  sum_own : Nat
deriving DecidableEq, Repr

/-- The structural record the `tracing` registry keeps for a span:
its contextual parent and its callsite identifier. -/
structure SpanData where
  parent : Option Nat
  callsite : Nat
deriving DecidableEq, Repr

/-- The whole system state: registry span records, the `SpanTimingInfo`
extensions, the `CallPathPool` extensions (keyed by the root span owning
them), and the pools already handed to the processor. -/
structure State where
  spans : List (Nat × SpanData)
  timing : List (Nat × SpanTimingInfo)
  pools : List (Nat × List CallPathTiming)
  finished : List (List CallPathTiming)
deriving DecidableEq, Repr

/-- The initial, empty system state. -/
def init : State := ⟨[], [], [], []⟩

/-- Walk `parent` pointers to the root ancestor (`span.from_root().next()`),
with explicit fuel to ensure termination on arbitrary states. -/
def rootOf (spans : List (Nat × SpanData)) : Nat → Nat → Option Nat
  | 0, _ => none
  | Nat.succ fuel, id =>
    match lookupA id spans with
    | none => none
    | some sd =>
      match sd.parent with
      | none => some id
      | some p => rootOf spans fuel p

/-- Root ancestor of a span in a state, with sufficient fuel. -/
def rootOfF (s : State) (id : Nat) : Option Nat :=
  rootOf s.spans (s.spans.length + 1) id

/-- `build_with_collector` enforces a minimum depth of 2:
`max_call_depth: core::cmp::max(2, self.max_call_depth)`. -/
def effectiveMaxCallDepth (configured : Nat) : Nat := max 2 configured

/-- `Layer::new_span`: the root span allocates the pool with its own
`CallPathTiming` at index 0; a child span whose parent is tracked assigns a
call-path identity (reusing the parent's child mapping or appending a fresh
`CallPathTiming`) unless the new depth reaches `max_call_depth`. -/
def new_span (maxD : Nat) (id : Nat) (parent : Option Nat) (callsite : Nat)
    (s : State) : Option State :=
  let spans' := insertA id ⟨parent, callsite⟩ s.spans
  match parent with
  | none =>
    let pool : List CallPathTiming := [⟨none, 0, 0, callsite, [], 0, 0⟩]
    some { s with
      spans := spans'
      pools := insertA id pool s.pools
      timing := insertA id (SpanTimingInfo.for_call_path_idx 0) s.timing }
  | some p =>
    match lookupA p s.timing with
    | none => some { s with spans := spans' }
    | some pinfo =>
      match rootOf spans' (spans'.length + 1) id with
      | none => none
      | some rootId =>
        match lookupA rootId s.pools with
        | none => none
        | some pool =>
          let newIdx := pool.length
          match pool.get? pinfo.call_path_idx with
          | none => none
          | some pct =>
            let newDepth := pct.depth + 1
            if maxD ≤ newDepth then some { s with spans := spans' }
            else
              match lookupA callsite pct.children with
              | some j =>
                some { s with
                  spans := spans'
                  timing := insertA id (SpanTimingInfo.for_call_path_idx j) s.timing }
              | none =>
                let pool' :=
                  (pool.set pinfo.call_path_idx
                    { pct with children := insertA callsite newIdx pct.children })
                  ++ [⟨some pinfo.call_path_idx, newDepth, 0, callsite, [], 0, 0⟩]
                some { s with
                  spans := spans'
                  pools := insertA rootId pool' s.pools
                  timing := insertA id (SpanTimingInfo.for_call_path_idx newIdx) s.timing }

/-- `Layer::on_enter`: `leaveParent` is the `clock.end()` sample taken at the
top of the hook, `start` the `clock.start()` sample taken afterwards. An
untracked span is ignored entirely. A tracked span records `start` in its
per-thread slot, then charges `delta(parent per-thread last_enter_own,
leaveParent)` to the tracked parent's own-time; the parent's per-thread slot
is read with an unchecked `HashMap` index, so a missing slot is a panic
(`none`). -/
def on_enter (id tid leaveParent start : Nat) (s : State) : Option State :=
  match lookupA id s.spans with
  | none => none
  | some sd =>
    match lookupA id s.timing with
    | none => some s
    | some ti =>
      let ti' := { ti with per_thread := insertA tid ⟨start, start⟩ ti.per_thread }
      let s1 := { s with timing := insertA id ti' s.timing }
      match sd.parent with
      | none => some s1
      | some p =>
        match lookupA p s1.timing with
        | none => some s1
        | some pti =>
          match lookupA tid pti.per_thread with
          | none => none
          | some ppt =>
            let pti' := { pti with
              sum_own := pti.sum_own + delta ppt.last_enter_own leaveParent }
            some { s1 with timing := insertA p pti' s1.timing }

/-- `Layer::on_exit`: `endT` is the `clock.end()` sample taken at the top of
the hook, `enterOwn` the `clock.start()` sample taken afterwards for the
parent reset. The exiting span's per-thread slot is read with an unchecked
index (panic when missing), the wall and own durations are folded into the
running sums, the slot is removed, and the tracked parent's
`last_enter_own` is reset via `entry().and_modify(..)` (a no-op when the
parent has no slot for this thread); a parent without a tracker is an
`expect` failure. -/
def on_exit (id tid endT enterOwn : Nat) (s : State) : Option State :=
  match lookupA id s.spans with
  | none => none
  | some sd =>
    match lookupA id s.timing with
    | none => some s
    | some ti =>
      match lookupA tid ti.per_thread with
      | none => none
      | some pt =>
        let ti' := { ti with
          sum_with_children := ti.sum_with_children + delta pt.last_enter endT
          sum_own := ti.sum_own + delta pt.last_enter_own endT
          per_thread := removeA tid ti.per_thread }
        let s1 := { s with timing := insertA id ti' s.timing }
        match sd.parent with
        | none => some s1
        | some p =>
          match lookupA p s1.timing with
          | none => none
          | some pti =>
            match lookupA tid pti.per_thread with
            | none => some s1
            | some ppt =>
              let pti' := { pti with
                per_thread := insertA tid { ppt with last_enter_own := enterOwn }
                  pti.per_thread }
              some { s1 with timing := insertA p pti' s1.timing }

/-- `Layer::on_close`: remove the tracker (no-op when absent), locate the
root's pool, fold call count and both sums into the `CallPathTiming` at the
tracker's call-path index; when the closing span is the root, remove the
whole pool from storage and hand it to the processor (append to
`finished`). -/
def on_close (id : Nat) (s : State) : Option State :=
  match lookupA id s.spans with
  | none => none
  | some sd =>
    match lookupA id s.timing with
    | none => some s
    | some ti =>
      let s1 := { s with timing := removeA id s.timing }
      match rootOf s1.spans (s1.spans.length + 1) id with
      | none => none
      | some rootId =>
        match lookupA rootId s1.pools with
        | none => none
        | some pool =>
          match pool.get? ti.call_path_idx with
          | none => none
          | some cpt =>
            let cpt' := { cpt with
              call_count := cpt.call_count + 1
              sum_with_children := cpt.sum_with_children + ti.sum_with_children
              sum_own := cpt.sum_own + ti.sum_own }
            let pool' := pool.set ti.call_path_idx cpt'
            match sd.parent with
            | none =>
              some { s1 with
                pools := removeA rootId s1.pools
                finished := s1.finished ++ [pool'] }
            | some _ =>
              some { s1 with pools := insertA rootId pool' s1.pools }

/-- A lifecycle hook invocation together with the clock samples drawn
during it. -/
inductive Event where
  | create (id : Nat) (parent : Option Nat) (callsite : Nat)
  | enter (id tid leaveParent start : Nat)
  | exit (id tid endT enterOwn : Nat)
  | close (id : Nat)
deriving DecidableEq, Repr

/-- Dispatch one event to the corresponding hook. -/
def step (maxD : Nat) : Event → State → Option State
  | Event.create id parent cs, s => new_span maxD id parent cs s
  | Event.enter id tid lp st, s => on_enter id tid lp st s
  | Event.exit id tid e r, s => on_exit id tid e r s
  | Event.close id, s => on_close id s

/-- Run a trace of events; `none` as soon as any hook panics. -/
def run (maxD : Nat) : List Event → State → Option State
  | [], s => some s
  | e :: tr, s =>
    match step maxD e s with
    | none => none
    | some s' => run maxD tr s'

/-- Instrumentation for counting call-path assignments: a create event that
attached a tracker with call-path index `i` in the tree rooted at `r`
contributes 1, every other event 0 (`s'` is the post-state of the event). -/
def countDelta : Event → State → Nat → Nat → Nat
  | Event.create id _ _, s', r, i =>
    match lookupA id s'.timing with
    | some ti => if ti.call_path_idx = i ∧ rootOfF s' id = some r then 1 else 0
    | none => 0
  | _, _, _, _ => 0

/-- Run a trace while counting how many units of work were created with
call path `i` of the tree rooted at `r`. -/
def runCount (maxD r i : Nat) : List Event → State → Nat → Option (State × Nat)
  | [], s, n => some (s, n)
  | e :: tr, s, n =>
    match step maxD e s with
    | none => none
    | some s' => runCount maxD r i tr s' (n + countDelta e s' r i)

/-- Ghost state of the host environment, used only to express which traces
the host contract allows: the latest clock sample, the created units with
their parents, the closed units, and the per-thread stack of currently
entered units (innermost first). -/
structure Host where
  now : Nat
  created : List (Nat × Option Nat)
  closed : List Nat
  stackMap : List (Nat × List Nat)
deriving DecidableEq, Repr

/-- The initial host ghost state. -/
def host0 : Host := ⟨0, [], [], []⟩

/-- The stack of units currently entered on thread `t` (innermost first). -/
def stackOf (h : Host) (t : Nat) : List Nat :=
  (lookupA t h.stackMap).getD []

/-- All children of `id` created so far are closed. -/
def childrenClosed (h : Host) (id : Nat) : Prop :=
  ∀ p ∈ h.created, p.2 = some id → p.1 ∈ h.closed

instance childrenClosedDec (h : Host) (id : Nat) : Decidable (childrenClosed h id) :=
  List.decidableBAll _ h.created

/-- The structural host conditions named by the specification's invariant
claim: units are distinct and created before they are entered or exited,
children are created after their parent and closed before it, each unit
closes at most once, and the clock samples are monotone. -/
def hostStepClaim : Event → Host → Option Host
  | Event.create id parent _, h =>
    match lookupA id h.created, parent with
    | some _, _ => none
    | none, none => some { h with created := h.created ++ [(id, none)] }
    | none, some p =>
      if (lookupA p h.created).isSome then
        some { h with created := h.created ++ [(id, some p)] }
      else none
  | Event.enter id _ lp st, h =>
    if (lookupA id h.created).isSome ∧ h.now ≤ lp ∧ lp ≤ st then
      some { h with now := st }
    else none
  | Event.exit id _ e r, h =>
    if (lookupA id h.created).isSome ∧ h.now ≤ e ∧ e ≤ r then
      some { h with now := r }
    else none
  | Event.close id, h =>
    if (lookupA id h.created).isSome ∧ id ∉ h.closed ∧ childrenClosed h id then
      some { h with closed := id :: h.closed }
    else none

/-- The part of the host contract needed for the pool bookkeeping claims:
units of work are distinct (a unit is created at most once) and all
children of a unit close before the unit itself. -/
def hostStepC : Event → Host → Option Host
  | Event.create id parent _, h =>
    if (lookupA id h.created).isSome then none
    else some { h with created := h.created ++ [(id, parent)] }
  | Event.enter _ _ _ _, h => some h
  | Event.exit _ _ _ _, h => some h
  | Event.close id, h =>
    if childrenClosed h id then some { h with closed := id :: h.closed }
    else none

/-- The host contract strengthened with per-thread well-nesting: on each
thread enters and exits are bracketed (only the innermost entered unit may
exit, a unit is not re-entered on a thread it is currently entered on, and
a unit is entered only while its parent is the innermost entered unit on
that thread or is not entered on that thread at all), a unit is closed only
when it is not entered anywhere, and clock samples are monotone. -/
def hostStepT : Event → Host → Option Host
  | Event.create id parent _, h =>
    match lookupA id h.created, parent with
    | some _, _ => none
    | none, none => some { h with created := h.created ++ [(id, none)] }
    | none, some p =>
      if (lookupA p h.created).isSome then
        some { h with created := h.created ++ [(id, some p)] }
      else none
  | Event.enter id t lp st, h =>
    match lookupA id h.created with
    | none => none
    | some pr =>
      if id ∉ stackOf h t ∧ h.now ≤ lp ∧ lp ≤ st ∧
          (∀ p, pr = some p → (stackOf h t).head? = some p ∨ p ∉ stackOf h t) then
        some { h with now := st, stackMap := insertA t (id :: stackOf h t) h.stackMap }
      else none
  | Event.exit id t e r, h =>
    if (stackOf h t).head? = some id ∧ h.now ≤ e ∧ e ≤ r then
      some { h with now := r, stackMap := insertA t (stackOf h t).tail h.stackMap }
    else none
  | Event.close id, h =>
    if childrenClosed h id ∧ (∀ p ∈ h.stackMap, id ∉ p.2) then
      some { h with closed := id :: h.closed }
    else none

/-- Run a host-legality checker over a trace. -/
def hostRun (f : Event → Host → Option Host) : List Event → Host → Option Host
  | [], h => some h
  | e :: tr, h =>
    match f e h with
    | none => none
    | some h' => hostRun f tr h'

/-- The trace satisfies the structural conditions stated by the claim. -/
def LegalClaim (tr : List Event) : Prop := (hostRun hostStepClaim tr host0).isSome

/-- The trace satisfies the minimal host contract (distinct units,
children close first). -/
def LegalC (tr : List Event) : Prop := (hostRun hostStepC tr host0).isSome

/-- The trace satisfies the host contract with per-thread well-nesting. -/
def LegalT (tr : List Event) : Prop := (hostRun hostStepT tr host0).isSome

instance legalClaimDec (tr : List Event) : Decidable (LegalClaim tr) :=
  inferInstanceAs (Decidable ((hostRun hostStepClaim tr host0).isSome = true))

instance legalCDec (tr : List Event) : Decidable (LegalC tr) :=
  inferInstanceAs (Decidable ((hostRun hostStepC tr host0).isSome = true))

instance legalTDec (tr : List Event) : Decidable (LegalT tr) :=
  inferInstanceAs (Decidable ((hostRun hostStepT tr host0).isSome = true))

/-- Every aggregated record of the pool has `sum_own ≤ sum_with_children`. -/
def PoolSound (pool : List CallPathTiming) : Prop :=
  ∀ e ∈ pool, e.sum_own ≤ e.sum_with_children

/-- The invariant of the specification holds in every live pool and every
handed-off pool of a state. -/
def AllSound (s : State) : Prop :=
  (∀ pr ∈ s.pools, PoolSound pr.2) ∧ (∀ pool ∈ s.finished, PoolSound pool)

/-- A pool is well indexed: it is nonempty, its index 0 is the root's own
call-path record (no parent, depth 0), and every stored identity (parent
pointers and child-mapping values) is in range; child-mapping values never
point at the root record. -/
def PoolIndexed (pool : List CallPathTiming) : Prop :=
  pool ≠ [] ∧
  (∃ e, pool.get? 0 = some e ∧ e.parent_idx = none ∧ e.depth = 0) ∧
  ∀ e ∈ pool,
    (∀ j, e.parent_idx = some j → j < pool.length) ∧
    (∀ cs j, lookupA cs e.children = some j → j < pool.length ∧ 1 ≤ j)

/-- Pool well-formedness of a whole state: all live and handed-off pools
are well indexed, and the call-path identity held by every live tracker is
a valid index of the pool of its root. -/
def PoolWf (s : State) : Prop :=
  (∀ pr ∈ s.pools, PoolIndexed pr.2) ∧
  (∀ pool ∈ s.finished, PoolIndexed pool) ∧
  (∀ id ti, lookupA id s.timing = some ti →
    ∃ r pool, rootOfF s id = some r ∧ lookupA r s.pools = some pool ∧
      ti.call_path_idx < pool.length)

/-! ## Concrete traces and states used by the claims -/

/-- The hook trace of `test_compound`: `compound_call` (span 1) advances the
mock clock by 10, calls `one_ns` (span 2, +1), advances by 100, calls
`one_ns` twice more (spans 3 and 4, +1 each), then advances by 1000.
Callsite 0 is `compound_call`, callsite 1 is `one_ns`; all on one thread. -/
def compoundTrace : List Event :=
  [Event.create 1 none 0,
   Event.enter 1 7 0 0,
   Event.create 2 (some 1) 1,
   Event.enter 2 7 10 10,
   Event.exit 2 7 11 11,
   Event.close 2,
   Event.create 3 (some 1) 1,
   Event.enter 3 7 111 111,
   Event.exit 3 7 112 112,
   Event.close 3,
   Event.create 4 (some 1) 1,
   Event.enter 4 7 112 112,
   Event.exit 4 7 113 113,
   Event.close 4,
   Event.exit 1 7 1113 1113,
   Event.close 1]

/-- Root span 1 with two child units (spans 2 and 3) of the same callsite 5,
invoked sequentially: the second invocation must reuse the call path of the
first and fold into one record with `call_count = 2`. -/
def twoCallTrace : List Event :=
  [Event.create 1 none 0,
   Event.enter 1 6 0 0,
   Event.create 2 (some 1) 5,
   Event.enter 2 6 2 2,
   Event.exit 2 6 6 6,
   Event.close 2,
   Event.create 3 (some 1) 5,
   Event.enter 3 6 7 7,
   Event.exit 3 6 16 16,
   Event.close 3,
   Event.exit 1 6 20 20,
   Event.close 1]

/-- A host-legal trace that creates a root (span 0) and a child (span 1)
without entering either. -/
def c10Trace : List Event :=
  [Event.create 0 none 0, Event.create 1 (some 0) 1]

/-- The state reached by `c10Trace`: both spans tracked, no per-thread
slots anywhere. -/
def c10State : State :=
  ⟨[(0, ⟨none, 0⟩), (1, ⟨some 0, 1⟩)],
   [(0, ⟨0, 0, 0, []⟩), (1, ⟨1, 0, 0, []⟩)],
   [(0, [⟨none, 0, 0, 0, [(1, 1)], 0, 0⟩, ⟨some 0, 1, 0, 1, [], 0, 0⟩])],
   []⟩

/-- A small state with a tracked root (span 0, entered on thread 3) and a
tracked child (span 1, not entered), used to instantiate the hook-level
theorems. -/
def wState : State :=
  ⟨[(0, ⟨none, 0⟩), (1, ⟨some 0, 1⟩)],
   [(0, ⟨0, 0, 0, [(3, ⟨0, 0⟩)]⟩), (1, ⟨1, 0, 0, []⟩)],
   [(0, [⟨none, 0, 0, 0, [(1, 1)], 0, 0⟩, ⟨some 0, 1, 0, 1, [], 0, 0⟩])],
   []⟩

/-- A trace legal for the conditions stated by the invariant claim (units
created before entered, children close before parents, monotone clock) in
which two sibling children of the root are entered overlappingly on the
same thread: the root's own time is charged twice for the overlap. -/
def cex1Trace : List Event :=
  [Event.create 0 none 0,
   Event.create 1 (some 0) 1,
   Event.create 2 (some 0) 2,
   Event.enter 0 3 0 0,
   Event.enter 1 3 50 50,
   Event.enter 2 3 100 100,
   Event.exit 2 3 100 100,
   Event.exit 1 3 100 100,
   Event.exit 0 3 110 110,
   Event.close 1,
   Event.close 2,
   Event.close 0]

/-- A single root unit entered once for 3ns and closed; legal under every
host checker in this file. -/
def soloTrace : List Event :=
  [Event.create 0 none 5,
   Event.enter 0 0 0 0,
   Event.exit 0 0 3 3,
   Event.close 0]

/-- The solo trace without its final close. -/
def soloBody : List Event :=
  [Event.create 0 none 5,
   Event.enter 0 0 0 0,
   Event.exit 0 0 3 3]

/-- The state reached by `soloBody`. -/
def soloMid : State :=
  ⟨[(0, ⟨none, 5⟩)], [(0, ⟨0, 3, 3, []⟩)], [(0, [⟨none, 0, 0, 5, [], 0, 0⟩])], []⟩

/-- The pool handed off when the solo root closes. -/
def soloPool : List CallPathTiming := [⟨none, 0, 1, 5, [], 3, 3⟩]

/-- The state reached by the whole solo trace. -/
def soloFinal : State := ⟨[(0, ⟨none, 5⟩)], [], [], [soloPool]⟩

/-- The pool produced by `cex1Trace`: the root record ends with
`sum_own = 160 > 110 = sum_with_children`. -/
def cex1Pool : List CallPathTiming :=
  [⟨none, 0, 1, 0, [(1, 1), (2, 2)], 110, 160⟩,
   ⟨some 0, 1, 1, 1, [], 50, 50⟩,
   ⟨some 0, 1, 1, 2, [], 0, 0⟩]

/-- The final state of `cex1Trace`. -/
def cex1Final : State :=
  ⟨[(0, ⟨none, 0⟩), (1, ⟨some 0, 1⟩), (2, ⟨some 0, 2⟩)], [], [], [cex1Pool]⟩

/-- Number of live trackers (in `timing`) whose call-path identity is `i`
in the tree rooted at `r` (roots resolved against `spans`). -/
def TcountL (spans : List (Nat × SpanData)) (timing : List (Nat × SpanTimingInfo))
    (r i : Nat) : Nat :=
  sumOver timing
    (fun id ti =>
      if ti.call_path_idx = i ∧ rootOf spans (spans.length + 1) id = some r
      then 1 else 0)

/-- Number of live trackers whose call-path identity is `i` in the tree
rooted at `r`. -/
def Tcount (s : State) (r i : Nat) : Nat := TcountL s.spans s.timing r i

/-- The relation maintained between a state and the number `n` of units of
work created so far with call-path identity `i` in the tree rooted at
`r`: while the pool lives, its record's `call_count` plus the live
trackers of that call path account for every creation. -/
def CountRel (s : State) (r i n : Nat) : Prop :=
  (lookupA r s.spans = none → n = 0) ∧
  (∀ pl, lookupA r s.pools = some pl →
    (∀ e, pl.get? i = some e → e.call_count + Tcount s r i = n) ∧
    (pl.length ≤ i → Tcount s r i = 0 ∧ n = 0))

/-- Bookkeeping invariant tying the host ghost state to the system state,
strong enough for the pool well-formedness and call-count claims. -/
structure CInv (h : Host) (s : State) : Prop where
  skeys : (keysA s.spans).Nodup
  tkeys : (keysA s.timing).Nodup
  pkeys : (keysA s.pools).Nodup
  mirror : ∀ id, lookupA id h.created = (lookupA id s.spans).map SpanData.parent
  clsub : ∀ c ∈ h.closed, (lookupA c h.created).isSome
  tspan : ∀ id, (lookupA id s.timing).isSome → (lookupA id s.spans).isSome
  tclosed : ∀ id, (lookupA id s.timing).isSome → id ∉ h.closed
  tparent : ∀ id ti sd p, lookupA id s.timing = some ti →
    lookupA id s.spans = some sd → sd.parent = some p →
    (lookupA p s.timing).isSome
  proot : ∀ r pl, lookupA r s.pools = some pl →
    ∃ sd, lookupA r s.spans = some sd ∧ sd.parent = none
  tidx : ∀ id ti, lookupA id s.timing = some ti →
    ∃ r pl, rootOfF s id = some r ∧ lookupA r s.pools = some pl ∧
      ti.call_path_idx < pl.length ∧ (ti.call_path_idx = 0 ↔ id = r)
  pwf : ∀ pr ∈ s.pools, PoolIndexed pr.2
  fwf : ∀ pl ∈ s.finished, PoolIndexed pl

/-! ## The per-thread nesting layer used by the amended timing invariant -/

/-- The parent of a span as far as the timing layer is concerned: its
contextual parent when the span itself carries a tracker, `none`
otherwise. -/
def tpar (s : State) (c : Nat) : Option Nat :=
  match lookupA c s.timing, lookupA c s.spans with
  | some _, some sd => sd.parent
  | _, _ => none

/-- Some tracked child of `x` is currently entered on thread `t` (it then
sits directly above `x` in that thread's stack). -/
def coveredT (h : Host) (s : State) (t x : Nat) : Prop :=
  ∃ c ∈ stackOf h t, tpar s c = some x

instance coveredTDec (h : Host) (s : State) (t x : Nat) :
    Decidable (coveredT h s t x) :=
  List.decidableBEx _ (stackOf h t)

/-- Slack of one live activation of the tracked span `x` on thread `t`:
the amount by which its own-time may still outgrow its with-children time
before the matching exit settles the account.  While a tracked child is
entered the pending own-segment has already been charged by `on_enter`, so
the slack reaches up to the latest clock sample; otherwise the segment
since `last_enter_own` is still pending. -/
def slotSlack (h : Host) (s : State) (x t : Nat) (pt : PerThreadInfo) : Nat :=
  if coveredT h s t x then h.now - pt.last_enter
  else pt.last_enter_own - pt.last_enter

/-- Total slack of a tracked span over all its live activations. -/
def slackSum (h : Host) (s : State) (x : Nat) (ti : SpanTimingInfo) : Nat :=
  sumOver ti.per_thread (fun t pt => slotSlack h s x t pt)

/-- Every tracked element of a thread stack sits directly above its
parent (tracked spans below the root of their tree always have tracked
parents, which must still be entered on the same thread). -/
def stackWf (s : State) : List Nat → Prop
  | [] => True
  | c :: rest => (∀ x, tpar s c = some x → rest.head? = some x) ∧ stackWf s rest

/-- Invariant for runs under the per-thread nesting contract: the
bookkeeping invariant, well-formed thread stacks, tracker slots matching
stack membership, ordered slot timestamps, the slack-bounded timing
inequality for every live tracker, and soundness of both pool stores. -/
structure TInv (h : Host) (s : State) : Prop where
  cbase : CInv h s
  smem : ∀ t c, c ∈ stackOf h t → (lookupA c h.created).isSome
  snodup : ∀ t, (stackOf h t).Nodup
  swf : ∀ t, stackWf s (stackOf h t)
  noSelfPar : ∀ x sd, lookupA x s.spans = some sd → sd.parent ≠ some x
  ptkeys : ∀ x ti, lookupA x s.timing = some ti → (keysA ti.per_thread).Nodup
  slotStack : ∀ x ti t pt, lookupA x s.timing = some ti →
    lookupA t ti.per_thread = some pt → x ∈ stackOf h t
  slotTimes : ∀ x ti t pt, lookupA x s.timing = some ti →
    lookupA t ti.per_thread = some pt →
    pt.last_enter ≤ pt.last_enter_own ∧ pt.last_enter_own ≤ h.now
  sound : ∀ x ti, lookupA x s.timing = some ti →
    ti.sum_own ≤ ti.sum_with_children + slackSum h s x ti
  psound : ∀ pr ∈ s.pools, PoolSound pr.2
  fsound : ∀ pl ∈ s.finished, PoolSound pl

/-! ## Association-list lemmas -/

theorem lookupA_insertA_self {α : Type} (k : Nat) (v : α) (l : List (Nat × α)) :
    lookupA k (insertA k v l) = some v := by
  induction l with
  | nil => simp [insertA, lookupA]
  | cons p rest ih =>
    obtain ⟨k1, v1⟩ := p
    by_cases h : k1 = k
    · simp [insertA, h, lookupA]
    · simp [insertA, h, lookupA, ih]

theorem lookupA_insertA_ne {α : Type} {k k' : Nat} (v : α) (l : List (Nat × α))
    (h : k' ≠ k) : lookupA k (insertA k' v l) = lookupA k l := by
  induction l with
  | nil => simp [insertA, lookupA, h]
  | cons p rest ih =>
    obtain ⟨k1, v1⟩ := p
    by_cases hp : k1 = k'
    · subst hp
      simp [insertA, lookupA, h, Ne.symm h]
    · by_cases hk : k1 = k
      · simp [insertA, hp, lookupA, hk, Ne.symm h]
      · simp [insertA, hp, lookupA, hk, ih]

theorem lookupA_removeA_ne {α : Type} {k k' : Nat} (l : List (Nat × α))
    (h : k' ≠ k) : lookupA k (removeA k' l) = lookupA k l := by
  induction l with
  | nil => simp [removeA]
  | cons p rest ih =>
    obtain ⟨k1, v1⟩ := p
    by_cases hp : k1 = k'
    · subst hp
      simp [removeA, lookupA, h, Ne.symm h]
    · by_cases hk : k1 = k
      · simp [removeA, hp, lookupA, hk, Ne.symm h]
      · simp [removeA, hp, lookupA, hk, ih]

theorem mem_keysA_iff_lookupA {α : Type} {k : Nat} {l : List (Nat × α)} :
    k ∈ keysA l ↔ (lookupA k l).isSome := by
  induction l with
  | nil => simp [keysA, lookupA]
  | cons p rest ih =>
    obtain ⟨k1, v1⟩ := p
    by_cases h : k1 = k
    · simp [keysA, lookupA, h]
    · simp [keysA, lookupA, h, Ne.symm h] at ih ⊢
      exact ih

theorem lookupA_eq_none_of_not_mem {α : Type} {k : Nat} {l : List (Nat × α)}
    (h : k ∉ keysA l) : lookupA k l = none := by
  by_contra hc
  exact h (mem_keysA_iff_lookupA.2 (by simp [Option.isSome_iff_ne_none, hc]))

theorem not_mem_keysA_of_lookupA_eq_none {α : Type} {k : Nat} {l : List (Nat × α)}
    (h : lookupA k l = none) : k ∉ keysA l := by
  intro hm
  rw [mem_keysA_iff_lookupA, h] at hm
  simp at hm

theorem lookupA_removeA_self {α : Type} {k : Nat} {l : List (Nat × α)}
    (h : (keysA l).Nodup) : lookupA k (removeA k l) = none := by
  induction l with
  | nil => simp [removeA, lookupA]
  | cons p rest ih =>
    obtain ⟨k1, v1⟩ := p
    simp [keysA] at h
    by_cases hp : k1 = k
    · subst hp
      simp [removeA]
      exact lookupA_eq_none_of_not_mem (by simpa [keysA] using h.1)
    · simp [removeA, hp, lookupA, hp, ih h.2]

theorem mem_of_lookupA_eq_some {α : Type} {k : Nat} {v : α} {l : List (Nat × α)}
    (h : lookupA k l = some v) : (k, v) ∈ l := by
  induction l with
  | nil => simp [lookupA] at h
  | cons p rest ih =>
    obtain ⟨k1, v1⟩ := p
    by_cases hp : k1 = k
    · subst hp
      simp [lookupA] at h
      simp [h]
    · simp [lookupA, hp] at h
      exact List.mem_cons_of_mem _ (ih h)

theorem lookupA_of_mem {α : Type} {k : Nat} {v : α} {l : List (Nat × α)}
    (hn : (keysA l).Nodup) (h : (k, v) ∈ l) : lookupA k l = some v := by
  induction l with
  | nil => simp at h
  | cons p rest ih =>
    obtain ⟨k1, v1⟩ := p
    rw [keysA, List.map_cons, List.nodup_cons] at hn
    rcases List.mem_cons.1 h with h1 | h2
    · have hk : k = k1 := congrArg Prod.fst h1
      have hv : v = v1 := congrArg Prod.snd h1
      subst hk
      subst hv
      simp [lookupA]
    · have hk1 : k1 ≠ k := by
        intro he
        subst he
        exact hn.1 (List.mem_map.2 ⟨(k1, v), h2, rfl⟩)
      simp [lookupA, hk1]
      exact ih hn.2 h2

theorem insertA_of_lookupA_eq_none {α : Type} {k : Nat} (v : α) {l : List (Nat × α)}
    (h : lookupA k l = none) : insertA k v l = l ++ [(k, v)] := by
  induction l with
  | nil => simp [insertA]
  | cons p rest ih =>
    obtain ⟨k1, v1⟩ := p
    by_cases hp : k1 = k
    · simp [lookupA, hp] at h
    · simp [lookupA, hp] at h
      simp [insertA, hp, ih h]

theorem lookupA_append_left {α : Type} {k : Nat} {v : α} {l l' : List (Nat × α)}
    (h : lookupA k l = some v) : lookupA k (l ++ l') = some v := by
  induction l with
  | nil => simp [lookupA] at h
  | cons p rest ih =>
    obtain ⟨k1, v1⟩ := p
    by_cases hp : k1 = k
    · simpa [lookupA, hp] using h
    · simp [lookupA, hp] at h ⊢
      exact ih h

theorem keysA_insertA_of_none {α : Type} {k : Nat} (v : α) {l : List (Nat × α)}
    (h : lookupA k l = none) : keysA (insertA k v l) = keysA l ++ [k] := by
  rw [insertA_of_lookupA_eq_none v h]
  simp [keysA]

theorem keysA_insertA_of_some {α : Type} {k : Nat} (v : α) {l : List (Nat × α)} {w : α}
    (h : lookupA k l = some w) : keysA (insertA k v l) = keysA l := by
  induction l with
  | nil => simp [lookupA] at h
  | cons p rest ih =>
    obtain ⟨k1, v1⟩ := p
    by_cases hp : k1 = k
    · simp [insertA, hp, keysA]
    · simp [lookupA, hp] at h
      simp [insertA, hp, keysA] at ih ⊢
      exact ih h

theorem keysA_nodup_insertA {α : Type} {k : Nat} (v : α) {l : List (Nat × α)}
    (h : (keysA l).Nodup) : (keysA (insertA k v l)).Nodup := by
  cases hl : lookupA k l with
  | none =>
    rw [keysA_insertA_of_none v hl]
    simp [List.nodup_append, h]
    exact not_mem_keysA_of_lookupA_eq_none hl
  | some w =>
    rw [keysA_insertA_of_some v hl]
    exact h

theorem keysA_removeA_sublist {α : Type} (k : Nat) (l : List (Nat × α)) :
    (keysA (removeA k l)).Sublist (keysA l) := by
  induction l with
  | nil => simp [removeA]
  | cons p rest ih =>
    obtain ⟨k1, v1⟩ := p
    by_cases hp : k1 = k
    · simp only [removeA, if_pos hp, keysA, List.map_cons]
      exact List.sublist_cons_self _ _
    · simp only [removeA, if_neg hp, keysA, List.map_cons]
      exact List.Sublist.cons₂ _ ih

theorem keysA_nodup_removeA {α : Type} (k : Nat) {l : List (Nat × α)}
    (h : (keysA l).Nodup) : (keysA (removeA k l)).Nodup :=
  (keysA_removeA_sublist k l).nodup h

theorem mem_removeA_subset {α : Type} {k : Nat} {p : Nat × α} {l : List (Nat × α)}
    (h : p ∈ removeA k l) : p ∈ l := by
  induction l with
  | nil => simp [removeA] at h
  | cons q rest ih =>
    obtain ⟨k1, v1⟩ := q
    by_cases hp : k1 = k
    · simp [removeA, hp] at h
      exact List.mem_cons_of_mem _ h
    · simp [removeA, hp] at h
      rcases h with h | h
      · simp [h]
      · exact List.mem_cons_of_mem _ (ih h)

/-! ## Sum-over-association-list lemmas -/

theorem sumOver_cons {α : Type} (p : Nat × α) (l : List (Nat × α)) (f : Nat → α → Nat) :
    sumOver (p :: l) f = f p.1 p.2 + sumOver l f := rfl

theorem sumOver_append {α : Type} (l l' : List (Nat × α)) (f : Nat → α → Nat) :
    sumOver (l ++ l') f = sumOver l f + sumOver l' f := by
  induction l with
  | nil => simp [sumOver]
  | cons p rest ih => simp [sumOver_cons, ih, Nat.add_assoc]

theorem sumOver_congr {α : Type} {l : List (Nat × α)} (f g : Nat → α → Nat)
    (h : ∀ p ∈ l, f p.1 p.2 = g p.1 p.2) : sumOver l f = sumOver l g := by
  induction l with
  | nil => rfl
  | cons p rest ih =>
    rw [sumOver_cons, sumOver_cons, h p (List.mem_cons_self p rest),
      ih fun q hq => h q (List.mem_cons_of_mem p hq)]

theorem sumOver_mono {α : Type} {l : List (Nat × α)} (f g : Nat → α → Nat)
    (h : ∀ p ∈ l, f p.1 p.2 ≤ g p.1 p.2) : sumOver l f ≤ sumOver l g := by
  induction l with
  | nil => exact Nat.le_refl 0
  | cons p rest ih =>
    rw [sumOver_cons, sumOver_cons]
    exact Nat.add_le_add (h p (List.mem_cons_self p rest))
      (ih fun q hq => h q (List.mem_cons_of_mem p hq))

theorem sumOver_insertA_none {α : Type} {k : Nat} (v : α) {l : List (Nat × α)}
    (f : Nat → α → Nat) (h : lookupA k l = none) :
    sumOver (insertA k v l) f = sumOver l f + f k v := by
  rw [insertA_of_lookupA_eq_none v h, sumOver_append]
  simp [sumOver]

theorem sumOver_removeA_add {α : Type} {k : Nat} {w : α} {l : List (Nat × α)}
    (f : Nat → α → Nat) (h : lookupA k l = some w) :
    sumOver l f = f k w + sumOver (removeA k l) f := by
  induction l with
  | nil => simp [lookupA] at h
  | cons p rest ih =>
    obtain ⟨k1, v1⟩ := p
    by_cases hp : k1 = k
    · subst hp
      simp [lookupA] at h
      subst h
      simp [removeA, sumOver_cons]
    · simp [lookupA, hp] at h
      simp only [removeA, if_neg hp, sumOver_cons, ih h]
      omega

theorem sumOver_insertA_some {α : Type} {k : Nat} (v : α) {w : α} {l : List (Nat × α)}
    (f : Nat → α → Nat) (h : lookupA k l = some w) :
    sumOver (insertA k v l) f = f k v + sumOver (removeA k l) f := by
  induction l with
  | nil => simp [lookupA] at h
  | cons p rest ih =>
    obtain ⟨k1, v1⟩ := p
    by_cases hp : k1 = k
    · subst hp
      simp [lookupA] at h
      simp [insertA, removeA, sumOver_cons]
    · simp [lookupA, hp] at h
      simp only [insertA, removeA, if_neg hp, sumOver_cons, ih h]
      omega

/-! ## Root-walk lemmas -/

theorem rootOf_fuel_mono {spans : List (Nat × SpanData)} :
    ∀ {f f' id r}, rootOf spans f id = some r → f ≤ f' →
      rootOf spans f' id = some r := by
  intro f
  induction f with
  | zero =>
    intro f' id r h
    simp [rootOf] at h
  | succ n ih =>
    intro f' id r h hf
    obtain ⟨m, rfl⟩ : ∃ m, f' = m + 1 := ⟨f' - 1, by omega⟩
    rw [rootOf] at h ⊢
    cases hs : lookupA id spans with
    | none => rw [hs] at h; exact absurd h (by simp)
    | some sd =>
      simp only [hs] at h ⊢
      cases hp : sd.parent with
      | none => simp only [hp] at h ⊢; exact h
      | some p =>
        simp only [hp] at h ⊢
        exact ih h (by omega)

theorem rootOf_append {spans : List (Nat × SpanData)} (l : List (Nat × SpanData)) :
    ∀ {f id r}, rootOf spans f id = some r → rootOf (spans ++ l) f id = some r := by
  intro f
  induction f with
  | zero =>
    intro id r h
    simp [rootOf] at h
  | succ n ih =>
    intro id r h
    rw [rootOf] at h ⊢
    cases hs : lookupA id spans with
    | none => rw [hs] at h; exact absurd h (by simp)
    | some sd =>
      simp only [hs] at h
      simp only [lookupA_append_left hs]
      cases hp : sd.parent with
      | none => simp only [hp] at h ⊢; exact h
      | some p =>
        simp only [hp] at h ⊢
        exact ih h

/-! ## Claim C2 -/

/-- C2: entering a tracked unit on thread `tid` (with `lp` the sample taken
at the top of the hook and `st` the one taken afterwards) sets that unit's
per-thread slot to `last_enter = last_enter_own = st` and, when the parent
exists and is tracked with a slot for `tid`, adds exactly
`delta(parent slot last_enter_own, lp)` to the parent's own-time
accumulator and changes nothing else; entering an untracked unit changes
no state at all. -/
theorem c2_on_enter_spec (s : State) (id tid lp st : Nat) (sd : SpanData)
    (hs : lookupA id s.spans = some sd) :
    (lookupA id s.timing = none → on_enter id tid lp st s = some s) ∧
    (∀ ti, lookupA id s.timing = some ti →
      (sd.parent = none →
        on_enter id tid lp st s =
          some { s with timing := (insertA id
            ({ ti with per_thread := insertA tid ⟨st, st⟩ ti.per_thread }) s.timing) }) ∧
      (∀ p, sd.parent = some p → p ≠ id →
        (lookupA p s.timing = none →
          on_enter id tid lp st s =
            some { s with timing := (insertA id
              ({ ti with per_thread := insertA tid ⟨st, st⟩ ti.per_thread }) s.timing) }) ∧
        (∀ pti, lookupA p s.timing = some pti →
          ∀ ppt, lookupA tid pti.per_thread = some ppt →
            on_enter id tid lp st s =
              some { s with timing :=
                (insertA p
                  ({ pti with sum_own := pti.sum_own + delta ppt.last_enter_own lp })
                  (insertA id
                    ({ ti with per_thread := insertA tid ⟨st, st⟩ ti.per_thread })
                    s.timing)) }))) := by
  refine ⟨fun hn => ?_, fun ti hti => ⟨fun hp => ?_, fun p hp hpid => ⟨fun hpt => ?_, ?_⟩⟩⟩
  · simp only [on_enter, hs, hn]
  · simp only [on_enter, hs, hti, hp]
  · simp only [on_enter, hs, hti, hp, lookupA_insertA_ne _ _ (Ne.symm hpid), hpt]
  · intro pti hpti ppt hppt
    simp only [on_enter, hs, hti, hp, lookupA_insertA_ne _ _ (Ne.symm hpid), hpti, hppt]

/-! ## Claim C3 -/

/-- C3: exiting a tracked unit on thread `tid` at end-sample `endT` adds
`delta(slot.last_enter, endT)` to the running with-children sum and
`delta(slot.last_enter_own, endT)` to the running own sum, removes the
thread's slot, and, when a tracked parent with a slot for `tid` exists,
resets the parent's `last_enter_own` to the freshly drawn sample
`enterOwn`. -/
theorem c3_on_exit_spec (s : State) (id tid endT enterOwn : Nat) (sd : SpanData)
    (ti : SpanTimingInfo) (pt : PerThreadInfo)
    (hs : lookupA id s.spans = some sd)
    (hti : lookupA id s.timing = some ti)
    (hpt : lookupA tid ti.per_thread = some pt) :
    (sd.parent = none →
      on_exit id tid endT enterOwn s =
        some { s with timing := (insertA id
          ({ ti with
            sum_with_children := ti.sum_with_children + delta pt.last_enter endT
            sum_own := ti.sum_own + delta pt.last_enter_own endT
            per_thread := removeA tid ti.per_thread }) s.timing) }) ∧
    (∀ p, sd.parent = some p → p ≠ id →
      ∀ pti, lookupA p s.timing = some pti →
        ∀ ppt, lookupA tid pti.per_thread = some ppt →
          on_exit id tid endT enterOwn s =
            some { s with timing :=
              (insertA p
                ({ pti with per_thread := (insertA tid
                  ({ ppt with last_enter_own := enterOwn }) pti.per_thread) })
                (insertA id
                  ({ ti with
                    sum_with_children := ti.sum_with_children + delta pt.last_enter endT
                    sum_own := ti.sum_own + delta pt.last_enter_own endT
                    per_thread := removeA tid ti.per_thread }) s.timing)) }) := by
  refine ⟨fun hp => ?_, fun p hp hpid pti hpti ppt hppt => ?_⟩
  · simp only [on_exit, hs, hti, hpt, hp]
  · simp only [on_exit, hs, hti, hpt, hp, lookupA_insertA_ne _ _ (Ne.symm hpid),
      hpti, hppt]

/-- Witness for C3 at a concrete state: the entered root of `wState` exits. -/
theorem c3_witness :
    on_exit 0 3 9 9 wState =
      some { wState with timing := (insertA 0
        ({ (⟨0, 0, 0, [(3, ⟨0, 0⟩)]⟩ : SpanTimingInfo) with
          sum_with_children := 0 + delta 0 9
          sum_own := 0 + delta 0 9
          per_thread := removeA 3 [(3, (⟨0, 0⟩ : PerThreadInfo))] }) wState.timing) } :=
  (c3_on_exit_spec wState 0 3 9 9 ⟨none, 0⟩ ⟨0, 0, 0, [(3, ⟨0, 0⟩)]⟩ ⟨0, 0⟩
    (by decide) (by decide) (by decide)).1 rfl

/-- Witness for C2 at a concrete state: span 1 of `wState` is entered on
thread 3 while its parent (the root, entered on thread 3 at 0) is tracked;
the parent is charged `delta 0 5 = 5` nanoseconds of own time. -/
theorem c2_witness :
    on_enter 1 3 5 6 wState =
      some { wState with timing :=
        (insertA 0
          ({ (⟨0, 0, 0, [(3, ⟨0, 0⟩)]⟩ : SpanTimingInfo) with
            sum_own := 0 + delta 0 5 })
          (insertA 1
            ({ (⟨1, 0, 0, []⟩ : SpanTimingInfo) with
              per_thread := insertA 3 ⟨6, 6⟩ [] })
            wState.timing)) } :=
  (((c2_on_enter_spec wState 1 3 5 6 ⟨some 0, 1⟩ (by decide)).2
    ⟨1, 0, 0, []⟩ (by decide)).2 0 rfl (by decide)).2
    ⟨0, 0, 0, [(3, ⟨0, 0⟩)]⟩ (by decide) ⟨0, 0⟩ (by decide)

/-! ## Claim C4 -/

/-- C4: closing a tracked unit removes its tracker and folds it into the
pool record of its call path (`call_count` + 1, both sums added); exactly
when the closing unit is the root, the pool is removed from storage and
appended (by value) to the processor's `finished` list; closing an
untracked unit is a no-op, and no other hook ever changes `finished`, so
handoff happens exactly once per root close and never for a root that does
not close. -/
theorem c4_on_close_spec :
    (∀ s id sd, lookupA id s.spans = some sd → lookupA id s.timing = none →
      on_close id s = some s) ∧
    (∀ s id sd ti r pool cpt,
      lookupA id s.spans = some sd →
      lookupA id s.timing = some ti →
      rootOf s.spans (s.spans.length + 1) id = some r →
      lookupA r s.pools = some pool →
      pool.get? ti.call_path_idx = some cpt →
      ((sd.parent = none →
        on_close id s = some { s with
          timing := removeA id s.timing
          pools := removeA r s.pools
          finished := (s.finished ++ [pool.set ti.call_path_idx
            ({ cpt with
              call_count := cpt.call_count + 1
              sum_with_children := cpt.sum_with_children + ti.sum_with_children
              sum_own := cpt.sum_own + ti.sum_own })]) }) ∧
      (∀ q, sd.parent = some q →
        on_close id s = some { s with
          timing := removeA id s.timing
          pools := (insertA r (pool.set ti.call_path_idx
            ({ cpt with
              call_count := cpt.call_count + 1
              sum_with_children := cpt.sum_with_children + ti.sum_with_children
              sum_own := cpt.sum_own + ti.sum_own })) s.pools) }))) ∧
    (∀ maxD e s s', step maxD e s = some s' →
      s'.finished = s.finished ∨
      ∃ id sd pool, e = Event.close id ∧ lookupA id s.spans = some sd ∧
        sd.parent = none ∧ (lookupA id s.timing).isSome ∧
        s'.finished = s.finished ++ [pool]) := by
  refine ⟨fun s id sd hs hti => ?_, fun s id sd ti r pool cpt hs hti hr hp hg => ?_, ?_⟩
  · simp only [on_close, hs, hti]
  · refine ⟨fun hpar => ?_, fun q hpar => ?_⟩
    · simp only [on_close, hs, hti, hr, hp, hg, hpar]
    · simp only [on_close, hs, hti, hr, hp, hg, hpar]
  · intro maxD e s s' h
    cases e with
    | create id parent cs =>
      left
      simp only [step, new_span] at h
      cases parent with
      | none => cases h; rfl
      | some p =>
        cases hl : lookupA p s.timing with
        | none => simp only [hl] at h; cases h; rfl
        | some pinfo =>
          simp only [hl] at h
          cases hr : rootOf (insertA id ⟨some p, cs⟩ s.spans)
              ((insertA id ⟨some p, cs⟩ s.spans).length + 1) id with
          | none => simp only [hr] at h; exact absurd h (by simp)
          | some rootId =>
            simp only [hr] at h
            cases hp1 : lookupA rootId s.pools with
            | none => simp only [hp1] at h; exact absurd h (by simp)
            | some pool =>
              simp only [hp1] at h
              cases hg : pool.get? pinfo.call_path_idx with
              | none => simp only [hg] at h; exact absurd h (by simp)
              | some pct =>
                simp only [hg] at h
                by_cases hd : maxD ≤ pct.depth + 1
                · rw [if_pos hd] at h; cases h; rfl
                · rw [if_neg hd] at h
                  cases hc : lookupA cs pct.children with
                  | none => simp only [hc] at h; cases h; rfl
                  | some j => simp only [hc] at h; cases h; rfl
    | enter id tid lp st =>
      left
      simp only [step, on_enter] at h
      cases hs : lookupA id s.spans with
      | none => rw [hs] at h; exact absurd h (by simp)
      | some sd =>
        simp only [hs] at h
        cases hti : lookupA id s.timing with
        | none => simp only [hti] at h; cases h; rfl
        | some ti =>
          simp only [hti] at h
          cases hpar : sd.parent with
          | none => simp only [hpar] at h; cases h; rfl
          | some p =>
            simp only [hpar] at h
            cases hl : lookupA p (insertA id
                ({ ti with per_thread := insertA tid ⟨st, st⟩ ti.per_thread })
                s.timing) with
            | none => simp only [hl] at h; cases h; rfl
            | some pti =>
              simp only [hl] at h
              cases hq : lookupA tid pti.per_thread with
              | none => simp only [hq] at h; exact absurd h (by simp)
              | some ppt => simp only [hq] at h; cases h; rfl
    | exit id tid endT enterOwn =>
      left
      simp only [step, on_exit] at h
      cases hs : lookupA id s.spans with
      | none => rw [hs] at h; exact absurd h (by simp)
      | some sd =>
        simp only [hs] at h
        cases hti : lookupA id s.timing with
        | none => simp only [hti] at h; cases h; rfl
        | some ti =>
          simp only [hti] at h
          cases hq : lookupA tid ti.per_thread with
          | none => simp only [hq] at h; exact absurd h (by simp)
          | some pt =>
            simp only [hq] at h
            cases hpar : sd.parent with
            | none => simp only [hpar] at h; cases h; rfl
            | some p =>
              simp only [hpar] at h
              cases hl : lookupA p (insertA id
                  ({ ti with
                    sum_with_children := ti.sum_with_children + delta pt.last_enter endT
                    sum_own := ti.sum_own + delta pt.last_enter_own endT
                    per_thread := removeA tid ti.per_thread }) s.timing) with
              | none => simp only [hl] at h; exact absurd h (by simp)
              | some pti =>
                simp only [hl] at h
                cases hq2 : lookupA tid pti.per_thread with
                | none => simp only [hq2] at h; cases h; rfl
                | some ppt => simp only [hq2] at h; cases h; rfl
    | close id =>
      simp only [step, on_close] at h
      cases hs : lookupA id s.spans with
      | none => rw [hs] at h; exact absurd h (by simp)
      | some sd =>
        simp only [hs] at h
        cases hti : lookupA id s.timing with
        | none => simp only [hti] at h; cases h; left; rfl
        | some ti =>
          simp only [hti] at h
          cases hr : rootOf s.spans (s.spans.length + 1) id with
          | none => simp only [hr] at h; exact absurd h (by simp)
          | some rootId =>
            simp only [hr] at h
            cases hp1 : lookupA rootId s.pools with
            | none => simp only [hp1] at h; exact absurd h (by simp)
            | some pool =>
              simp only [hp1] at h
              cases hg : pool.get? ti.call_path_idx with
              | none => simp only [hg] at h; exact absurd h (by simp)
              | some cpt =>
                simp only [hg] at h
                cases hpar : sd.parent with
                | none =>
                  simp only [hpar] at h
                  cases h
                  right
                  exact ⟨id, sd, _, rfl, hs, hpar, by rw [hti]; rfl, rfl⟩
                | some q =>
                  simp only [hpar] at h
                  cases h
                  left
                  rfl

/-- Witness for C4: closing the tracked child 1 of `c10State` folds its
zeroed tracker into pool record 1 without touching `finished`. -/
theorem c4_witness :
    on_close 1 c10State = some { c10State with
      timing := removeA 1 c10State.timing
      pools := (insertA 0 ([⟨none, 0, 0, 0, [(1, 1)], 0, 0⟩,
          ⟨some 0, 1, 0, 1, [], 0, 0⟩].set 1
        ({ (⟨some 0, 1, 0, 1, [], 0, 0⟩ : CallPathTiming) with
          call_count := 0 + 1
          sum_with_children := 0 + 0
          sum_own := 0 + 0 })) c10State.pools) } :=
  ((c4_on_close_spec.2.1 c10State 1 ⟨some 0, 1⟩ ⟨1, 0, 0, []⟩ 0
    [⟨none, 0, 0, 0, [(1, 1)], 0, 0⟩, ⟨some 0, 1, 0, 1, [], 0, 0⟩]
    ⟨some 0, 1, 0, 1, [], 0, 0⟩
    (by decide) (by decide) (by decide) (by decide) (by decide)).2 0 rfl)

/-! ## Claim C5 -/

/-- C5: the effective maximum call depth is `max 2 configured`; a unit
whose would-be depth reaches it gets no tracker, no pool record and no
child-mapping entry (only the registry's structural span record is
written); a unit created under an untracked parent likewise gets no
tracker; and every enter, exit or close of an untracked unit leaves the
state entirely unchanged. -/
theorem c5_depth_cap :
    (∀ c, effectiveMaxCallDepth c = max 2 c) ∧
    (∀ maxD s id p cs pinfo r pool pct,
      lookupA p s.timing = some pinfo →
      rootOf (insertA id ⟨some p, cs⟩ s.spans)
        ((insertA id ⟨some p, cs⟩ s.spans).length + 1) id = some r →
      lookupA r s.pools = some pool →
      pool.get? pinfo.call_path_idx = some pct →
      maxD ≤ pct.depth + 1 →
      new_span maxD id (some p) cs s =
        some { s with spans := insertA id ⟨some p, cs⟩ s.spans }) ∧
    (∀ maxD s id p cs, lookupA p s.timing = none →
      new_span maxD id (some p) cs s =
        some { s with spans := insertA id ⟨some p, cs⟩ s.spans }) ∧
    (∀ s id tid lp st sd, lookupA id s.spans = some sd →
      lookupA id s.timing = none → on_enter id tid lp st s = some s) ∧
    (∀ s id tid endT enterOwn sd, lookupA id s.spans = some sd →
      lookupA id s.timing = none → on_exit id tid endT enterOwn s = some s) ∧
    (∀ s id sd, lookupA id s.spans = some sd →
      lookupA id s.timing = none → on_close id s = some s) := by
  refine ⟨fun c => rfl, ?_, ?_, ?_, ?_, ?_⟩
  · intro maxD s id p cs pinfo r pool pct hp hr hpool hg hd
    simp only [new_span, hp, hr, hpool, hg, if_pos hd]
  · intro maxD s id p cs hp
    simp only [new_span, hp]
  · intro s id tid lp st sd hs hti
    simp only [on_enter, hs, hti]
  · intro s id tid endT enterOwn sd hs hti
    simp only [on_exit, hs, hti]
  · intro s id sd hs hti
    simp only [on_close, hs, hti]

/-- Witness for C5: with the minimum effective depth 2, a grandchild of the
root of `c10State` (would-be depth 2) is created without a tracker. -/
theorem c5_witness :
    new_span 2 5 (some 1) 9 c10State =
      some { c10State with spans := insertA 5 ⟨some 1, 9⟩ c10State.spans } :=
  c5_depth_cap.2.1 2 c10State 5 1 9 ⟨1, 0, 0, []⟩ 0
    [⟨none, 0, 0, 0, [(1, 1)], 0, 0⟩, ⟨some 0, 1, 0, 1, [], 0, 0⟩]
    ⟨some 0, 1, 0, 1, [], 0, 0⟩
    (by decide) (by decide) (by decide) (by decide) (by decide)

/-! ## Claim C6 -/

/-- C6: creating a unit under a tracked parent below the depth cap reuses
the parent's child-mapping entry for the unit's callsite when present (the
pool is unchanged) and otherwise appends exactly one fresh zeroed
`CallPathTiming` (parent set to the parent's identity, depth one deeper)
and records it in the parent's child mapping; consequently the two
same-callsite invocations of `twoCallTrace` fold into one record with
`call_count = 2` and summed durations. -/
theorem c6_call_path_identity :
    (∀ maxD s id p cs pinfo r pool pct j,
      lookupA p s.timing = some pinfo →
      rootOf (insertA id ⟨some p, cs⟩ s.spans)
        ((insertA id ⟨some p, cs⟩ s.spans).length + 1) id = some r →
      lookupA r s.pools = some pool →
      pool.get? pinfo.call_path_idx = some pct →
      pct.depth + 1 < maxD →
      lookupA cs pct.children = some j →
      new_span maxD id (some p) cs s = some { s with
        spans := insertA id ⟨some p, cs⟩ s.spans
        timing := insertA id (SpanTimingInfo.for_call_path_idx j) s.timing }) ∧
    (∀ maxD s id p cs pinfo r pool pct,
      lookupA p s.timing = some pinfo →
      rootOf (insertA id ⟨some p, cs⟩ s.spans)
        ((insertA id ⟨some p, cs⟩ s.spans).length + 1) id = some r →
      lookupA r s.pools = some pool →
      pool.get? pinfo.call_path_idx = some pct →
      pct.depth + 1 < maxD →
      lookupA cs pct.children = none →
      new_span maxD id (some p) cs s = some { s with
        spans := insertA id ⟨some p, cs⟩ s.spans
        pools := (insertA r
          ((pool.set pinfo.call_path_idx
            ({ pct with children := insertA cs pool.length pct.children }))
            ++ [⟨some pinfo.call_path_idx, pct.depth + 1, 0, cs, [], 0, 0⟩])
          s.pools)
        timing := insertA id (SpanTimingInfo.for_call_path_idx pool.length) s.timing }) ∧
    (run 10 twoCallTrace init =
      some ⟨[(1, ⟨none, 0⟩), (2, ⟨some 1, 5⟩), (3, ⟨some 1, 5⟩)], [], [],
        [[⟨none, 0, 1, 0, [(5, 1)], 20, 7⟩, ⟨some 0, 1, 2, 5, [], 13, 13⟩]]⟩) := by
  refine ⟨?_, ?_, by decide⟩
  · intro maxD s id p cs pinfo r pool pct j hp hr hpool hg hd hc
    simp only [new_span, hp, hr, hpool, hg, if_neg (by omega : ¬ maxD ≤ pct.depth + 1), hc]
  · intro maxD s id p cs pinfo r pool pct hp hr hpool hg hd hc
    simp only [new_span, hp, hr, hpool, hg, if_neg (by omega : ¬ maxD ≤ pct.depth + 1), hc]

/-- Witness for C6: creating span 5 with the already-seen callsite 1 under
the root of `c10State` reuses pool identity 1 and leaves the pool alone. -/
theorem c6_witness :
    new_span 10 5 (some 0) 1 c10State = some { c10State with
      spans := insertA 5 ⟨some 0, 1⟩ c10State.spans
      timing := insertA 5 (SpanTimingInfo.for_call_path_idx 1) c10State.timing } :=
  c6_call_path_identity.1 10 c10State 5 0 1 ⟨0, 0, 0, []⟩ 0
    [⟨none, 0, 0, 0, [(1, 1)], 0, 0⟩, ⟨some 0, 1, 0, 1, [], 0, 0⟩]
    ⟨none, 0, 0, 0, [(1, 1)], 0, 0⟩ 1
    (by decide) (by decide) (by decide) (by decide) (by decide) (by decide)

/-! ## Claim C8 -/

/-- C8: the `test_compound` scenario: the finished pool has exactly two
records; the root (`compound_call`) has `call_count = 1`,
`sum_with_children = 1113`, `sum_own = 1110`; the single child call path
(`one_ns`) has `call_count = 3` and `sum_with_children = sum_own = 3`. -/
theorem c8_compound_scenario :
    run (effectiveMaxCallDepth 10) compoundTrace init =
      some ⟨[(1, ⟨none, 0⟩), (2, ⟨some 1, 1⟩), (3, ⟨some 1, 1⟩), (4, ⟨some 1, 1⟩)],
        [], [],
        [[⟨none, 0, 1, 0, [(1, 1)], 1113, 1110⟩, ⟨some 0, 1, 3, 1, [], 3, 3⟩]]⟩ := by
  decide

/-! ## Claim C10 -/

/-- C10 (counterexample): it is not true that whenever a tracked unit with
a tracked parent is entered on a thread in a host-legal reachable state,
the parent's per-thread map has a slot for that thread and `on_enter`
returns normally: in the state reached by `c10Trace` the child (span 1) is
entered on thread 0 while the parent was never entered there, the parent's
map is empty, and the unchecked index makes `on_enter` panic. -/
theorem c10_counterexample :
    ¬ (∀ (maxD : Nat) (tr : List Event) (s : State) (id tid lp st p : Nat)
        (sd : SpanData) (ti pti : SpanTimingInfo),
        LegalClaim tr → run maxD tr init = some s →
        lookupA id s.spans = some sd → lookupA id s.timing = some ti →
        sd.parent = some p → lookupA p s.timing = some pti →
        (lookupA tid pti.per_thread).isSome ∧
          (on_enter id tid lp st s).isSome) := by
  intro hcl
  have h := hcl 10 c10Trace c10State 1 0 5 5 0 ⟨some 0, 1⟩ ⟨1, 0, 0, []⟩ ⟨0, 0, 0, []⟩
    (by decide) (by decide) (by decide) (by decide) rfl (by decide)
  exact absurd h.1 (by decide)

/-- C10 (amended): the unchecked parent lookup in `on_enter` is total
exactly when the tracked parent currently has a per-thread slot for the
entering thread; when the slot is missing, `on_enter` panics. -/
theorem c10_enter_totality (s : State) (id tid lp st p : Nat) (sd : SpanData)
    (ti pti : SpanTimingInfo)
    (hs : lookupA id s.spans = some sd) (hti : lookupA id s.timing = some ti)
    (hp : sd.parent = some p) (hpid : p ≠ id)
    (hpti : lookupA p s.timing = some pti) :
    ((lookupA tid pti.per_thread).isSome → (on_enter id tid lp st s).isSome) ∧
    (lookupA tid pti.per_thread = none → on_enter id tid lp st s = none) := by
  constructor
  · intro hsome
    cases hq : lookupA tid pti.per_thread with
    | none => rw [hq] at hsome; exact absurd hsome (by simp)
    | some ppt =>
      simp only [on_enter, hs, hti, hp, lookupA_insertA_ne _ _ (Ne.symm hpid), hpti, hq,
        Option.isSome_some]
  · intro hnone
    simp only [on_enter, hs, hti, hp, lookupA_insertA_ne _ _ (Ne.symm hpid), hpti, hnone]

/-- Witness for the amended C10 at `wState`: the parent of span 1 is
entered on thread 3, so `on_enter` of span 1 on thread 3 succeeds. -/
theorem c10_witness : (on_enter 1 3 5 6 wState).isSome :=
  (c10_enter_totality wState 1 3 5 6 0 ⟨some 0, 1⟩ ⟨1, 0, 0, []⟩
    ⟨0, 0, 0, [(3, ⟨0, 0⟩)]⟩ (by decide) (by decide) rfl
    (by decide) (by decide)).1 (by decide)

/-! ## Claim C1, counterexample part -/

/-- C1 (counterexample): the invariant `sum_own ≤ sum_with_children` does
not follow from the structural conditions stated by the claim (created
before entered, children close before parents, monotone clock):
`cex1Trace` satisfies them, yet entering two sibling children of the root
overlappingly on one thread charges the root's own time twice, and the
handed-off pool's root record has `sum_own = 160 > 110 =
sum_with_children`. -/
theorem c1_counterexample :
    ¬ (∀ (maxD : Nat) (tr : List Event) (s : State),
        LegalClaim tr → run maxD tr init = some s → AllSound s) := by
  intro hcl
  have h := hcl 10 cex1Trace cex1Final (by decide) (by decide)
  exact absurd
    (h.2 cex1Pool (by decide) ⟨none, 0, 1, 0, [(1, 1), (2, 2)], 110, 160⟩ (by decide))
    (by decide)

/-! ## Further association-list and pool lemmas -/

theorem lookupA_append_right {α : Type} {k : Nat} {l l' : List (Nat × α)}
    (h : lookupA k l = none) : lookupA k (l ++ l') = lookupA k l' := by
  induction l with
  | nil => simp
  | cons p rest ih =>
    obtain ⟨k1, v1⟩ := p
    by_cases hp : k1 = k
    · simp [lookupA, hp] at h
    · simp [lookupA, hp] at h ⊢
      exact ih h

theorem mem_insertA_cases {α : Type} {k : Nat} {v : α} {p : Nat × α}
    {l : List (Nat × α)} (h : p ∈ insertA k v l) : p = (k, v) ∨ p ∈ l := by
  induction l with
  | nil => simp [insertA] at h; simp [h]
  | cons q rest ih =>
    obtain ⟨k1, v1⟩ := q
    by_cases hp : k1 = k
    · simp [insertA, hp] at h
      rcases h with h | h
      · simp [h]
      · simp [h]
    · simp [insertA, hp] at h
      rcases h with h | h
      · simp [h]
      · rcases ih h with h2 | h2
        · simp [h2]
        · simp [h2]

theorem lookupA_insertA_isSome {α : Type} {k k' : Nat} {v : α} {l : List (Nat × α)} :
    (lookupA k (insertA k' v l)).isSome ↔ k' = k ∨ (lookupA k l).isSome := by
  by_cases h : k' = k
  · subst h
    simp [lookupA_insertA_self]
  · simp [lookupA_insertA_ne _ _ h, h]

theorem lookupA_insertA_or {α : Type} {k k' : Nat} {v w : α} {l : List (Nat × α)}
    (h : lookupA k (insertA k' v l) = some w) :
    (k' = k ∧ w = v) ∨ lookupA k l = some w := by
  by_cases hk : k' = k
  · subst hk
    rw [lookupA_insertA_self] at h
    exact Or.inl ⟨rfl, (Option.some.inj h).symm⟩
  · rw [lookupA_insertA_ne _ _ hk] at h
    exact Or.inr h

/-- Folding counters into one pool record preserves well-indexedness when
the structural fields are unchanged. -/
theorem poolIndexed_set_counters {pool : List CallPathTiming} {i : Nat}
    {cpt cpt' : CallPathTiming}
    (hwf : PoolIndexed pool) (hg : pool.get? i = some cpt)
    (hpar : cpt'.parent_idx = cpt.parent_idx) (hch : cpt'.children = cpt.children)
    (hdep : cpt'.depth = cpt.depth) :
    PoolIndexed (pool.set i cpt') := by
  obtain ⟨hne, ⟨e0, he0, he0p, he0d⟩, hrange⟩ := hwf
  have hmem : cpt ∈ pool := List.get?_mem hg
  refine ⟨by intro hc; exact hne ((List.set_eq_nil_iff i cpt').1 hc), ?_, ?_⟩
  · by_cases h0 : i = 0
    · subst h0
      have he : cpt = e0 := by rw [hg] at he0; exact Option.some.inj he0
      refine ⟨cpt', ?_, ?_, ?_⟩
      · rw [List.get?_set, if_pos rfl, hg]
        rfl
      · rw [hpar, he]
        exact he0p
      · rw [hdep, he]
        exact he0d
    · refine ⟨e0, ?_, he0p, he0d⟩
      rw [List.get?_set, if_neg h0]
      exact he0
  · intro e he
    rw [List.length_set]
    rcases List.mem_or_eq_of_mem_set he with he2 | he2
    · exact hrange e he2
    · subst he2
      rw [hpar, hch]
      exact hrange cpt hmem

/-- Appending a fresh zeroed record and registering it in the parent's
child mapping preserves well-indexedness. -/
theorem poolIndexed_extend {pool : List CallPathTiming} {pidx : Nat}
    {pct : CallPathTiming} {cs d : Nat}
    (hwf : PoolIndexed pool) (hg : pool.get? pidx = some pct) :
    PoolIndexed
      ((pool.set pidx ({ pct with children := insertA cs pool.length pct.children }))
        ++ [⟨some pidx, d, 0, cs, [], 0, 0⟩]) := by
  obtain ⟨hne, ⟨e0, he0, he0p, he0d⟩, hrange⟩ := hwf
  have hmem : pct ∈ pool := List.get?_mem hg
  have hlt : pidx < pool.length := by
    rcases List.get?_eq_some.1 hg with ⟨hh, _⟩
    exact hh
  have hpos : 1 ≤ pool.length := by
    cases pool with
    | nil => simp at hne
    | cons a l => simp
  constructor
  · simp
  constructor
  · have h0 : 0 < (pool.set pidx
        ({ pct with children := insertA cs pool.length pct.children })).length := by
      rw [List.length_set]; omega
    by_cases hp0 : pidx = 0
    · subst hp0
      have he : pct = e0 := by rw [hg] at he0; exact Option.some.inj he0
      refine ⟨{ pct with children := insertA cs pool.length pct.children }, ?_, ?_, ?_⟩
      · rw [List.get?_append h0, List.get?_set, if_pos rfl, hg]
        rfl
      · show pct.parent_idx = none
        rw [he]
        exact he0p
      · show pct.depth = 0
        rw [he]
        exact he0d
    · refine ⟨e0, ?_, he0p, he0d⟩
      rw [List.get?_append h0, List.get?_set, if_neg hp0]
      exact he0
  · intro e he
    rw [List.length_append, List.length_set, List.length_singleton]
    rcases List.mem_append.1 he with he2 | he2
    · rcases List.mem_or_eq_of_mem_set he2 with he3 | he3
      · obtain ⟨h1, h2⟩ := hrange e he3
        refine ⟨fun j hj => by have := h1 j hj; omega,
          fun cs' j hj => by have := h2 cs' j hj; omega⟩
      · subst he3
        obtain ⟨h1, h2⟩ := hrange pct hmem
        refine ⟨fun j hj => by have := h1 j hj; omega, ?_⟩
        intro cs' j hj
        rcases lookupA_insertA_or hj with ⟨rfl, rfl⟩ | hj2
        · omega
        · have := h2 cs' j hj2
          omega
    · rw [List.mem_singleton] at he2
      subst he2
      refine ⟨fun j hj => ?_, fun cs' j hj => by simp [lookupA] at hj⟩
      simp at hj
      omega

/-! ## Root-walk stability and ancestry -/

theorem rootOf_unique {spans : List (Nat × SpanData)} {f1 f2 id r1 r2 : Nat}
    (h1 : rootOf spans f1 id = some r1) (h2 : rootOf spans f2 id = some r2) :
    r1 = r2 := by
  rcases Nat.le_total f1 f2 with h | h
  · have := rootOf_fuel_mono h1 h
    rw [this] at h2
    exact Option.some.inj h2
  · have := rootOf_fuel_mono h2 h
    rw [this] at h1
    exact (Option.some.inj h1).symm

/-- Inserting a fresh span record does not change the root of any span. -/
theorem rootOfF_insert_fresh {s : State} {idn : Nat} {sd : SpanData} {idq r : Nat}
    (hfresh : lookupA idn s.spans = none)
    (h : rootOfF s idq = some r) :
    rootOf (insertA idn sd s.spans) ((insertA idn sd s.spans).length + 1) idq
      = some r := by
  rw [insertA_of_lookupA_eq_none _ hfresh] at *
  refine rootOf_fuel_mono (rootOf_append _ h) ?_
  simp

/-- Walking from a tracked span distinct from its root yields, by way of
the tracked-parent invariant, a tracked direct child of the root. -/
theorem chain_to_root {s : State}
    (tpar : ∀ id ti sd p, lookupA id s.timing = some ti →
      lookupA id s.spans = some sd → sd.parent = some p →
      (lookupA p s.timing).isSome) :
    ∀ fuel idq r, rootOf s.spans fuel idq = some r → idq ≠ r →
      (lookupA idq s.timing).isSome →
      ∃ a sd, (lookupA a s.timing).isSome ∧ lookupA a s.spans = some sd ∧
        sd.parent = some r := by
  intro fuel
  induction fuel with
  | zero =>
    intro idq r h
    simp [rootOf] at h
  | succ n ih =>
    intro idq r h hne htr
    rw [rootOf] at h
    cases hspan : lookupA idq s.spans with
    | none => rw [hspan] at h; exact absurd h (by simp)
    | some sd =>
      simp only [hspan] at h
      cases hpar : sd.parent with
      | none =>
        simp only [hpar] at h
        exact absurd (Option.some.inj h) hne
      | some p =>
        simp only [hpar] at h
        cases hti : lookupA idq s.timing with
        | none => rw [hti] at htr; exact absurd htr (by simp)
        | some ti =>
          have hptr : (lookupA p s.timing).isSome := tpar idq ti sd p hti hspan hpar
          by_cases hpr : p = r
          · subst hpr
            exact ⟨idq, sd, htr, hspan, hpar⟩
          · exact ih p r h hpr hptr

/-- Unfolding lemma for one step of the root walk. -/
theorem rootOf_succ (spans : List (Nat × SpanData)) (fuel idq : Nat) :
    rootOf spans (fuel + 1) idq =
      match lookupA idq spans with
      | none => none
      | some sd =>
        match sd.parent with
        | none => some idq
        | some p => rootOf spans fuel p := rfl

/-! ## Preservation of the bookkeeping invariant -/

theorem cinv_create (maxD : Nat) (id : Nat) (parent : Option Nat) (cs : Nat)
    (h h' : Host) (s s' : State)
    (hh : hostStepC (Event.create id parent cs) h = some h')
    (hs : new_span maxD id parent cs s = some s')
    (inv : CInv h s) : CInv h' s' := by
  simp only [hostStepC] at hh
  by_cases hfr : (lookupA id h.created).isSome
  · rw [if_pos hfr] at hh
    exact absurd hh (by simp)
  rw [if_neg hfr] at hh
  cases hh
  have hcrn : lookupA id h.created = none := by
    cases hc : lookupA id h.created with
    | none => rfl
    | some v => rw [hc] at hfr; exact absurd rfl hfr
  have hspn : lookupA id s.spans = none := by
    have hm := inv.mirror id
    rw [hcrn] at hm
    cases hsp : lookupA id s.spans with
    | none => rfl
    | some sd => rw [hsp] at hm; simp at hm
  have htin : lookupA id s.timing = none := by
    cases ht : lookupA id s.timing with
    | none => rfl
    | some ti =>
      have := inv.tspan id (by rw [ht]; rfl)
      rw [hspn] at this
      exact absurd this (by simp)
  have hpon : lookupA id s.pools = none := by
    cases hp : lookupA id s.pools with
    | none => rfl
    | some pl =>
      obtain ⟨sd, hsd, _⟩ := inv.proot id pl hp
      rw [hspn] at hsd
      exact absurd hsd (by simp)
  have hclid : id ∉ h.closed := by
    intro hc
    have := inv.clsub id hc
    rw [hcrn] at this
    exact absurd this (by simp)
  have hmirror : ∀ idq, lookupA idq (h.created ++ [(id, parent)]) =
      (lookupA idq (insertA id ⟨parent, cs⟩ s.spans)).map SpanData.parent := by
    intro idq
    by_cases hq : idq = id
    · subst hq
      rw [lookupA_append_right hcrn, lookupA_insertA_self]
      simp [lookupA]
    · rw [lookupA_insertA_ne _ _ fun hc => hq hc.symm]
      cases hc : lookupA idq h.created with
      | some v =>
        rw [lookupA_append_left hc]
        have hm := inv.mirror idq
        rw [hc] at hm
        exact hm
      | none =>
        rw [lookupA_append_right hc]
        have hm := inv.mirror idq
        rw [hc] at hm
        have h1 : lookupA idq [(id, parent)] = none := by
          simp [lookupA, Ne.symm hq]
        rw [h1]
        exact hm
  have hclsub : ∀ c ∈ h.closed, (lookupA c (h.created ++ [(id, parent)])).isSome := by
    intro c hc
    cases hcc : lookupA c h.created with
    | some v => rw [lookupA_append_left hcc]; rfl
    | none =>
      have := inv.clsub c hc
      rw [hcc] at this
      exact absurd this (by simp)
  -- A helper covering every branch where no tracker is attached:
  -- only the structural span record is written.
  have base_case : CInv { h with created := h.created ++ [(id, parent)] }
      { s with spans := insertA id ⟨parent, cs⟩ s.spans } := by
    refine ⟨?_, inv.tkeys, inv.pkeys, hmirror, hclsub, ?_, inv.tclosed, ?_, ?_, ?_,
      inv.pwf, inv.fwf⟩
    · exact keysA_nodup_insertA _ inv.skeys
    · intro idq hq
      have hsp := inv.tspan idq hq
      have hne : id ≠ idq := by
        intro he
        subst he
        rw [htin] at hq
        exact absurd hq (by simp)
      rw [lookupA_insertA_ne _ _ hne]
      exact hsp
    · intro idq ti sd p hti hsp hpar
      have hne : id ≠ idq := by
        intro he
        subst he
        rw [htin] at hti
        exact absurd hti (by simp)
      rw [lookupA_insertA_ne _ _ hne] at hsp
      exact inv.tparent idq ti sd p hti hsp hpar
    · intro r pl hpl
      obtain ⟨sd, hsd, hsdp⟩ := inv.proot r pl hpl
      have hne : id ≠ r := by
        intro he
        subst he
        rw [hpon] at hpl
        exact absurd hpl (by simp)
      rw [lookupA_insertA_ne _ _ hne]
      exact ⟨sd, hsd, hsdp⟩
    · intro idq ti hti
      obtain ⟨r, pl, hroot, hplk, hlt, hiff⟩ := inv.tidx idq ti hti
      exact ⟨r, pl, rootOfF_insert_fresh hspn hroot, hplk, hlt, hiff⟩
  cases parent with
  | none =>
    simp only [new_span] at hs
    cases hs
    refine ⟨?_, ?_, ?_, hmirror, hclsub, ?_, ?_, ?_, ?_, ?_, ?_, inv.fwf⟩
    · exact keysA_nodup_insertA _ inv.skeys
    · exact keysA_nodup_insertA _ inv.tkeys
    · exact keysA_nodup_insertA _ inv.pkeys
    · intro idq hq
      by_cases hne : idq = id
      · subst hne
        rw [lookupA_insertA_self]
        rfl
      · rw [lookupA_insertA_ne _ _ fun hc => hne hc.symm] at hq
        rw [lookupA_insertA_ne _ _ fun hc => hne hc.symm]
        exact inv.tspan idq hq
    · intro idq hq
      by_cases hne : idq = id
      · subst hne
        exact hclid
      · rw [lookupA_insertA_ne _ _ fun hc => hne hc.symm] at hq
        exact inv.tclosed idq hq
    · intro idq ti sd p hti hsp hpar
      by_cases hne : idq = id
      · subst hne
        rw [lookupA_insertA_self] at hsp
        rw [← Option.some.inj hsp] at hpar
        exact absurd hpar (by simp)
      · rw [lookupA_insertA_ne _ _ fun hc => hne hc.symm] at hti hsp
        have hp := inv.tparent idq ti sd p hti hsp hpar
        have hpne : id ≠ p := by
          intro he
          subst he
          rw [htin] at hp
          exact absurd hp (by simp)
        rw [lookupA_insertA_ne _ _ hpne]
        exact hp
    · intro r pl hpl
      by_cases hne : r = id
      · subst hne
        rw [lookupA_insertA_self]
        exact ⟨⟨none, cs⟩, rfl, rfl⟩
      · rw [lookupA_insertA_ne _ _ fun hc => hne hc.symm] at hpl
        obtain ⟨sd, hsd, hsdp⟩ := inv.proot r pl hpl
        have hrne : id ≠ r := fun hc => hne hc.symm
        rw [lookupA_insertA_ne _ _ hrne]
        exact ⟨sd, hsd, hsdp⟩
    · intro idq ti hti
      by_cases hne : idq = id
      · subst hne
        rw [lookupA_insertA_self] at hti
        refine ⟨idq, [⟨none, 0, 0, cs, [], 0, 0⟩], ?_, by rw [lookupA_insertA_self], ?_, ?_⟩
        · show rootOf (insertA idq ⟨none, cs⟩ s.spans)
            ((insertA idq ⟨none, cs⟩ s.spans).length + 1) idq = some idq
          rw [rootOf_succ, lookupA_insertA_self]
        · rw [← Option.some.inj hti]
          simp [SpanTimingInfo.for_call_path_idx]
        · rw [← Option.some.inj hti]
          simp [SpanTimingInfo.for_call_path_idx]
      · rw [lookupA_insertA_ne _ _ fun hc => hne hc.symm] at hti
        obtain ⟨r, pl, hroot, hplk, hlt, hiff⟩ := inv.tidx idq ti hti
        have hrne : id ≠ r := by
          intro he
          subst he
          rw [hpon] at hplk
          exact absurd hplk (by simp)
        refine ⟨r, pl, rootOfF_insert_fresh hspn hroot, ?_, hlt, hiff⟩
        rw [lookupA_insertA_ne _ _ hrne]
        exact hplk
    · intro pr hpr
      rcases mem_insertA_cases hpr with hnew | hold
      · subst hnew
        refine ⟨by simp, ⟨⟨none, 0, 0, cs, [], 0, 0⟩, rfl, rfl, rfl⟩, ?_⟩
        intro e he
        rw [List.mem_singleton] at he
        subst he
        exact ⟨by simp, fun cs' j hj => by simp [lookupA] at hj⟩
      · exact inv.pwf pr hold
  | some p =>
    simp only [new_span] at hs
    cases hp1 : lookupA p s.timing with
    | none =>
      simp only [hp1] at hs
      cases hs
      exact base_case
    | some pinfo =>
      simp only [hp1] at hs
      have hpid : p ≠ id := by
        intro he
        subst he
        rw [htin] at hp1
        exact absurd hp1 (by simp)
      cases hr : rootOf (insertA id ⟨some p, cs⟩ s.spans)
          ((insertA id ⟨some p, cs⟩ s.spans).length + 1) id with
      | none => simp only [hr] at hs; exact absurd hs (by simp)
      | some rootId =>
        simp only [hr] at hs
        cases hp2 : lookupA rootId s.pools with
        | none => simp only [hp2] at hs; exact absurd hs (by simp)
        | some pool =>
          simp only [hp2] at hs
          have hrootne : id ≠ rootId := by
            intro he
            subst he
            rw [hpon] at hp2
            exact absurd hp2 (by simp)
          obtain ⟨sdr, hsdr, hsdrp⟩ := inv.proot rootId pool hp2
          have hpoolwf : PoolIndexed pool := inv.pwf (rootId, pool) (mem_of_lookupA_eq_some hp2)
          cases hg : pool.get? pinfo.call_path_idx with
          | none => simp only [hg] at hs; exact absurd hs (by simp)
          | some pct =>
            simp only [hg] at hs
            by_cases hd : maxD ≤ pct.depth + 1
            · rw [if_pos hd] at hs
              cases hs
              exact base_case
            · rw [if_neg hd] at hs
              cases hc : lookupA cs pct.children with
              | some j =>
                simp only [hc] at hs
                cases hs
                have hjr : j < pool.length ∧ 1 ≤ j :=
                  (hpoolwf.2.2 pct (List.get?_mem hg)).2 cs j hc
                refine ⟨?_, ?_, inv.pkeys, hmirror, hclsub, ?_, ?_, ?_, ?_, ?_,
                  inv.pwf, inv.fwf⟩
                · exact keysA_nodup_insertA _ inv.skeys
                · exact keysA_nodup_insertA _ inv.tkeys
                · intro idq hq
                  by_cases hne : idq = id
                  · subst hne
                    rw [lookupA_insertA_self]
                    rfl
                  · rw [lookupA_insertA_ne _ _ fun hcq => hne hcq.symm] at hq
                    rw [lookupA_insertA_ne _ _ fun hcq => hne hcq.symm]
                    exact inv.tspan idq hq
                · intro idq hq
                  by_cases hne : idq = id
                  · subst hne
                    exact hclid
                  · rw [lookupA_insertA_ne _ _ fun hcq => hne hcq.symm] at hq
                    exact inv.tclosed idq hq
                · intro idq ti sd pq hti hsp hpar
                  by_cases hne : idq = id
                  · subst hne
                    rw [lookupA_insertA_self] at hsp
                    rw [← Option.some.inj hsp] at hpar
                    have : pq = p := by
                      simpa using (Option.some.inj hpar).symm
                    subst this
                    rw [lookupA_insertA_ne _ _ (Ne.symm hpid), hp1]
                    rfl
                  · rw [lookupA_insertA_ne _ _ fun hcq => hne hcq.symm] at hti hsp
                    have hpq := inv.tparent idq ti sd pq hti hsp hpar
                    have hpne : id ≠ pq := by
                      intro he
                      subst he
                      rw [htin] at hpq
                      exact absurd hpq (by simp)
                    rw [lookupA_insertA_ne _ _ hpne]
                    exact hpq
                · intro r pl hpl
                  obtain ⟨sd, hsd, hsdp⟩ := inv.proot r pl hpl
                  have hrne2 : id ≠ r := by
                    intro he
                    subst he
                    rw [hpon] at hpl
                    exact absurd hpl (by simp)
                  rw [lookupA_insertA_ne _ _ hrne2]
                  exact ⟨sd, hsd, hsdp⟩
                · intro idq ti hti
                  by_cases hne : idq = id
                  · subst hne
                    rw [lookupA_insertA_self] at hti
                    refine ⟨rootId, pool, hr, hp2, ?_, ?_⟩
                    · rw [← Option.some.inj hti]
                      exact hjr.1
                    · rw [← Option.some.inj hti]
                      simp only [SpanTimingInfo.for_call_path_idx]
                      constructor
                      · intro hj0
                        omega
                      · intro hj0
                        exact absurd hj0 hrootne
                  · rw [lookupA_insertA_ne _ _ fun hcq => hne hcq.symm] at hti
                    obtain ⟨r, pl, hroot, hplk, hlt, hiff⟩ := inv.tidx idq ti hti
                    exact ⟨r, pl, rootOfF_insert_fresh hspn hroot, hplk, hlt, hiff⟩
              | none =>
                simp only [hc] at hs
                cases hs
                have hpidx : pinfo.call_path_idx < pool.length := by
                  rcases List.get?_eq_some.1 hg with ⟨hh2, _⟩
                  exact hh2
                have hlen1 : 1 ≤ pool.length :=
                  Nat.pos_of_ne_zero fun h0 => hpoolwf.1 (List.length_eq_zero.1 h0)
                have hlen' :
                    ((pool.set pinfo.call_path_idx
                      ({ pct with children := insertA cs pool.length pct.children }))
                      ++ [(⟨some pinfo.call_path_idx, pct.depth + 1, 0, cs, [], 0, 0⟩ :
                        CallPathTiming)]).length
                    = pool.length + 1 := by
                  rw [List.length_append, List.length_set, List.length_singleton]
                refine ⟨?_, ?_, ?_, hmirror, hclsub, ?_, ?_, ?_, ?_, ?_, ?_, inv.fwf⟩
                · exact keysA_nodup_insertA _ inv.skeys
                · exact keysA_nodup_insertA _ inv.tkeys
                · exact keysA_nodup_insertA _ inv.pkeys
                · intro idq hq
                  by_cases hne : idq = id
                  · subst hne
                    rw [lookupA_insertA_self]
                    rfl
                  · rw [lookupA_insertA_ne _ _ fun hcq => hne hcq.symm] at hq
                    rw [lookupA_insertA_ne _ _ fun hcq => hne hcq.symm]
                    exact inv.tspan idq hq
                · intro idq hq
                  by_cases hne : idq = id
                  · subst hne
                    exact hclid
                  · rw [lookupA_insertA_ne _ _ fun hcq => hne hcq.symm] at hq
                    exact inv.tclosed idq hq
                · intro idq ti sd pq hti hsp hpar
                  by_cases hne : idq = id
                  · subst hne
                    rw [lookupA_insertA_self] at hsp
                    rw [← Option.some.inj hsp] at hpar
                    have : pq = p := by
                      simpa using (Option.some.inj hpar).symm
                    subst this
                    rw [lookupA_insertA_ne _ _ (Ne.symm hpid), hp1]
                    rfl
                  · rw [lookupA_insertA_ne _ _ fun hcq => hne hcq.symm] at hti hsp
                    have hpq := inv.tparent idq ti sd pq hti hsp hpar
                    have hpne : id ≠ pq := by
                      intro he
                      subst he
                      rw [htin] at hpq
                      exact absurd hpq (by simp)
                    rw [lookupA_insertA_ne _ _ hpne]
                    exact hpq
                · intro r pl hpl
                  by_cases hne : r = rootId
                  · subst hne
                    have hrne2 : id ≠ r := hrootne
                    rw [lookupA_insertA_ne _ _ hrne2]
                    exact ⟨sdr, hsdr, hsdrp⟩
                  · rw [lookupA_insertA_ne _ _ fun hcq => hne hcq.symm] at hpl
                    obtain ⟨sd, hsd, hsdp⟩ := inv.proot r pl hpl
                    have hrne2 : id ≠ r := by
                      intro he
                      subst he
                      rw [hpon] at hpl
                      exact absurd hpl (by simp)
                    rw [lookupA_insertA_ne _ _ hrne2]
                    exact ⟨sd, hsd, hsdp⟩
                · intro idq ti hti
                  by_cases hne : idq = id
                  · subst hne
                    rw [lookupA_insertA_self] at hti
                    refine ⟨rootId, _, hr, lookupA_insertA_self .., ?_, ?_⟩
                    · rw [← Option.some.inj hti]
                      simp only [SpanTimingInfo.for_call_path_idx]
                      omega
                    · rw [← Option.some.inj hti]
                      simp only [SpanTimingInfo.for_call_path_idx]
                      constructor
                      · intro hj0
                        omega
                      · intro hj0
                        exact absurd hj0 hrootne
                  · rw [lookupA_insertA_ne _ _ fun hcq => hne hcq.symm] at hti
                    obtain ⟨r, pl, hroot, hplk, hlt, hiff⟩ := inv.tidx idq ti hti
                    by_cases hre : r = rootId
                    · have hpl2 : pl = pool := by
                        rw [hre, hp2] at hplk
                        exact (Option.some.inj hplk).symm
                      refine ⟨r, (pool.set pinfo.call_path_idx
                        ({ pct with children := insertA cs pool.length pct.children }) ++
                        [(⟨some pinfo.call_path_idx, pct.depth + 1, 0, cs, [], 0, 0⟩ :
                          CallPathTiming)]),
                        rootOfF_insert_fresh hspn hroot, ?_, ?_, hiff⟩
                      · rw [hre]
                        exact lookupA_insertA_self ..
                      · rw [hlen']
                        rw [hpl2] at hlt
                        omega
                    · refine ⟨r, pl, rootOfF_insert_fresh hspn hroot, ?_, hlt, hiff⟩
                      rw [lookupA_insertA_ne _ _
                        (show rootId ≠ r from fun hcq => hre hcq.symm)]
                      exact hplk
                · intro pr hpr
                  rcases mem_insertA_cases hpr with hnew | hold
                  · subst hnew
                    exact poolIndexed_extend hpoolwf hg
                  · exact inv.pwf pr hold

theorem insertA_existing_dom {α : Type} {k : Nat} {v w : α} {l : List (Nat × α)}
    (hk : lookupA k l = some w) (q : Nat) :
    (lookupA q (insertA k v l)).isSome ↔ (lookupA q l).isSome := by
  by_cases hq : k = q
  · subst hq
    rw [lookupA_insertA_self, hk]
    simp
  · rw [lookupA_insertA_ne _ _ hq]

/-- A timing table rewrite that preserves the key set and every tracker's
call-path identity preserves the bookkeeping invariant. -/
theorem cinv_timing_update {h : Host} {s : State} {T : List (Nat × SpanTimingInfo)}
    (inv : CInv h s)
    (hkeys : (keysA T).Nodup)
    (hdom : ∀ idq, (lookupA idq T).isSome ↔ (lookupA idq s.timing).isSome)
    (hval : ∀ idq ti', lookupA idq T = some ti' →
      ∃ ti, lookupA idq s.timing = some ti ∧
        ti'.call_path_idx = ti.call_path_idx) :
    CInv h { s with timing := T } := by
  refine ⟨inv.skeys, hkeys, inv.pkeys, inv.mirror, inv.clsub, ?_, ?_, ?_,
    inv.proot, ?_, inv.pwf, inv.fwf⟩
  · intro idq hq
    exact inv.tspan idq ((hdom idq).1 hq)
  · intro idq hq
    exact inv.tclosed idq ((hdom idq).1 hq)
  · intro idq ti' sd p hti hsp hpar
    obtain ⟨ti, hti2, _⟩ := hval idq ti' hti
    have := inv.tparent idq ti sd p hti2 hsp hpar
    exact (hdom p).2 this
  · intro idq ti' hti
    obtain ⟨ti, hti2, hidx⟩ := hval idq ti' hti
    obtain ⟨r, pl, hroot, hplk, hlt, hiff⟩ := inv.tidx idq ti hti2
    rw [← hidx] at hlt hiff
    exact ⟨r, pl, hroot, hplk, hlt, hiff⟩

theorem cinv_enter (id tid lp st : Nat) (h h' : Host) (s s' : State)
    (hh : hostStepC (Event.enter id tid lp st) h = some h')
    (hs : on_enter id tid lp st s = some s')
    (inv : CInv h s) : CInv h' s' := by
  cases hh
  simp only [on_enter] at hs
  cases hsp : lookupA id s.spans with
  | none => rw [hsp] at hs; exact absurd hs (by simp)
  | some sd =>
    simp only [hsp] at hs
    cases hti : lookupA id s.timing with
    | none => simp only [hti] at hs; cases hs; exact inv
    | some ti =>
      simp only [hti] at hs
      cases hpar : sd.parent with
      | none =>
        simp only [hpar] at hs
        cases hs
        refine cinv_timing_update inv (keysA_nodup_insertA _ inv.tkeys)
          (fun idq => insertA_existing_dom hti idq) ?_
        intro idq ti' hl
        rcases lookupA_insertA_or hl with ⟨rfl, rfl⟩ | hl2
        · exact ⟨ti, hti, rfl⟩
        · exact ⟨ti', hl2, rfl⟩
      | some p =>
        simp only [hpar] at hs
        cases hl : lookupA p
            (insertA id ({ ti with
              per_thread := insertA tid ⟨st, st⟩ ti.per_thread }) s.timing) with
        | none =>
          simp only [hl] at hs
          cases hs
          refine cinv_timing_update inv (keysA_nodup_insertA _ inv.tkeys)
            (fun idq => insertA_existing_dom hti idq) ?_
          intro idq ti' hl2
          rcases lookupA_insertA_or hl2 with ⟨rfl, rfl⟩ | hl3
          · exact ⟨ti, hti, rfl⟩
          · exact ⟨ti', hl3, rfl⟩
        | some pti =>
          simp only [hl] at hs
          cases hq : lookupA tid pti.per_thread with
          | none => simp only [hq] at hs; exact absurd hs (by simp)
          | some ppt =>
            simp only [hq] at hs
            cases hs
            have hkeys2 : (keysA (insertA id ({ ti with
                per_thread := insertA tid ⟨st, st⟩ ti.per_thread })
                s.timing)).Nodup := keysA_nodup_insertA _ inv.tkeys
            refine cinv_timing_update inv (keysA_nodup_insertA _ hkeys2) ?_ ?_
            · intro idq
              rw [insertA_existing_dom hl idq]
              exact insertA_existing_dom hti idq
            · intro idq ti' hl2
              rcases lookupA_insertA_or hl2 with ⟨rfl, rfl⟩ | hl3
              · rcases lookupA_insertA_or hl with ⟨rfl, rfl⟩ | hl4
                · exact ⟨ti, hti, rfl⟩
                · exact ⟨pti, hl4, rfl⟩
              · rcases lookupA_insertA_or hl3 with ⟨rfl, rfl⟩ | hl4
                · exact ⟨ti, hti, rfl⟩
                · exact ⟨ti', hl4, rfl⟩

theorem cinv_exit (id tid endT enterOwn : Nat) (h h' : Host) (s s' : State)
    (hh : hostStepC (Event.exit id tid endT enterOwn) h = some h')
    (hs : on_exit id tid endT enterOwn s = some s')
    (inv : CInv h s) : CInv h' s' := by
  cases hh
  simp only [on_exit] at hs
  cases hsp : lookupA id s.spans with
  | none => rw [hsp] at hs; exact absurd hs (by simp)
  | some sd =>
    simp only [hsp] at hs
    cases hti : lookupA id s.timing with
    | none => simp only [hti] at hs; cases hs; exact inv
    | some ti =>
      simp only [hti] at hs
      cases hpt : lookupA tid ti.per_thread with
      | none => simp only [hpt] at hs; exact absurd hs (by simp)
      | some pt =>
        simp only [hpt] at hs
        cases hpar : sd.parent with
        | none =>
          simp only [hpar] at hs
          cases hs
          refine cinv_timing_update inv (keysA_nodup_insertA _ inv.tkeys)
            (fun idq => insertA_existing_dom hti idq) ?_
          intro idq ti' hl
          rcases lookupA_insertA_or hl with ⟨rfl, rfl⟩ | hl2
          · exact ⟨ti, hti, rfl⟩
          · exact ⟨ti', hl2, rfl⟩
        | some p =>
          simp only [hpar] at hs
          cases hl : lookupA p
              (insertA id ({ ti with
                sum_with_children := ti.sum_with_children + delta pt.last_enter endT
                sum_own := ti.sum_own + delta pt.last_enter_own endT
                per_thread := removeA tid ti.per_thread }) s.timing) with
          | none => simp only [hl] at hs; exact absurd hs (by simp)
          | some pti =>
            simp only [hl] at hs
            cases hq : lookupA tid pti.per_thread with
            | none =>
              simp only [hq] at hs
              cases hs
              refine cinv_timing_update inv (keysA_nodup_insertA _ inv.tkeys)
                (fun idq => insertA_existing_dom hti idq) ?_
              intro idq ti' hl2
              rcases lookupA_insertA_or hl2 with ⟨rfl, rfl⟩ | hl3
              · exact ⟨ti, hti, rfl⟩
              · exact ⟨ti', hl3, rfl⟩
            | some ppt =>
              simp only [hq] at hs
              cases hs
              have hkeys2 : (keysA (insertA id ({ ti with
                  sum_with_children := ti.sum_with_children + delta pt.last_enter endT
                  sum_own := ti.sum_own + delta pt.last_enter_own endT
                  per_thread := removeA tid ti.per_thread })
                  s.timing)).Nodup := keysA_nodup_insertA _ inv.tkeys
              refine cinv_timing_update inv (keysA_nodup_insertA _ hkeys2) ?_ ?_
              · intro idq
                rw [insertA_existing_dom hl idq]
                exact insertA_existing_dom hti idq
              · intro idq ti' hl2
                rcases lookupA_insertA_or hl2 with ⟨rfl, rfl⟩ | hl3
                · rcases lookupA_insertA_or hl with ⟨rfl, rfl⟩ | hl4
                  · exact ⟨ti, hti, rfl⟩
                  · exact ⟨pti, hl4, rfl⟩
                · rcases lookupA_insertA_or hl3 with ⟨rfl, rfl⟩ | hl4
                  · exact ⟨ti, hti, rfl⟩
                  · exact ⟨ti', hl4, rfl⟩

theorem cinv_close (id : Nat) (h h' : Host) (s s' : State)
    (hh : hostStepC (Event.close id) h = some h')
    (hs : on_close id s = some s')
    (inv : CInv h s) : CInv h' s' := by
  simp only [hostStepC] at hh
  by_cases hcc : childrenClosed h id
  swap
  · rw [if_neg hcc] at hh
    exact absurd hh (by simp)
  rw [if_pos hcc] at hh
  cases hh
  simp only [on_close] at hs
  cases hsp : lookupA id s.spans with
  | none => rw [hsp] at hs; exact absurd hs (by simp)
  | some sd =>
    simp only [hsp] at hs
    have hidcr : (lookupA id h.created).isSome := by
      rw [inv.mirror id, hsp]
      rfl
    have hclsub2 : ∀ c ∈ id :: h.closed,
        (lookupA c h.created).isSome := by
      intro c hcm
      rcases List.mem_cons.1 hcm with rfl | hcm2
      · exact hidcr
      · exact inv.clsub c hcm2
    cases hti : lookupA id s.timing with
    | none =>
      simp only [hti] at hs
      cases hs
      refine ⟨inv.skeys, inv.tkeys, inv.pkeys, inv.mirror, hclsub2, inv.tspan,
        ?_, inv.tparent, inv.proot, inv.tidx, inv.pwf, inv.fwf⟩
      intro idq hq hmem
      rcases List.mem_cons.1 hmem with heq | hmem2
      · subst heq
        rw [hti] at hq
        exact absurd hq (by simp)
      · exact inv.tclosed idq hq hmem2
    | some ti =>
      simp only [hti] at hs
      have hnotracked_child : ∀ c ti2 sd2, lookupA c s.timing = some ti2 →
          lookupA c s.spans = some sd2 → sd2.parent = some id → False := by
        intro c ti2 sd2 h1 h2 h3
        have hm := inv.mirror c
        rw [h2] at hm
        simp only [Option.map_some'] at hm
        rw [h3] at hm
        have hccm : (c, some id) ∈ h.created := mem_of_lookupA_eq_some hm
        have hcl : c ∈ h.closed := hcc (c, some id) hccm rfl
        exact inv.tclosed c (by rw [h1]; rfl) hcl
      have htkeys' : (keysA (removeA id s.timing)).Nodup :=
        keysA_nodup_removeA _ inv.tkeys
      have hremself : lookupA id (removeA id s.timing) = none :=
        lookupA_removeA_self inv.tkeys
      have htspan' : ∀ idq, (lookupA idq (removeA id s.timing)).isSome →
          (lookupA idq s.spans).isSome := by
        intro idq hq
        by_cases hne : idq = id
        · subst hne
          rw [hremself] at hq
          exact absurd hq (by simp)
        · rw [lookupA_removeA_ne _ fun hcq => hne hcq.symm] at hq
          exact inv.tspan idq hq
      have htclosed' : ∀ idq, (lookupA idq (removeA id s.timing)).isSome →
          idq ∉ id :: h.closed := by
        intro idq hq hmem
        by_cases hne : idq = id
        · subst hne
          rw [hremself] at hq
          exact absurd hq (by simp)
        · rw [lookupA_removeA_ne _ fun hcq => hne hcq.symm] at hq
          rcases List.mem_cons.1 hmem with heq | hmem2
          · exact hne heq
          · exact inv.tclosed idq hq hmem2
      have htparent' : ∀ idq ti2 sd2 p, lookupA idq (removeA id s.timing) = some ti2 →
          lookupA idq s.spans = some sd2 → sd2.parent = some p →
          (lookupA p (removeA id s.timing)).isSome := by
        intro idq ti2 sd2 p h1 h2 h3
        by_cases hne : idq = id
        · subst hne
          rw [hremself] at h1
          exact absurd h1 (by simp)
        · rw [lookupA_removeA_ne _ fun hcq => hne hcq.symm] at h1
          have hp := inv.tparent idq ti2 sd2 p h1 h2 h3
          by_cases hpe : p = id
          · subst hpe
            exact absurd (hnotracked_child idq ti2 sd2 h1 h2 h3) (by simp)
          · rw [lookupA_removeA_ne _ fun hcq => hpe hcq.symm]
            exact hp
      cases hr : rootOf s.spans (s.spans.length + 1) id with
      | none => simp only [hr] at hs; exact absurd hs (by simp)
      | some rootId =>
        simp only [hr] at hs
        cases hpl : lookupA rootId s.pools with
        | none => simp only [hpl] at hs; exact absurd hs (by simp)
        | some pool =>
          simp only [hpl] at hs
          cases hg : pool.get? ti.call_path_idx with
          | none => simp only [hg] at hs; exact absurd hs (by simp)
          | some cpt =>
            simp only [hg] at hs
            have hpoolwf : PoolIndexed pool :=
              inv.pwf (rootId, pool) (mem_of_lookupA_eq_some hpl)
            have hsetwf : PoolIndexed (pool.set ti.call_path_idx
                ({ cpt with
                  call_count := cpt.call_count + 1
                  sum_with_children := cpt.sum_with_children + ti.sum_with_children
                  sum_own := cpt.sum_own + ti.sum_own })) :=
              poolIndexed_set_counters hpoolwf hg rfl rfl rfl
            cases hpar : sd.parent with
            | some q =>
              simp only [hpar] at hs
              cases hs
              refine ⟨inv.skeys, htkeys', ?_, inv.mirror, hclsub2, htspan',
                htclosed', htparent', ?_, ?_, ?_, inv.fwf⟩
              · exact keysA_nodup_insertA _ inv.pkeys
              · intro r pl hplq
                by_cases hre : rootId = r
                · subst hre
                  exact inv.proot rootId pool hpl
                · rw [lookupA_insertA_ne _ _ hre] at hplq
                  exact inv.proot r pl hplq
              · intro idq ti2 h1
                by_cases hne : idq = id
                · subst hne
                  rw [hremself] at h1
                  exact absurd h1 (by simp)
                · rw [lookupA_removeA_ne _ fun hcq => hne hcq.symm] at h1
                  obtain ⟨r2, pl2, hroot2, hplk2, hlt2, hiff2⟩ := inv.tidx idq ti2 h1
                  by_cases hre : r2 = rootId
                  · have hpl22 : pl2 = pool := by
                      rw [hre, hpl] at hplk2
                      exact (Option.some.inj hplk2).symm
                    refine ⟨r2, (pool.set ti.call_path_idx
                      ({ cpt with
                        call_count := cpt.call_count + 1
                        sum_with_children := cpt.sum_with_children + ti.sum_with_children
                        sum_own := cpt.sum_own + ti.sum_own })), hroot2, ?_, ?_, hiff2⟩
                    · rw [hre]
                      exact lookupA_insertA_self ..
                    · rw [List.length_set]
                      rw [hpl22] at hlt2
                      exact hlt2
                  · refine ⟨r2, pl2, hroot2, ?_, hlt2, hiff2⟩
                    rw [lookupA_insertA_ne _ _ fun hcq => hre hcq.symm]
                    exact hplk2
              · intro pr hpr
                rcases mem_insertA_cases hpr with hnew | hold
                · subst hnew
                  exact hsetwf
                · exact inv.pwf pr hold
            | none =>
              simp only [hpar] at hs
              cases hs
              have hrid : rootId = id := by
                rw [rootOf_succ, hsp] at hr
                simp only [hpar] at hr
                exact (Option.some.inj hr).symm
              refine ⟨inv.skeys, htkeys', ?_, inv.mirror, hclsub2, htspan',
                htclosed', htparent', ?_, ?_, ?_, ?_⟩
              · exact keysA_nodup_removeA _ inv.pkeys
              · intro r pl hplq
                by_cases hre : r = rootId
                · subst hre
                  rw [lookupA_removeA_self inv.pkeys] at hplq
                  exact absurd hplq (by simp)
                · rw [lookupA_removeA_ne _ fun hcq => hre hcq.symm] at hplq
                  exact inv.proot r pl hplq
              · intro idq ti2 h1
                by_cases hne : idq = id
                · subst hne
                  rw [hremself] at h1
                  exact absurd h1 (by simp)
                · rw [lookupA_removeA_ne _ fun hcq => hne hcq.symm] at h1
                  obtain ⟨r2, pl2, hroot2, hplk2, hlt2, hiff2⟩ := inv.tidx idq ti2 h1
                  have hre : r2 ≠ rootId := by
                    intro he
                    subst he
                    rw [hrid] at hroot2
                    obtain ⟨a, sda, hat, hasp, hap⟩ :=
                      chain_to_root inv.tparent (s.spans.length + 1) idq id hroot2
                        hne (by rw [h1]; rfl)
                    cases hta : lookupA a s.timing with
                    | none => rw [hta] at hat; exact absurd hat (by simp)
                    | some tia => exact hnotracked_child a tia sda hta hasp hap
                  refine ⟨r2, pl2, hroot2, ?_, hlt2, hiff2⟩
                  rw [lookupA_removeA_ne _ fun hcq => hre hcq.symm]
                  exact hplk2
              · intro pr hpr
                exact inv.pwf pr (mem_removeA_subset hpr)
              · intro pl hplm
                rcases List.mem_append.1 hplm with hold | hnew
                · exact inv.fwf pl hold
                · rw [List.mem_singleton] at hnew
                  subst hnew
                  exact hsetwf

/-! ## Counting lemmas -/

theorem sumOver_zero {α : Type} (l : List (Nat × α)) :
    sumOver l (fun _ _ => 0) = 0 := by
  induction l with
  | nil => rfl
  | cons p rest ih => rw [sumOver_cons, ih]

theorem sumOver_eq_zero {α : Type} {l : List (Nat × α)} {f : Nat → α → Nat}
    (h : ∀ p ∈ l, f p.1 p.2 = 0) : sumOver l f = 0 := by
  rw [sumOver_congr f (fun _ _ => 0) h, sumOver_zero]

theorem sumOver_insertA_congr {α : Type} {k : Nat} (v : α) {w : α}
    {l : List (Nat × α)} (f : Nat → α → Nat) (hk : lookupA k l = some w)
    (hf : f k v = f k w) : sumOver (insertA k v l) f = sumOver l f := by
  rw [sumOver_insertA_some v f hk, sumOver_removeA_add f hk, hf]

theorem mem_removeA_self_false {α : Type} {k : Nat} {v : α} {l : List (Nat × α)}
    (hn : (keysA l).Nodup) (h : (k, v) ∈ removeA k l) : False := by
  have h2 := lookupA_of_mem (keysA_nodup_removeA k hn) h
  rw [lookupA_removeA_self hn] at h2
  cases h2

theorem TcountL_congr_spans {spans spans' : List (Nat × SpanData)}
    {timing : List (Nat × SpanTimingInfo)} {r i : Nat}
    (h : ∀ p ∈ timing,
      (rootOf spans' (spans'.length + 1) p.1 = some r) ↔
        (rootOf spans (spans.length + 1) p.1 = some r)) :
    TcountL spans' timing r i = TcountL spans timing r i := by
  refine sumOver_congr _ _ fun p hp => ?_
  exact if_congr (and_congr Iff.rfl (h p hp)) rfl rfl

theorem eq_some_iff_of_both {α : Type} {A B : Option α} {r2 r : α}
    (ha : A = some r2) (hb : B = some r2) : (A = some r) ↔ (B = some r) := by
  rw [ha, hb]

theorem TcountL_insertA_congr {spans : List (Nat × SpanData)} {k : Nat}
    (v : SpanTimingInfo) {w : SpanTimingInfo} {T : List (Nat × SpanTimingInfo)}
    (r i : Nat) (hk : lookupA k T = some w)
    (hidx : v.call_path_idx = w.call_path_idx) :
    TcountL spans (insertA k v T) r i = TcountL spans T r i := by
  unfold TcountL
  exact sumOver_insertA_congr v _ hk
    (if_congr (and_congr (by rw [hidx]) Iff.rfl) rfl rfl)

/-- Creating a fresh span record does not change any tracker count. -/
theorem TcountL_insert_fresh {h : Host} {s : State} (inv : CInv h s)
    {idn : Nat} (sd : SpanData) (hfresh : lookupA idn s.spans = none) (r i : Nat) :
    TcountL (insertA idn sd s.spans) s.timing r i = TcountL s.spans s.timing r i := by
  refine TcountL_congr_spans fun p hp => ?_
  have hlk : lookupA p.1 s.timing = some p.2 := lookupA_of_mem inv.tkeys hp
  obtain ⟨r2, pl2, hroot2, _, _, _⟩ := inv.tidx p.1 p.2 hlk
  have hu : rootOf s.spans (s.spans.length + 1) p.1 = some r2 := hroot2
  have hroot2' : rootOf (insertA idn sd s.spans)
      ((insertA idn sd s.spans).length + 1) p.1 = some r2 :=
    rootOfF_insert_fresh hfresh hroot2
  exact eq_some_iff_of_both hroot2' hu

theorem count_enter (id tid lp st r i n : Nat) (s s' : State)
    (hs : on_enter id tid lp st s = some s')
    (hc : CountRel s r i n) : CountRel s' r i n := by
  simp only [on_enter] at hs
  cases hsp : lookupA id s.spans with
  | none => rw [hsp] at hs; exact absurd hs (by simp)
  | some sd =>
    simp only [hsp] at hs
    cases hti : lookupA id s.timing with
    | none => simp only [hti] at hs; cases hs; exact hc
    | some ti =>
      simp only [hti] at hs
      have h1 : TcountL s.spans (insertA id ({ ti with
          per_thread := insertA tid ⟨st, st⟩ ti.per_thread }) s.timing) r i
          = TcountL s.spans s.timing r i :=
        TcountL_insertA_congr _ r i hti rfl
      cases hpar : sd.parent with
      | none =>
        simp only [hpar] at hs
        cases hs
        exact ⟨hc.1, fun pl hpl => by
          obtain ⟨ha, hb⟩ := hc.2 pl hpl
          refine ⟨fun e he => ?_, fun hle => ?_⟩
          · have := ha e he
            show e.call_count + TcountL s.spans _ r i = n
            rw [h1]
            exact this
          · obtain ⟨hz, hn⟩ := hb hle
            refine ⟨?_, hn⟩
            show TcountL s.spans _ r i = 0
            rw [h1]
            exact hz⟩
      | some p =>
        simp only [hpar] at hs
        cases hl : lookupA p
            (insertA id ({ ti with
              per_thread := insertA tid ⟨st, st⟩ ti.per_thread }) s.timing) with
        | none =>
          simp only [hl] at hs
          cases hs
          exact ⟨hc.1, fun pl hpl => by
            obtain ⟨ha, hb⟩ := hc.2 pl hpl
            refine ⟨fun e he => ?_, fun hle => ?_⟩
            · have := ha e he
              show e.call_count + TcountL s.spans _ r i = n
              rw [h1]
              exact this
            · obtain ⟨hz, hn⟩ := hb hle
              refine ⟨?_, hn⟩
              show TcountL s.spans _ r i = 0
              rw [h1]
              exact hz⟩
        | some pti =>
          simp only [hl] at hs
          cases hq : lookupA tid pti.per_thread with
          | none => simp only [hq] at hs; exact absurd hs (by simp)
          | some ppt =>
            simp only [hq] at hs
            cases hs
            have h2 : TcountL s.spans (insertA p ({ pti with
                sum_own := pti.sum_own + delta ppt.last_enter_own lp })
                (insertA id ({ ti with
                  per_thread := insertA tid ⟨st, st⟩ ti.per_thread }) s.timing)) r i
                = TcountL s.spans s.timing r i :=
              (TcountL_insertA_congr
                ({ pti with sum_own := pti.sum_own + delta ppt.last_enter_own lp })
                r i hl rfl).trans h1
            exact ⟨hc.1, fun pl hpl => by
              obtain ⟨ha, hb⟩ := hc.2 pl hpl
              refine ⟨fun e he => ?_, fun hle => ?_⟩
              · have := ha e he
                show e.call_count + TcountL s.spans _ r i = n
                rw [h2]
                exact this
              · obtain ⟨hz, hn⟩ := hb hle
                refine ⟨?_, hn⟩
                show TcountL s.spans _ r i = 0
                rw [h2]
                exact hz⟩

theorem count_exit (id tid endT enterOwn r i n : Nat) (s s' : State)
    (hs : on_exit id tid endT enterOwn s = some s')
    (hc : CountRel s r i n) : CountRel s' r i n := by
  simp only [on_exit] at hs
  cases hsp : lookupA id s.spans with
  | none => rw [hsp] at hs; exact absurd hs (by simp)
  | some sd =>
    simp only [hsp] at hs
    cases hti : lookupA id s.timing with
    | none => simp only [hti] at hs; cases hs; exact hc
    | some ti =>
      simp only [hti] at hs
      cases hpt : lookupA tid ti.per_thread with
      | none => simp only [hpt] at hs; exact absurd hs (by simp)
      | some pt =>
        simp only [hpt] at hs
        have h1 : TcountL s.spans (insertA id ({ ti with
            sum_with_children := ti.sum_with_children + delta pt.last_enter endT
            sum_own := ti.sum_own + delta pt.last_enter_own endT
            per_thread := removeA tid ti.per_thread }) s.timing) r i
            = TcountL s.spans s.timing r i :=
          TcountL_insertA_congr _ r i hti rfl
        cases hpar : sd.parent with
        | none =>
          simp only [hpar] at hs
          cases hs
          exact ⟨hc.1, fun pl hpl => by
            obtain ⟨ha, hb⟩ := hc.2 pl hpl
            refine ⟨fun e he => ?_, fun hle => ?_⟩
            · have := ha e he
              show e.call_count + TcountL s.spans _ r i = n
              rw [h1]
              exact this
            · obtain ⟨hz, hn⟩ := hb hle
              refine ⟨?_, hn⟩
              show TcountL s.spans _ r i = 0
              rw [h1]
              exact hz⟩
        | some p =>
          simp only [hpar] at hs
          cases hl : lookupA p
              (insertA id ({ ti with
                sum_with_children := ti.sum_with_children + delta pt.last_enter endT
                sum_own := ti.sum_own + delta pt.last_enter_own endT
                per_thread := removeA tid ti.per_thread }) s.timing) with
          | none => simp only [hl] at hs; exact absurd hs (by simp)
          | some pti =>
            simp only [hl] at hs
            cases hq : lookupA tid pti.per_thread with
            | none =>
              simp only [hq] at hs
              cases hs
              exact ⟨hc.1, fun pl hpl => by
                obtain ⟨ha, hb⟩ := hc.2 pl hpl
                refine ⟨fun e he => ?_, fun hle => ?_⟩
                · have := ha e he
                  show e.call_count + TcountL s.spans _ r i = n
                  rw [h1]
                  exact this
                · obtain ⟨hz, hn⟩ := hb hle
                  refine ⟨?_, hn⟩
                  show TcountL s.spans _ r i = 0
                  rw [h1]
                  exact hz⟩
            | some ppt =>
              simp only [hq] at hs
              cases hs
              have h2 : TcountL s.spans (insertA p ({ pti with
                  per_thread := (insertA tid
                    ({ ppt with last_enter_own := enterOwn }) pti.per_thread) })
                  (insertA id ({ ti with
                    sum_with_children :=
                      ti.sum_with_children + delta pt.last_enter endT
                    sum_own := ti.sum_own + delta pt.last_enter_own endT
                    per_thread := removeA tid ti.per_thread }) s.timing)) r i
                  = TcountL s.spans s.timing r i :=
                (TcountL_insertA_congr
                  ({ pti with per_thread := (insertA tid
                    ({ ppt with last_enter_own := enterOwn }) pti.per_thread) })
                  r i hl rfl).trans h1
              exact ⟨hc.1, fun pl hpl => by
                obtain ⟨ha, hb⟩ := hc.2 pl hpl
                refine ⟨fun e he => ?_, fun hle => ?_⟩
                · have := ha e he
                  show e.call_count + TcountL s.spans _ r i = n
                  rw [h2]
                  exact this
                · obtain ⟨hz, hn⟩ := hb hle
                  refine ⟨?_, hn⟩
                  show TcountL s.spans _ r i = 0
                  rw [h2]
                  exact hz⟩

theorem count_close (id r i n : Nat) (h h' : Host) (s s' : State)
    (hh : hostStepC (Event.close id) h = some h')
    (hs : on_close id s = some s')
    (inv : CInv h s) (hc : CountRel s r i n) : CountRel s' r i n := by
  simp only [on_close] at hs
  cases hsp : lookupA id s.spans with
  | none => rw [hsp] at hs; exact absurd hs (by simp)
  | some sd =>
    simp only [hsp] at hs
    cases hti : lookupA id s.timing with
    | none => simp only [hti] at hs; cases hs; exact hc
    | some ti =>
      simp only [hti] at hs
      cases hr : rootOf s.spans (s.spans.length + 1) id with
      | none => simp only [hr] at hs; exact absurd hs (by simp)
      | some rootId =>
        simp only [hr] at hs
        cases hpl : lookupA rootId s.pools with
        | none => simp only [hpl] at hs; exact absurd hs (by simp)
        | some pool =>
          simp only [hpl] at hs
          cases hg : pool.get? ti.call_path_idx with
          | none => simp only [hg] at hs; exact absurd hs (by simp)
          | some cpt =>
            simp only [hg] at hs
            have hdec : Tcount s r i =
                (if ti.call_path_idx = i ∧
                  rootOf s.spans (s.spans.length + 1) id = some r then 1 else 0)
                + TcountL s.spans (removeA id s.timing) r i := by
              show TcountL s.spans s.timing r i = _
              unfold TcountL
              exact sumOver_removeA_add _ hti
            cases hpar : sd.parent with
            | some q =>
              simp only [hpar] at hs
              cases hs
              refine ⟨hc.1, ?_⟩
              intro pl hpl2
              have htc : Tcount { s with
                  timing := removeA id s.timing
                  pools := (insertA rootId (pool.set ti.call_path_idx
                    ({ cpt with
                      call_count := cpt.call_count + 1
                      sum_with_children :=
                        cpt.sum_with_children + ti.sum_with_children
                      sum_own := cpt.sum_own + ti.sum_own })) s.pools) } r i
                  = TcountL s.spans (removeA id s.timing) r i := rfl
              by_cases hre : rootId = r
              · subst hre
                rw [lookupA_insertA_self] at hpl2
                have hple : pl = pool.set ti.call_path_idx
                    ({ cpt with
                      call_count := cpt.call_count + 1
                      sum_with_children := cpt.sum_with_children + ti.sum_with_children
                      sum_own := cpt.sum_own + ti.sum_own }) :=
                  (Option.some.inj hpl2).symm
                obtain ⟨ha, hb⟩ := hc.2 pool hpl
                constructor
                · intro e he
                  rw [htc]
                  rw [hple, List.get?_set] at he
                  by_cases hie : ti.call_path_idx = i
                  · rw [hie] at hg
                    rw [if_pos hie, hg] at he
                    have he2 : e = { cpt with
                        call_count := cpt.call_count + 1
                        sum_with_children := cpt.sum_with_children + ti.sum_with_children
                        sum_own := cpt.sum_own + ti.sum_own } :=
                      (Option.some.inj he).symm
                    have hpre := ha cpt hg
                    rw [hdec, if_pos ⟨hie, hr⟩] at hpre
                    rw [he2]
                    show cpt.call_count + 1 + _ = n
                    omega
                  · rw [if_neg hie] at he
                    have hpre := ha e he
                    rw [hdec, if_neg fun hand => hie hand.1] at hpre
                    omega
                · intro hle
                  rw [hple, List.length_set] at hle
                  obtain ⟨hz, hn⟩ := hb hle
                  rw [hdec] at hz
                  rw [htc]
                  constructor
                  · omega
                  · exact hn
              · rw [lookupA_insertA_ne _ _ hre] at hpl2
                obtain ⟨ha, hb⟩ := hc.2 pl hpl2
                have hf0 : (if ti.call_path_idx = i ∧
                    rootOf s.spans (s.spans.length + 1) id = some r
                    then 1 else 0) = 0 := by
                  rw [if_neg]
                  rintro ⟨-, hand⟩
                  rw [hr] at hand
                  exact hre (Option.some.inj hand)
                constructor
                · intro e he
                  have hpre := ha e he
                  rw [hdec, hf0] at hpre
                  rw [htc]
                  omega
                · intro hle
                  obtain ⟨hz, hn⟩ := hb hle
                  rw [hdec, hf0] at hz
                  rw [htc]
                  exact ⟨by omega, hn⟩
            | none =>
              simp only [hpar] at hs
              cases hs
              have hrid : rootId = id := by
                rw [rootOf_succ, hsp] at hr
                simp only [hpar] at hr
                exact (Option.some.inj hr).symm
              refine ⟨hc.1, ?_⟩
              intro pl hpl2
              have htc : Tcount { s with
                  timing := removeA id s.timing
                  pools := removeA rootId s.pools
                  finished := (s.finished ++ [pool.set ti.call_path_idx
                    ({ cpt with
                      call_count := cpt.call_count + 1
                      sum_with_children := cpt.sum_with_children + ti.sum_with_children
                      sum_own := cpt.sum_own + ti.sum_own })]) } r i
                  = TcountL s.spans (removeA id s.timing) r i := rfl
              have hre : rootId ≠ r := by
                intro he
                rw [he] at hpl2
                rw [lookupA_removeA_self inv.pkeys] at hpl2
                cases hpl2
              rw [lookupA_removeA_ne _ hre] at hpl2
              obtain ⟨ha, hb⟩ := hc.2 pl hpl2
              have hf0 : (if ti.call_path_idx = i ∧
                  rootOf s.spans (s.spans.length + 1) id = some r
                  then 1 else 0) = 0 := by
                rw [if_neg]
                rintro ⟨-, hand⟩
                rw [hr] at hand
                exact hre (Option.some.inj hand)
              constructor
              · intro e he
                have hpre := ha e he
                rw [hdec, hf0] at hpre
                rw [htc]
                omega
              · intro hle
                obtain ⟨hz, hn⟩ := hb hle
                rw [hdec, hf0] at hz
                rw [htc]
                exact ⟨by omega, hn⟩

theorem count_create (maxD id cs r i n : Nat) (parent : Option Nat)
    (h h' : Host) (s s' : State)
    (hh : hostStepC (Event.create id parent cs) h = some h')
    (hs : new_span maxD id parent cs s = some s')
    (inv : CInv h s) (hc : CountRel s r i n) :
    CountRel s' r i (n + countDelta (Event.create id parent cs) s' r i) := by
  simp only [hostStepC] at hh
  by_cases hfr : (lookupA id h.created).isSome
  · rw [if_pos hfr] at hh
    exact absurd hh (by simp)
  rw [if_neg hfr] at hh
  have hcrn : lookupA id h.created = none := by
    cases hcq : lookupA id h.created with
    | none => rfl
    | some v => rw [hcq] at hfr; exact absurd rfl hfr
  have hspn : lookupA id s.spans = none := by
    have hm := inv.mirror id
    rw [hcrn] at hm
    cases hsq : lookupA id s.spans with
    | none => rfl
    | some sd => rw [hsq] at hm; simp at hm
  have htin : lookupA id s.timing = none := by
    cases ht : lookupA id s.timing with
    | none => rfl
    | some ti =>
      have := inv.tspan id (by rw [ht]; rfl)
      rw [hspn] at this
      exact absurd this (by simp)
  have hTs : Tcount s r i = TcountL s.spans s.timing r i := rfl
  have hpon : lookupA id s.pools = none := by
    cases hpq : lookupA id s.pools with
    | none => rfl
    | some pl =>
      obtain ⟨sd, hsd, _⟩ := inv.proot id pl hpq
      rw [hspn] at hsd
      exact absurd hsd (by simp)
  cases parent with
  | none =>
    simp only [new_span] at hs
    cases hs
    have hself : lookupA id (insertA id (⟨none, cs⟩ : SpanData) s.spans)
        = some ⟨none, cs⟩ := lookupA_insertA_self ..
    have hRid : rootOf (insertA id (⟨none, cs⟩ : SpanData) s.spans)
        ((insertA id (⟨none, cs⟩ : SpanData) s.spans).length + 1) id = some id := by
      rw [rootOf_succ, hself]
    have hdelta : countDelta (Event.create id none cs)
        { s with
          spans := insertA id ⟨none, cs⟩ s.spans
          pools := insertA id [⟨none, 0, 0, cs, [], 0, 0⟩] s.pools
          timing := insertA id (SpanTimingInfo.for_call_path_idx 0) s.timing } r i
        = (if (0 = i ∧ rootOf (insertA id (⟨none, cs⟩ : SpanData) s.spans)
            ((insertA id (⟨none, cs⟩ : SpanData) s.spans).length + 1) id = some r)
           then 1 else 0) := by
      show (match lookupA id (insertA id (SpanTimingInfo.for_call_path_idx 0)
          s.timing) with
        | some ti => if ti.call_path_idx = i ∧
            rootOf (insertA id (⟨none, cs⟩ : SpanData) s.spans)
              ((insertA id (⟨none, cs⟩ : SpanData) s.spans).length + 1) id = some r
            then 1 else 0
        | none => 0) = _
      rw [lookupA_insertA_self]
      rfl
    have hT : Tcount { s with
        spans := insertA id ⟨none, cs⟩ s.spans
        pools := insertA id [⟨none, 0, 0, cs, [], 0, 0⟩] s.pools
        timing := insertA id (SpanTimingInfo.for_call_path_idx 0) s.timing } r i
        = TcountL s.spans s.timing r i
          + (if (0 = i ∧ rootOf (insertA id (⟨none, cs⟩ : SpanData) s.spans)
              ((insertA id (⟨none, cs⟩ : SpanData) s.spans).length + 1) id = some r)
             then 1 else 0) := by
      show TcountL (insertA id ⟨none, cs⟩ s.spans)
        (insertA id (SpanTimingInfo.for_call_path_idx 0) s.timing) r i = _
      unfold TcountL
      rw [sumOver_insertA_none _ _ htin]
      have h2 := TcountL_insert_fresh inv (⟨none, cs⟩ : SpanData) hspn r i
      unfold TcountL at h2
      rw [h2]
      rfl
    rw [hdelta]
    constructor
    · intro hn
      have hrne : id ≠ r := by
        intro he
        rw [← he, hself] at hn
        cases hn
      have hn2 : lookupA r s.spans = none := by
        rw [lookupA_insertA_ne _ _ hrne] at hn
        exact hn
      have hd0 : (if (0 = i ∧ rootOf (insertA id (⟨none, cs⟩ : SpanData) s.spans)
          ((insertA id (⟨none, cs⟩ : SpanData) s.spans).length + 1) id = some r)
          then 1 else 0) = 0 := by
        rw [if_neg]
        rintro ⟨-, hand⟩
        rw [hRid] at hand
        exact hrne (Option.some.inj hand)
      rw [hd0]
      have := hc.1 hn2
      omega
    · intro pl hpl2
      by_cases hre : id = r
      · rw [← hre] at hpl2
        rw [lookupA_insertA_self] at hpl2
        have hple : pl = [⟨none, 0, 0, cs, [], 0, 0⟩] := (Option.some.inj hpl2).symm
        have hT0 : TcountL s.spans s.timing r i = 0 := by
          refine sumOver_eq_zero fun p hp => ?_
          have hlk := lookupA_of_mem inv.tkeys hp
          obtain ⟨r2, pl2, hroot2, hplk2, _, _⟩ := inv.tidx p.1 p.2 hlk
          obtain ⟨sd2, hsd2, _⟩ := inv.proot r2 pl2 hplk2
          have hr2ne : r2 ≠ r := by
            intro he2
            rw [he2, ← hre, hspn] at hsd2
            cases hsd2
          rw [if_neg]
          rintro ⟨-, hand⟩
          have hu : rootOf s.spans (s.spans.length + 1) p.1 = some r2 := hroot2
          rw [hu] at hand
          exact hr2ne (Option.some.inj hand)
        have hdOne : (if (0 = i ∧
            rootOf (insertA id (⟨none, cs⟩ : SpanData) s.spans)
              ((insertA id (⟨none, cs⟩ : SpanData) s.spans).length + 1) id = some r)
            then 1 else 0) = (if 0 = i then 1 else 0) := by
          by_cases hi : (0 : Nat) = i
          · rw [if_pos ⟨hi, by rw [hRid, hre]⟩, if_pos hi]
          · rw [if_neg fun hand => hi hand.1, if_neg hi]
        have hn0 : n = 0 := hc.1 (by rw [← hre]; exact hspn)
        constructor
        · intro e he
          rw [hple] at he
          cases i with
          | zero =>
            simp only [List.get?] at he
            have he2 : e = ⟨none, 0, 0, cs, [], 0, 0⟩ := (Option.some.inj he).symm
            rw [hT, hT0, hdOne, he2, hn0]
            rfl
          | succ j => simp [List.get?] at he
        · intro hle
          rw [hple] at hle
          simp only [List.length_singleton] at hle
          have hi : ¬ (0 : Nat) = i := by omega
          rw [hT, hT0, hdOne, if_neg hi, hn0]
          exact ⟨rfl, rfl⟩
      · rw [lookupA_insertA_ne _ _ hre] at hpl2
        obtain ⟨ha, hb⟩ := hc.2 pl hpl2
        have hd0 : (if (0 = i ∧
            rootOf (insertA id (⟨none, cs⟩ : SpanData) s.spans)
              ((insertA id (⟨none, cs⟩ : SpanData) s.spans).length + 1) id = some r)
            then 1 else 0) = 0 := by
          rw [if_neg]
          rintro ⟨-, hand⟩
          rw [hRid] at hand
          exact hre (Option.some.inj hand)
        rw [hd0]
        constructor
        · intro e he
          have := ha e he
          rw [hT, hd0]
          omega
        · intro hle
          obtain ⟨hz, hn⟩ := hb hle
          rw [hT, hd0]
          constructor
          · omega
          · omega
  | some p =>
    simp only [new_span] at hs
    have huntracked : ∀ (s2 : State), s2 = { s with
        spans := insertA id ⟨some p, cs⟩ s.spans } →
        CountRel s2 r i (n + countDelta (Event.create id (some p) cs) s2 r i) := by
      intro s2 hs2
      subst hs2
      have hdelta : countDelta (Event.create id (some p) cs)
          { s with spans := insertA id ⟨some p, cs⟩ s.spans } r i = 0 := by
        show (match lookupA id s.timing with
          | some ti => if ti.call_path_idx = i ∧
              rootOf (insertA id (⟨some p, cs⟩ : SpanData) s.spans)
                ((insertA id (⟨some p, cs⟩ : SpanData) s.spans).length + 1) id
                = some r then 1 else 0
          | none => 0) = 0
        rw [htin]
      rw [hdelta]
      have hT : Tcount { s with spans := insertA id ⟨some p, cs⟩ s.spans } r i
          = TcountL s.spans s.timing r i :=
        TcountL_insert_fresh inv (⟨some p, cs⟩ : SpanData) hspn r i
      constructor
      · intro hn
        have hrne : id ≠ r := by
          intro he
          rw [← he, lookupA_insertA_self] at hn
          cases hn
        rw [lookupA_insertA_ne _ _ hrne] at hn
        have := hc.1 hn
        omega
      · intro pl hpl2
        obtain ⟨ha, hb⟩ := hc.2 pl hpl2
        constructor
        · intro e he
          have := ha e he
          rw [hT]
          omega
        · intro hle
          obtain ⟨hz, hn⟩ := hb hle
          rw [hT]
          exact ⟨hz, by omega⟩
    cases hp1 : lookupA p s.timing with
    | none =>
      rw [hp1] at hs
      cases hs
      exact huntracked _ rfl
    | some pinfo =>
      simp only [hp1] at hs
      cases hr : rootOf (insertA id ⟨some p, cs⟩ s.spans)
          ((insertA id ⟨some p, cs⟩ s.spans).length + 1) id with
      | none => simp only [hr] at hs; exact absurd hs (by simp)
      | some rootId =>
        simp only [hr] at hs
        cases hp2 : lookupA rootId s.pools with
        | none => simp only [hp2] at hs; exact absurd hs (by simp)
        | some pool =>
          simp only [hp2] at hs
          obtain ⟨sdr, hsdr, hsdrp⟩ := inv.proot rootId pool hp2
          have hrootne : id ≠ rootId := by
            intro he
            rw [← he, hspn] at hsdr
            cases hsdr
          have hpoolwf : PoolIndexed pool :=
            inv.pwf (rootId, pool) (mem_of_lookupA_eq_some hp2)
          cases hg : pool.get? pinfo.call_path_idx with
          | none => simp only [hg] at hs; exact absurd hs (by simp)
          | some pct =>
            simp only [hg] at hs
            by_cases hd : maxD ≤ pct.depth + 1
            · rw [if_pos hd] at hs
              cases hs
              exact huntracked _ rfl
            · rw [if_neg hd] at hs
              cases hcm : lookupA cs pct.children with
              | some j =>
                simp only [hcm] at hs
                cases hs
                have hjr : j < pool.length ∧ 1 ≤ j :=
                  (hpoolwf.2.2 pct (List.get?_mem hg)).2 cs j hcm
                have hdelta : countDelta (Event.create id (some p) cs)
                    { s with
                      spans := insertA id ⟨some p, cs⟩ s.spans
                      timing := insertA id (SpanTimingInfo.for_call_path_idx j)
                        s.timing } r i
                    = (if (j = i ∧ rootOf (insertA id (⟨some p, cs⟩ : SpanData) s.spans)
                        ((insertA id (⟨some p, cs⟩ : SpanData) s.spans).length + 1) id
                        = some r) then 1 else 0) := by
                  show (match lookupA id (insertA id
                      (SpanTimingInfo.for_call_path_idx j) s.timing) with
                    | some ti => if ti.call_path_idx = i ∧
                        rootOf (insertA id (⟨some p, cs⟩ : SpanData) s.spans)
                          ((insertA id (⟨some p, cs⟩ : SpanData) s.spans).length + 1)
                          id = some r then 1 else 0
                    | none => 0) = _
                  rw [lookupA_insertA_self]
                  rfl
                have hT : Tcount { s with
                    spans := insertA id ⟨some p, cs⟩ s.spans
                    timing := insertA id (SpanTimingInfo.for_call_path_idx j)
                      s.timing } r i
                    = TcountL s.spans s.timing r i
                      + (if (j = i ∧
                          rootOf (insertA id (⟨some p, cs⟩ : SpanData) s.spans)
                            ((insertA id (⟨some p, cs⟩ : SpanData) s.spans).length + 1)
                            id = some r) then 1 else 0) := by
                  show TcountL (insertA id ⟨some p, cs⟩ s.spans)
                    (insertA id (SpanTimingInfo.for_call_path_idx j) s.timing) r i = _
                  unfold TcountL
                  rw [sumOver_insertA_none _ _ htin]
                  have h2 := TcountL_insert_fresh inv (⟨some p, cs⟩ : SpanData) hspn r i
                  unfold TcountL at h2
                  rw [h2]
                  rfl
                rw [hdelta]
                constructor
                · intro hn
                  have hrne : id ≠ r := by
                    intro he
                    rw [← he, lookupA_insertA_self] at hn
                    cases hn
                  have hrre : rootId ≠ r := by
                    intro he
                    rw [← he, lookupA_insertA_ne _ _ hrootne, hsdr] at hn
                    cases hn
                  have hd0 : (if (j = i ∧
                      rootOf (insertA id (⟨some p, cs⟩ : SpanData) s.spans)
                        ((insertA id (⟨some p, cs⟩ : SpanData) s.spans).length + 1) id
                        = some r) then 1 else 0) = 0 := by
                    rw [if_neg]
                    rintro ⟨-, hand⟩
                    rw [hr] at hand
                    exact hrre (Option.some.inj hand)
                  rw [hd0]
                  rw [lookupA_insertA_ne _ _ hrne] at hn
                  have := hc.1 hn
                  omega
                · intro pl hpl2
                  obtain ⟨ha, hb⟩ := hc.2 pl hpl2
                  by_cases hre : rootId = r
                  · have hple : pl = pool := by
                      rw [← hre, hp2] at hpl2
                      exact (Option.some.inj hpl2).symm
                    constructor
                    · intro e he
                      have := ha e he
                      rw [hT]
                      omega
                    · intro hle
                      obtain ⟨hz, hn⟩ := hb hle
                      have hd0 : (if (j = i ∧
                          rootOf (insertA id (⟨some p, cs⟩ : SpanData) s.spans)
                            ((insertA id (⟨some p, cs⟩ : SpanData) s.spans).length + 1)
                            id = some r) then 1 else 0) = 0 := by
                        rw [if_neg]
                        rintro ⟨hji, -⟩
                        rw [hple] at hle
                        omega
                      rw [hT, hd0]
                      exact ⟨by omega, by omega⟩
                  · have hd0 : (if (j = i ∧
                        rootOf (insertA id (⟨some p, cs⟩ : SpanData) s.spans)
                          ((insertA id (⟨some p, cs⟩ : SpanData) s.spans).length + 1)
                          id = some r) then 1 else 0) = 0 := by
                      rw [if_neg]
                      rintro ⟨-, hand⟩
                      rw [hr] at hand
                      exact hre (Option.some.inj hand)
                    rw [hd0]
                    constructor
                    · intro e he
                      have := ha e he
                      rw [hT, hd0]
                      omega
                    · intro hle
                      obtain ⟨hz, hn⟩ := hb hle
                      rw [hT, hd0]
                      exact ⟨by omega, by omega⟩
              | none =>
                simp only [hcm] at hs
                cases hs
                have hpidx : pinfo.call_path_idx < pool.length := by
                  rcases List.get?_eq_some.1 hg with ⟨hh2, _⟩
                  exact hh2
                have hlen1 : 1 ≤ pool.length :=
                  Nat.pos_of_ne_zero fun h0 => hpoolwf.1 (List.length_eq_zero.1 h0)
                have hdelta : countDelta (Event.create id (some p) cs)
                    { s with
                      spans := insertA id ⟨some p, cs⟩ s.spans
                      pools := (insertA rootId
                        ((pool.set pinfo.call_path_idx
                          ({ pct with children := insertA cs pool.length pct.children }))
                          ++ [⟨some pinfo.call_path_idx, pct.depth + 1, 0, cs, [], 0, 0⟩])
                        s.pools)
                      timing := insertA id
                        (SpanTimingInfo.for_call_path_idx pool.length) s.timing } r i
                    = (if (pool.length = i ∧
                        rootOf (insertA id (⟨some p, cs⟩ : SpanData) s.spans)
                          ((insertA id (⟨some p, cs⟩ : SpanData) s.spans).length + 1) id
                        = some r) then 1 else 0) := by
                  show (match lookupA id (insertA id
                      (SpanTimingInfo.for_call_path_idx pool.length) s.timing) with
                    | some ti => if ti.call_path_idx = i ∧
                        rootOf (insertA id (⟨some p, cs⟩ : SpanData) s.spans)
                          ((insertA id (⟨some p, cs⟩ : SpanData) s.spans).length + 1)
                          id = some r then 1 else 0
                    | none => 0) = _
                  rw [lookupA_insertA_self]
                  rfl
                have hT : Tcount { s with
                    spans := insertA id ⟨some p, cs⟩ s.spans
                    pools := (insertA rootId
                      ((pool.set pinfo.call_path_idx
                        ({ pct with children := insertA cs pool.length pct.children }))
                        ++ [⟨some pinfo.call_path_idx, pct.depth + 1, 0, cs, [], 0, 0⟩])
                      s.pools)
                    timing := insertA id
                      (SpanTimingInfo.for_call_path_idx pool.length) s.timing } r i
                    = TcountL s.spans s.timing r i
                      + (if (pool.length = i ∧
                          rootOf (insertA id (⟨some p, cs⟩ : SpanData) s.spans)
                            ((insertA id (⟨some p, cs⟩ : SpanData) s.spans).length + 1)
                            id = some r) then 1 else 0) := by
                  show TcountL (insertA id ⟨some p, cs⟩ s.spans)
                    (insertA id (SpanTimingInfo.for_call_path_idx pool.length)
                      s.timing) r i = _
                  unfold TcountL
                  rw [sumOver_insertA_none _ _ htin]
                  have h2 := TcountL_insert_fresh inv (⟨some p, cs⟩ : SpanData) hspn r i
                  unfold TcountL at h2
                  rw [h2]
                  rfl
                rw [hdelta]
                constructor
                · intro hn
                  have hrne : id ≠ r := by
                    intro he
                    rw [← he, lookupA_insertA_self] at hn
                    cases hn
                  have hrre : rootId ≠ r := by
                    intro he
                    rw [← he, lookupA_insertA_ne _ _ hrootne, hsdr] at hn
                    cases hn
                  have hd0 : (if (pool.length = i ∧
                      rootOf (insertA id (⟨some p, cs⟩ : SpanData) s.spans)
                        ((insertA id (⟨some p, cs⟩ : SpanData) s.spans).length + 1) id
                      = some r) then 1 else 0) = 0 := by
                    rw [if_neg]
                    rintro ⟨-, hand⟩
                    rw [hr] at hand
                    exact hrre (Option.some.inj hand)
                  rw [hd0]
                  rw [lookupA_insertA_ne _ _ hrne] at hn
                  have := hc.1 hn
                  omega
                · intro pl hpl2
                  by_cases hre : rootId = r
                  · rw [← hre, lookupA_insertA_self] at hpl2
                    have hple : pl = (pool.set pinfo.call_path_idx
                        ({ pct with children := insertA cs pool.length pct.children }))
                        ++ [⟨some pinfo.call_path_idx, pct.depth + 1, 0, cs, [], 0, 0⟩] :=
                      (Option.some.inj hpl2).symm
                    obtain ⟨ha, hb⟩ := hc.2 pool (hre ▸ hp2)
                    have hdi : (if (pool.length = i ∧
                        rootOf (insertA id (⟨some p, cs⟩ : SpanData) s.spans)
                          ((insertA id (⟨some p, cs⟩ : SpanData) s.spans).length + 1) id
                        = some r) then 1 else 0)
                        = (if pool.length = i then 1 else 0) := by
                      by_cases hi : pool.length = i
                      · rw [if_pos ⟨hi, by rw [hr, hre]⟩, if_pos hi]
                      · rw [if_neg fun hand => hi hand.1, if_neg hi]
                    constructor
                    · intro e he
                      rw [hple] at he
                      rcases Nat.lt_trichotomy i pool.length with hi | hi | hi
                      · rw [List.get?_append (by rw [List.length_set]; exact hi)] at he
                        rw [List.get?_set] at he
                        rw [hT, hdi, if_neg (by omega)]
                        by_cases hpe : pinfo.call_path_idx = i
                        · rw [if_pos hpe] at he
                          rw [hpe] at hg
                          rw [hg] at he
                          have he2 : e = { pct with
                              children := insertA cs pool.length pct.children } :=
                            (Option.some.inj he).symm
                          have := ha pct hg
                          rw [he2]
                          show pct.call_count + _ = _
                          omega
                        · rw [if_neg hpe] at he
                          have := ha e he
                          omega
                      · rw [hple] at hpl2
                        obtain ⟨hz, hn⟩ := hb (by omega)
                        rw [hT, hdi, if_pos hi.symm]
                        have hgl : ((pool.set pinfo.call_path_idx
                            ({ pct with children := insertA cs pool.length pct.children }))
                            ++ [(⟨some pinfo.call_path_idx, pct.depth + 1, 0, cs, [], 0, 0⟩ :
                              CallPathTiming)]).get?
                            (pool.set pinfo.call_path_idx ({ pct with children := (insertA cs pool.length pct.children) })).length
                            = some ⟨some pinfo.call_path_idx, pct.depth + 1, 0, cs, [], 0, 0⟩ :=
                          List.get?_concat_length _ _
                        rw [List.length_set] at hgl
                        rw [hi] at he
                        rw [hgl] at he
                        have he2 : e = ⟨some pinfo.call_path_idx, pct.depth + 1, 0, cs, [], 0, 0⟩ :=
                          (Option.some.inj he).symm
                        rw [he2]
                        show 0 + _ = _
                        omega
                      · rw [List.get?_eq_none.2 (by
                          rw [List.length_append, List.length_set, List.length_singleton]
                          omega)] at he
                        cases he
                    · intro hle
                      rw [hple, List.length_append, List.length_set,
                        List.length_singleton] at hle
                      obtain ⟨hz, hn⟩ := hb (by omega)
                      rw [hT, hdi, if_neg (by omega)]
                      exact ⟨by omega, by omega⟩
                  · rw [lookupA_insertA_ne _ _ hre] at hpl2
                    obtain ⟨ha, hb⟩ := hc.2 pl hpl2
                    have hd0 : (if (pool.length = i ∧
                        rootOf (insertA id (⟨some p, cs⟩ : SpanData) s.spans)
                          ((insertA id (⟨some p, cs⟩ : SpanData) s.spans).length + 1) id
                        = some r) then 1 else 0) = 0 := by
                      rw [if_neg]
                      rintro ⟨-, hand⟩
                      rw [hr] at hand
                      exact hre (Option.some.inj hand)
                    rw [hd0]
                    constructor
                    · intro e he
                      have := ha e he
                      rw [hT, hd0]
                      omega
                    · intro hle
                      obtain ⟨hz, hn⟩ := hb hle
                      rw [hT, hd0]
                      exact ⟨by omega, by omega⟩

/-! ## The bookkeeping invariant along whole runs -/

theorem cinv_init : CInv host0 init := by
  refine ⟨?_, ?_, ?_, ?_, ?_, ?_, ?_, ?_, ?_, ?_, ?_, ?_⟩
  · simp [init, keysA]
  · simp [init, keysA]
  · simp [init, keysA]
  · intro id
    rfl
  · intro c hc
    simp [host0] at hc
  · intro id hq
    simp [init, lookupA] at hq
  · intro id hq
    simp [init, lookupA] at hq
  · intro id ti sd p h1
    simp [init, lookupA] at h1
  · intro r pl h1
    simp [init, lookupA] at h1
  · intro id ti h1
    simp [init, lookupA] at h1
  · intro pr hpr
    simp [init] at hpr
  · intro pl hpl
    simp [init] at hpl

theorem count_init (r i : Nat) : CountRel init r i 0 := by
  constructor
  · intro _
    rfl
  · intro pl hpl
    simp [init, lookupA] at hpl

theorem cinv_step (maxD : Nat) (e : Event) (h h' : Host) (s s' : State)
    (hh : hostStepC e h = some h')
    (hs : step maxD e s = some s')
    (inv : CInv h s) : CInv h' s' := by
  cases e with
  | create id parent cs => exact cinv_create maxD id parent cs h h' s s' hh hs inv
  | enter id tid lp st => exact cinv_enter id tid lp st h h' s s' hh hs inv
  | exit id tid endT enterOwn =>
    exact cinv_exit id tid endT enterOwn h h' s s' hh hs inv
  | close id => exact cinv_close id h h' s s' hh hs inv

theorem count_step (maxD r i n : Nat) (e : Event) (h h' : Host) (s s' : State)
    (hh : hostStepC e h = some h')
    (hs : step maxD e s = some s')
    (inv : CInv h s) (hc : CountRel s r i n) :
    CountRel s' r i (n + countDelta e s' r i) := by
  cases e with
  | create id parent cs =>
    exact count_create maxD id cs r i n parent h h' s s' hh hs inv hc
  | enter id tid lp st =>
    have hz : countDelta (Event.enter id tid lp st) s' r i = 0 := rfl
    rw [hz, Nat.add_zero]
    exact count_enter id tid lp st r i n s s' hs hc
  | exit id tid endT enterOwn =>
    have hz : countDelta (Event.exit id tid endT enterOwn) s' r i = 0 := rfl
    rw [hz, Nat.add_zero]
    exact count_exit id tid endT enterOwn r i n s s' hs hc
  | close id =>
    have hz : countDelta (Event.close id) s' r i = 0 := rfl
    rw [hz, Nat.add_zero]
    exact count_close id r i n h h' s s' hh hs inv hc

theorem cinv_run (maxD : Nat) (tr : List Event) :
    ∀ (h h' : Host) (s s' : State),
    hostRun hostStepC tr h = some h' →
    run maxD tr s = some s' →
    CInv h s → CInv h' s' := by
  induction tr with
  | nil =>
    intro h h' s s' hh hs inv
    simp only [hostRun] at hh
    simp only [run] at hs
    cases hh
    cases hs
    exact inv
  | cons e tr ih =>
    intro h h' s s' hh hs inv
    simp only [hostRun] at hh
    simp only [run] at hs
    cases hf : hostStepC e h with
    | none => rw [hf] at hh; exact absurd hh (by simp)
    | some h1 =>
      simp only [hf] at hh
      cases hst : step maxD e s with
      | none => rw [hst] at hs; exact absurd hs (by simp)
      | some s1 =>
        simp only [hst] at hs
        exact ih h1 h' s1 s' hh hs (cinv_step maxD e h h1 s s1 hf hst inv)

theorem cinv_count_run (maxD r i : Nat) (tr : List Event) :
    ∀ (h h' : Host) (s s' : State) (n n' : Nat),
    hostRun hostStepC tr h = some h' →
    runCount maxD r i tr s n = some (s', n') →
    CInv h s → CountRel s r i n → CInv h' s' ∧ CountRel s' r i n' := by
  induction tr with
  | nil =>
    intro h h' s s' n n' hh hs inv hc
    simp only [hostRun] at hh
    simp only [runCount] at hs
    cases hh
    cases hs
    exact ⟨inv, hc⟩
  | cons e tr ih =>
    intro h h' s s' n n' hh hs inv hc
    simp only [hostRun] at hh
    simp only [runCount] at hs
    cases hf : hostStepC e h with
    | none => rw [hf] at hh; exact absurd hh (by simp)
    | some h1 =>
      simp only [hf] at hh
      cases hst : step maxD e s with
      | none => rw [hst] at hs; exact absurd hs (by simp)
      | some s1 =>
        simp only [hst] at hs
        exact ih h1 h' s1 s' (n + countDelta e s1 r i) n' hh hs
          (cinv_step maxD e h h1 s s1 hf hst inv)
          (count_step maxD r i n e h h1 s s1 hf hst inv hc)

theorem hostRun_append (f : Event → Host → Option Host) (tr tr2 : List Event) :
    ∀ h, hostRun f (tr ++ tr2) h =
      match hostRun f tr h with
      | none => none
      | some h1 => hostRun f tr2 h1 := by
  induction tr with
  | nil =>
    intro h
    rfl
  | cons e tr ih =>
    intro h
    show (match f e h with
      | none => none
      | some h1 => hostRun f (tr ++ tr2) h1) =
      (match (match f e h with
        | none => none
        | some h1 => hostRun f tr h1) with
      | none => none
      | some h1 => hostRun f tr2 h1)
    cases f e h with
    | none => rfl
    | some h1 => exact ih h1

/-! ## At a root close, the root's tracker is the only one left in its tree -/

theorem no_other_tree_tracker {h : Host} {s : State} (inv : CInv h s)
    {r : Nat} (hcc : childrenClosed h r) :
    ∀ p pti, lookupA p s.timing = some pti → p ≠ r →
      ¬ rootOf s.spans (s.spans.length + 1) p = some r := by
  intro p pti hpt hne hroot
  obtain ⟨a, sda, hat, hasp, hap⟩ :=
    chain_to_root inv.tparent (s.spans.length + 1) p r hroot hne (by rw [hpt]; rfl)
  have hacr : lookupA a h.created = some (some r) := by
    rw [inv.mirror a, hasp]
    simp only [Option.map_some']
    rw [hap]
  have haclosed : a ∈ h.closed := hcc (a, some r) (mem_of_lookupA_eq_some hacr) rfl
  exact inv.tclosed a hat haclosed

theorem tcount_at_root_close {h : Host} {s : State} (inv : CInv h s)
    (r i : Nat) (ti : SpanTimingInfo) (sd : SpanData)
    (hcc : childrenClosed h r)
    (hsd : lookupA r s.spans = some sd) (hsdp : sd.parent = none)
    (hti : lookupA r s.timing = some ti) :
    Tcount s r i = if ti.call_path_idx = i then 1 else 0 := by
  have hrr : rootOf s.spans (s.spans.length + 1) r = some r := by
    rw [rootOf_succ]
    simp only [hsd, hsdp]
  have hrest : sumOver (removeA r s.timing)
      (fun id ti => if ti.call_path_idx = i ∧
        rootOf s.spans (s.spans.length + 1) id = some r then 1 else 0) = 0 := by
    refine sumOver_eq_zero fun p hp => ?_
    have hpl : lookupA p.1 (removeA r s.timing) = some p.2 :=
      lookupA_of_mem (keysA_nodup_removeA r inv.tkeys) hp
    have hpne : p.1 ≠ r := by
      intro he
      rw [he, lookupA_removeA_self inv.tkeys] at hpl
      cases hpl
    rw [lookupA_removeA_ne _ (Ne.symm hpne)] at hpl
    rw [if_neg]
    rintro ⟨-, hand⟩
    exact no_other_tree_tracker inv hcc p.1 p.2 hpl hpne hand
  show TcountL s.spans s.timing r i = _
  unfold TcountL
  rw [sumOver_removeA_add _ hti, hrest]
  by_cases hie : ti.call_path_idx = i
  · rw [if_pos hie]
    show (if ti.call_path_idx = i ∧
      rootOf s.spans (s.spans.length + 1) r = some r then 1 else 0) + 0 = 1
    rw [if_pos ⟨hie, hrr⟩]
  · rw [if_neg hie]
    show (if ti.call_path_idx = i ∧
      rootOf s.spans (s.spans.length + 1) r = some r then 1 else 0) + 0 = 0
    rw [if_neg fun hand => hie hand.1]

/-! ## Claims C7 and C9 -/

/-- C7: over any trace legal for the host contract (fresh unit identities,
children close before their parent) followed by the close of a root `r`,
every record of the pool handed off by that close has `call_count` equal to
the number of units of work created with that call path (tree root `r`,
call-path index `i`), as counted by the instrumented run. -/
theorem c7_call_count (maxD r i : Nat) (tr : List Event) (s s' : State)
    (n : Nat) (pool : List CallPathTiming)
    (hleg : LegalC (tr ++ [Event.close r]))
    (hrc : runCount maxD r i tr init 0 = some (s, n))
    (hcl : on_close r s = some s')
    (hfin : s'.finished = s.finished ++ [pool]) :
    ∀ e, pool.get? i = some e → e.call_count = n := by
  unfold LegalC at hleg
  rw [hostRun_append] at hleg
  cases hh1 : hostRun hostStepC tr host0 with
  | none => rw [hh1] at hleg; exact absurd hleg (by simp)
  | some h1 =>
    simp only [hh1] at hleg
    simp only [hostRun] at hleg
    cases hcl1 : hostStepC (Event.close r) h1 with
    | none => rw [hcl1] at hleg; exact absurd hleg (by simp)
    | some h2 =>
      have hcc : childrenClosed h1 r := by
        by_cases hq : childrenClosed h1 r
        · exact hq
        · simp only [hostStepC, if_neg hq] at hcl1
          exact absurd hcl1 (by simp)
      obtain ⟨inv, hcnt⟩ := cinv_count_run maxD r i tr host0 h1 init s 0 n hh1 hrc
        cinv_init (count_init r i)
      simp only [on_close] at hcl
      cases hsp : lookupA r s.spans with
      | none => rw [hsp] at hcl; exact absurd hcl (by simp)
      | some sd =>
        simp only [hsp] at hcl
        cases hti : lookupA r s.timing with
        | none =>
          simp only [hti] at hcl
          cases hcl
          exact absurd hfin (by simp)
        | some ti =>
          simp only [hti] at hcl
          cases hr0 : rootOf s.spans (s.spans.length + 1) r with
          | none => simp only [hr0] at hcl; exact absurd hcl (by simp)
          | some rootId =>
            simp only [hr0] at hcl
            cases hpl : lookupA rootId s.pools with
            | none => simp only [hpl] at hcl; exact absurd hcl (by simp)
            | some pool0 =>
              simp only [hpl] at hcl
              cases hg : pool0.get? ti.call_path_idx with
              | none => simp only [hg] at hcl; exact absurd hcl (by simp)
              | some cpt =>
                simp only [hg] at hcl
                cases hpar : sd.parent with
                | some q =>
                  simp only [hpar] at hcl
                  cases hcl
                  exact absurd hfin (by simp)
                | none =>
                  simp only [hpar] at hcl
                  cases hcl
                  have hre : rootId = r := by
                    have hrr : rootOf s.spans (s.spans.length + 1) r = some r := by
                      rw [rootOf_succ]
                      simp only [hsp, hpar]
                    rw [hrr] at hr0
                    exact (Option.some.inj hr0).symm
                  subst hre
                  have hpe : pool = pool0.set ti.call_path_idx
                      ({ cpt with
                        call_count := cpt.call_count + 1
                        sum_with_children := cpt.sum_with_children + ti.sum_with_children
                        sum_own := cpt.sum_own + ti.sum_own }) := by
                    have h3 := List.append_cancel_left hfin
                    injection h3 with h4 h5
                    exact h4.symm
                  obtain ⟨ha, hb⟩ := hcnt.2 pool0 hpl
                  have htc := tcount_at_root_close inv rootId i ti sd hcc hsp hpar hti
                  intro e he
                  rw [hpe, List.get?_set] at he
                  by_cases hie : ti.call_path_idx = i
                  · rw [if_pos hie] at he
                    rw [hie] at hg
                    rw [hg] at he
                    have hee := Option.some.inj he
                    have han := ha cpt hg
                    rw [htc, if_pos hie] at han
                    rw [← hee]
                    show cpt.call_count + 1 = n
                    omega
                  · rw [if_neg hie] at he
                    have han := ha e he
                    rw [htc, if_neg hie] at han
                    omega

theorem c7_witness :
    soloPool.get? 0 = some ⟨none, 0, 1, 5, [], 3, 3⟩ ∧
      (⟨none, 0, 1, 5, [], 3, 3⟩ : CallPathTiming).call_count = 1 :=
  ⟨rfl, c7_call_count 2 0 0 soloBody soloMid soloFinal 1 soloPool (by decide)
    (by decide) (by decide) (by decide) ⟨none, 0, 1, 5, [], 3, 3⟩ rfl⟩

/-- C9: along any trace legal for the host contract, every live pool and
every handed-off pool is nonempty with the root's own record at index 0
(no parent, depth 0) and every stored call-path identity in range, and the
identity held by every live tracker is a valid index of the pool of its
root, so indexed access by a handed-out identity never fails. -/
theorem c9_pool_indexing (maxD : Nat) (tr : List Event) (s : State)
    (hleg : LegalC tr) (hrun : run maxD tr init = some s) : PoolWf s := by
  unfold LegalC at hleg
  cases hh : hostRun hostStepC tr host0 with
  | none => rw [hh] at hleg; exact absurd hleg (by simp)
  | some h1 =>
    have inv := cinv_run maxD tr host0 h1 init s hh hrun cinv_init
    refine ⟨inv.pwf, inv.fwf, ?_⟩
    intro id ti hti
    obtain ⟨r, pl, h1, h2, h3, _⟩ := inv.tidx id ti hti
    exact ⟨r, pl, h1, h2, h3⟩

theorem c9_witness : PoolWf soloFinal :=
  c9_pool_indexing 2 soloTrace soloFinal (by decide) (by decide)

/-! ## Helper lemmas for the per-thread nesting layer -/

theorem stackOf_insert_self (h : Host) (t : Nat) (stk : List Nat) :
    stackOf { h with stackMap := insertA t stk h.stackMap } t = stk := by
  unfold stackOf
  rw [lookupA_insertA_self]
  rfl

theorem stackOf_insert_ne (h : Host) (t t' : Nat) (stk : List Nat) (hne : t ≠ t') :
    stackOf { h with stackMap := insertA t stk h.stackMap } t' = stackOf h t' := by
  unfold stackOf
  rw [lookupA_insertA_ne _ _ hne]

theorem mem_stackOf_mem_stackMap {h : Host} {t c : Nat} (hc : c ∈ stackOf h t) :
    ∃ stk, (t, stk) ∈ h.stackMap ∧ c ∈ stk := by
  unfold stackOf at hc
  cases hq : lookupA t h.stackMap with
  | none => rw [hq] at hc; simp at hc
  | some stk =>
    rw [hq] at hc
    exact ⟨stk, mem_of_lookupA_eq_some hq, hc⟩

theorem isSome_insertA_existing {α : Type} {k : Nat} (v : α) {w : α}
    {l : List (Nat × α)} (hk : lookupA k l = some w) :
    ∀ c, (lookupA c (insertA k v l)).isSome = (lookupA c l).isSome := by
  intro c
  by_cases hc : c = k
  · subst hc
    rw [lookupA_insertA_self, hk]
    rfl
  · rw [lookupA_insertA_ne _ _ fun he => hc he.symm]

theorem tpar_congr {s s' : State}
    (hsp : s'.spans = s.spans)
    (hti : ∀ c, (lookupA c s'.timing).isSome = (lookupA c s.timing).isSome) :
    ∀ c, tpar s' c = tpar s c := by
  intro c
  unfold tpar
  rw [hsp]
  have hc := hti c
  cases h1 : lookupA c s'.timing with
  | none =>
    rw [h1] at hc
    cases h2 : lookupA c s.timing with
    | none => rfl
    | some ti2 => rw [h2] at hc; exact absurd hc.symm (by simp)
  | some ti1 =>
    rw [h1] at hc
    cases h2 : lookupA c s.timing with
    | none => rw [h2] at hc; exact absurd hc (by simp)
    | some ti2 =>
      cases h3 : lookupA c s.spans with
      | none => rfl
      | some sd => rfl

theorem tpar_some_tracked {s : State} {c x : Nat} (hp : tpar s c = some x) :
    ∃ ti sd, lookupA c s.timing = some ti ∧ lookupA c s.spans = some sd ∧
      sd.parent = some x := by
  unfold tpar at hp
  cases h1 : lookupA c s.timing with
  | none => rw [h1] at hp; exact absurd hp (by simp)
  | some ti =>
    rw [h1] at hp
    cases h2 : lookupA c s.spans with
    | none => rw [h2] at hp; exact absurd hp (by simp)
    | some sd =>
      rw [h2] at hp
      exact ⟨ti, sd, rfl, rfl, hp⟩

theorem tpar_of_parts {s : State} {c x : Nat} {ti : SpanTimingInfo} {sd : SpanData}
    (h1 : lookupA c s.timing = some ti) (h2 : lookupA c s.spans = some sd)
    (h3 : sd.parent = some x) : tpar s c = some x := by
  unfold tpar
  rw [h1, h2]
  exact h3

theorem tpar_ne_self {s : State}
    (hn : ∀ x sd, lookupA x s.spans = some sd → sd.parent ≠ some x) :
    ∀ c, tpar s c ≠ some c := by
  intro c hc
  obtain ⟨ti, sd, h1, h2, h3⟩ := tpar_some_tracked hc
  exact hn c sd h2 h3

theorem coveredT_congr {h h' : Host} {s s' : State} (t x : Nat)
    (hst : stackOf h' t = stackOf h t)
    (htp : ∀ c ∈ stackOf h t, tpar s' c = tpar s c) :
    coveredT h' s' t x ↔ coveredT h s t x := by
  unfold coveredT
  rw [hst]
  constructor
  · rintro ⟨c, hc, hp⟩
    exact ⟨c, hc, by rw [← htp c hc]; exact hp⟩
  · rintro ⟨c, hc, hp⟩
    exact ⟨c, hc, by rw [htp c hc]; exact hp⟩

theorem slotSlack_congr {h h' : Host} {s s' : State} (x t : Nat)
    (pt : PerThreadInfo) (hnow : h'.now = h.now)
    (hcov : coveredT h' s' t x ↔ coveredT h s t x) :
    slotSlack h' s' x t pt = slotSlack h s x t pt := by
  unfold slotSlack
  rw [hnow]
  by_cases hc : coveredT h s t x
  · rw [if_pos hc, if_pos (hcov.2 hc)]
  · rw [if_neg hc, if_neg fun hq => hc (hcov.1 hq)]

theorem slotSlack_mono {h h' : Host} {s s' : State} {x t : Nat}
    {pt : PerThreadInfo} (hnow : h.now ≤ h'.now)
    (hle : pt.last_enter ≤ pt.last_enter_own) (hleo : pt.last_enter_own ≤ h.now)
    (hcov : coveredT h s t x → coveredT h' s' t x) :
    slotSlack h s x t pt ≤ slotSlack h' s' x t pt := by
  unfold slotSlack
  by_cases hc : coveredT h s t x
  · rw [if_pos hc, if_pos (hcov hc)]
    omega
  · rw [if_neg hc]
    by_cases hc' : coveredT h' s' t x
    · rw [if_pos hc']
      omega
    · rw [if_neg hc']

theorem stackWf_congr {s s' : State} :
    ∀ l, (∀ c ∈ l, tpar s' c = tpar s c) → stackWf s l → stackWf s' l := by
  intro l
  induction l with
  | nil => intro _ _; trivial
  | cons c rest ih =>
    intro htp hwf
    obtain ⟨h1, h2⟩ := hwf
    refine ⟨?_, ih (fun q hq => htp q (List.mem_cons_of_mem c hq)) h2⟩
    intro x hp
    rw [htp c (List.mem_cons_self c rest)] at hp
    exact h1 x hp

theorem stackWf_parent_mem_tail {s : State} :
    ∀ (c0 : Nat) (l : List Nat), stackWf s (c0 :: l) →
      ∀ c ∈ l, ∀ x, tpar s c = some x → x ∈ l := by
  intro c0 l
  induction l generalizing c0 with
  | nil =>
    intro _ c hc
    exact absurd hc (by simp)
  | cons d l' ih =>
    intro hwf c hc x hp
    obtain ⟨h0, hwf2⟩ := hwf
    rcases List.mem_cons.1 hc with rfl | hc'
    · obtain ⟨hd, _⟩ := hwf2
      have h2 := hd x hp
      cases l' with
      | nil => simp at h2
      | cons e l'' =>
        simp only [List.head?] at h2
        have hxe : x = e := (Option.some.inj h2).symm
        subst hxe
        exact List.mem_cons_of_mem c (List.mem_cons_self x l'')
    · exact List.mem_cons_of_mem d (ih d hwf2 c hc' x hp)

theorem head_not_covered {s : State} {stk : List Nat} {x : Nat}
    (hwf : stackWf s stk) (hnd : stk.Nodup) (hhead : stk.head? = some x)
    (hnsp : ∀ c, tpar s c ≠ some c) :
    ¬ ∃ c ∈ stk, tpar s c = some x := by
  rintro ⟨c, hc, hp⟩
  cases stk with
  | nil => simp at hhead
  | cons a rest =>
    simp only [List.head?] at hhead
    have hax : a = x := Option.some.inj hhead
    subst hax
    rcases List.mem_cons.1 hc with rfl | hc'
    · exact hnsp c hp
    · have hxin : a ∈ rest := stackWf_parent_mem_tail a rest hwf c hc' a hp
      exact (List.nodup_cons.1 hnd).1 hxin

/-! ## Preservation of the nesting invariant: create -/

theorem cinv_congr {h1 h2 : Host} {s : State}
    (hc : h2.created = h1.created) (hcl : h2.closed = h1.closed)
    (inv : CInv h1 s) : CInv h2 s := by
  refine ⟨inv.skeys, inv.tkeys, inv.pkeys, ?_, ?_, inv.tspan, ?_, inv.tparent,
    inv.proot, inv.tidx, inv.pwf, inv.fwf⟩
  · intro id
    rw [hc]
    exact inv.mirror id
  · intro c hm
    rw [hcl] at hm
    rw [hc]
    exact inv.clsub c hm
  · intro id hq
    rw [hcl]
    exact inv.tclosed id hq

theorem tinv_create_aux {h h' : Host} {s s' : State} (inv : TInv h s)
    (id cs : Nat) (parent : Option Nat)
    (hfresh : lookupA id h.created = none)
    (hpne : ∀ p, parent = some p → p ≠ id)
    (hcb : CInv h' s')
    (hsp' : s'.spans = insertA id ⟨parent, cs⟩ s.spans)
    (htim : ∀ c, c ≠ id → lookupA c s'.timing = lookupA c s.timing)
    (htid : lookupA id s'.timing = none ∨
      ∃ k, lookupA id s'.timing = some (SpanTimingInfo.for_call_path_idx k))
    (hstk : h'.stackMap = h.stackMap) (hnow : h'.now = h.now)
    (hcrea : h'.created = h.created ++ [(id, parent)])
    (hps : ∀ pr ∈ s'.pools, PoolSound pr.2)
    (hfs : s'.finished = s.finished) :
    TInv h' s' := by
  have hidstk : ∀ t, id ∉ stackOf h t := by
    intro t hmem
    have h2 := inv.smem t id hmem
    rw [hfresh] at h2
    exact absurd h2 (by simp)
  have hstko : ∀ t, stackOf h' t = stackOf h t := by
    intro t
    unfold stackOf
    rw [hstk]
  have htpc : ∀ c, c ≠ id → tpar s' c = tpar s c := by
    intro c hc
    unfold tpar
    rw [htim c hc, hsp', lookupA_insertA_ne _ _ fun he => hc he.symm]
  have htpm : ∀ t, ∀ c ∈ stackOf h t, tpar s' c = tpar s c := by
    intro t c hc
    refine htpc c fun he => hidstk t ?_
    rw [← he]
    exact hc
  refine ⟨hcb, ?_, ?_, ?_, ?_, ?_, ?_, ?_, ?_, hps, ?_⟩
  · intro t c hc
    rw [hstko t] at hc
    have h2 := inv.smem t c hc
    rw [hcrea, ← insertA_of_lookupA_eq_none parent hfresh]
    by_cases hci : c = id
    · subst hci
      rw [lookupA_insertA_self]
      rfl
    · rw [lookupA_insertA_ne _ _ fun he => hci he.symm]
      exact h2
  · intro t
    rw [hstko t]
    exact inv.snodup t
  · intro t
    rw [hstko t]
    exact stackWf_congr (stackOf h t) (htpm t) (inv.swf t)
  · intro x sd hx hcon
    rw [hsp'] at hx
    by_cases hxi : x = id
    · subst hxi
      rw [lookupA_insertA_self] at hx
      have hsd : sd = ⟨parent, cs⟩ := (Option.some.inj hx).symm
      rw [hsd] at hcon
      exact hpne x hcon rfl
    · rw [lookupA_insertA_ne _ _ fun he => hxi he.symm] at hx
      exact inv.noSelfPar x sd hx hcon
  · intro x ti hx
    by_cases hxi : x = id
    · subst hxi
      rcases htid with hn | ⟨k, hk⟩
      · rw [hn] at hx
        cases hx
      · rw [hk] at hx
        have hti : ti = SpanTimingInfo.for_call_path_idx k := (Option.some.inj hx).symm
        rw [hti]
        simp [SpanTimingInfo.for_call_path_idx, keysA]
    · rw [htim x hxi] at hx
      exact inv.ptkeys x ti hx
  · intro x ti t pt hx hslot
    by_cases hxi : x = id
    · subst hxi
      rcases htid with hn | ⟨k, hk⟩
      · rw [hn] at hx
        cases hx
      · rw [hk] at hx
        have hti : ti = SpanTimingInfo.for_call_path_idx k := (Option.some.inj hx).symm
        rw [hti] at hslot
        cases hslot
    · rw [htim x hxi] at hx
      rw [hstko t]
      exact inv.slotStack x ti t pt hx hslot
  · intro x ti t pt hx hslot
    by_cases hxi : x = id
    · subst hxi
      rcases htid with hn | ⟨k, hk⟩
      · rw [hn] at hx
        cases hx
      · rw [hk] at hx
        have hti : ti = SpanTimingInfo.for_call_path_idx k := (Option.some.inj hx).symm
        rw [hti] at hslot
        cases hslot
    · rw [htim x hxi] at hx
      rw [hnow]
      exact inv.slotTimes x ti t pt hx hslot
  · intro x ti hx
    by_cases hxi : x = id
    · subst hxi
      rcases htid with hn | ⟨k, hk⟩
      · rw [hn] at hx
        cases hx
      · rw [hk] at hx
        have hti : ti = SpanTimingInfo.for_call_path_idx k := (Option.some.inj hx).symm
        rw [hti]
        exact Nat.zero_le _
    · rw [htim x hxi] at hx
      have h2 := inv.sound x ti hx
      have hss : slackSum h' s' x ti = slackSum h s x ti := by
        unfold slackSum
        refine sumOver_congr _ _ fun p hp => ?_
        exact slotSlack_congr x p.1 p.2 hnow
          (coveredT_congr p.1 x (hstko p.1) (htpm p.1))
      rw [hss]
      exact h2
  · intro pl hpl
    rw [hfs] at hpl
    exact inv.fsound pl hpl

theorem tinv_create (maxD id cs : Nat) (parent : Option Nat) (h h' : Host)
    (s s' : State)
    (hh : hostStepT (Event.create id parent cs) h = some h')
    (hs : new_span maxD id parent cs s = some s')
    (inv : TInv h s) : TInv h' s' := by
  simp only [hostStepT] at hh
  cases hcr : lookupA id h.created with
  | some v =>
    simp only [hcr] at hh
    exact absurd hh (by simp)
  | none =>
    simp only [hcr] at hh
    have hspn : lookupA id s.spans = none := by
      have hm := inv.cbase.mirror id
      rw [hcr] at hm
      cases hsq : lookupA id s.spans with
      | none => rfl
      | some sd => rw [hsq] at hm; simp at hm
    have htin : lookupA id s.timing = none := by
      cases ht : lookupA id s.timing with
      | none => rfl
      | some ti =>
        have h2 := inv.cbase.tspan id (by rw [ht]; rfl)
        rw [hspn] at h2
        exact absurd h2 (by simp)
    cases parent with
    | none =>
      cases hh
      have hC : hostStepC (Event.create id none cs) h
          = some { h with created := h.created ++ [(id, none)] } := by
        simp [hostStepC, hcr]
      have hcb := cinv_create maxD id none cs h _ s s' hC hs inv.cbase
      simp only [new_span] at hs
      cases hs
      refine tinv_create_aux inv id cs none hcr (by intro p hp; cases hp) hcb rfl
        (fun c hc => lookupA_insertA_ne _ _ fun he => hc he.symm)
        (Or.inr ⟨0, lookupA_insertA_self ..⟩) rfl rfl rfl ?_ rfl
      intro pr hpr
      rcases mem_insertA_cases hpr with hnew | hold
      · rw [hnew]
        intro e he
        rw [List.mem_singleton] at he
        subst he
        exact Nat.le_refl 0
      · exact inv.psound pr hold
    | some p =>
      have hh2 : (if (lookupA p h.created).isSome then
          some { h with created := h.created ++ [(id, some p)] } else none)
          = some h' := hh
      by_cases hpc : (lookupA p h.created).isSome
      swap
      · rw [if_neg hpc] at hh2
        exact absurd hh2 (by simp)
      rw [if_pos hpc] at hh2
      cases hh2
      have hpne : ∀ q, (some p : Option Nat) = some q → q ≠ id := by
        intro q hq he
        have hpid : p = id := (Option.some.inj hq).trans he
        rw [hpid, hcr] at hpc
        exact absurd hpc (by simp)
      have hC : hostStepC (Event.create id (some p) cs) h
          = some { h with created := h.created ++ [(id, some p)] } := by
        simp [hostStepC, hcr]
      have hcb := cinv_create maxD id (some p) cs h _ s s' hC hs inv.cbase
      simp only [new_span] at hs
      cases hp1 : lookupA p s.timing with
      | none =>
        rw [hp1] at hs
        cases hs
        exact tinv_create_aux inv id cs (some p) hcr hpne hcb rfl
          (fun c hc => rfl) (Or.inl htin) rfl rfl rfl inv.psound rfl
      | some pinfo =>
        simp only [hp1] at hs
        cases hr : rootOf (insertA id ⟨some p, cs⟩ s.spans)
            ((insertA id ⟨some p, cs⟩ s.spans).length + 1) id with
        | none => simp only [hr] at hs; exact absurd hs (by simp)
        | some rootId =>
          simp only [hr] at hs
          cases hp2 : lookupA rootId s.pools with
          | none => simp only [hp2] at hs; exact absurd hs (by simp)
          | some pool =>
            simp only [hp2] at hs
            cases hg : pool.get? pinfo.call_path_idx with
            | none => simp only [hg] at hs; exact absurd hs (by simp)
            | some pct =>
              simp only [hg] at hs
              by_cases hd : maxD ≤ pct.depth + 1
              · rw [if_pos hd] at hs
                cases hs
                exact tinv_create_aux inv id cs (some p) hcr hpne hcb rfl
                  (fun c hc => rfl) (Or.inl htin) rfl rfl rfl inv.psound rfl
              · rw [if_neg hd] at hs
                cases hcm : lookupA cs pct.children with
                | some j =>
                  simp only [hcm] at hs
                  cases hs
                  exact tinv_create_aux inv id cs (some p) hcr hpne hcb rfl
                    (fun c hc => lookupA_insertA_ne _ _ fun he => hc he.symm)
                    (Or.inr ⟨j, lookupA_insertA_self ..⟩) rfl rfl rfl inv.psound rfl
                | none =>
                  simp only [hcm] at hs
                  cases hs
                  refine tinv_create_aux inv id cs (some p) hcr hpne hcb rfl
                    (fun c hc => lookupA_insertA_ne _ _ fun he => hc he.symm)
                    (Or.inr ⟨pool.length, lookupA_insertA_self ..⟩) rfl rfl rfl ?_ rfl
                  intro pr hpr
                  rcases mem_insertA_cases hpr with hnew | hold
                  · rw [hnew]
                    intro e he
                    rcases List.mem_append.1 he with hset | hzero
                    · rcases List.mem_or_eq_of_mem_set hset with hmem | heq
                      · exact inv.psound (rootId, pool)
                          (mem_of_lookupA_eq_some hp2) e hmem
                      · rw [heq]
                        exact inv.psound (rootId, pool)
                          (mem_of_lookupA_eq_some hp2) pct (List.get?_mem hg)
                    · rw [List.mem_singleton] at hzero
                      subst hzero
                      exact Nat.le_refl 0
                  · exact inv.psound pr hold

/-! ## Preservation of the nesting invariant: enter -/

theorem sumSlack_mono_list (h h' : Host) (s s' : State) (x : Nat)
    (l : List (Nat × PerThreadInfo))
    (hnow : h.now ≤ h'.now)
    (hS2 : ∀ p ∈ l, p.2.last_enter ≤ p.2.last_enter_own ∧ p.2.last_enter_own ≤ h.now)
    (hcov : ∀ p ∈ l, coveredT h s p.1 x → coveredT h' s' p.1 x) :
    sumOver l (fun t pt => slotSlack h s x t pt) ≤
      sumOver l (fun t pt => slotSlack h' s' x t pt) := by
  refine sumOver_mono _ _ fun pq hp => ?_
  obtain ⟨h1, h2⟩ := hS2 pq hp
  exact slotSlack_mono hnow h1 h2 (hcov pq hp)

theorem tinv_enter (id tid lp st : Nat) (h h' : Host) (s s' : State)
    (hh : hostStepT (Event.enter id tid lp st) h = some h')
    (hs : on_enter id tid lp st s = some s')
    (inv : TInv h s) : TInv h' s' := by
  have hs0 := hs
  simp only [hostStepT] at hh
  cases hcr : lookupA id h.created with
  | none => simp only [hcr] at hh; exact absurd hh (by simp)
  | some pr =>
    simp only [hcr] at hh
    by_cases hcond : id ∉ stackOf h tid ∧ h.now ≤ lp ∧ lp ≤ st ∧
        (∀ p, pr = some p → (stackOf h tid).head? = some p ∨ p ∉ stackOf h tid)
    swap
    · rw [if_neg hcond] at hh
      exact absurd hh (by simp)
    rw [if_pos hcond] at hh
    cases hh
    obtain ⟨hnid, hnlp, hlpst, hpcond⟩ := hcond
    have hcb0 : CInv h s' := cinv_enter id tid lp st h h s s' rfl hs0 inv.cbase
    have hcb : CInv { h with now := st, stackMap := insertA tid (id :: stackOf h tid) h.stackMap } s' :=
      @cinv_congr h { h with now := st, stackMap := insertA tid (id :: stackOf h tid) h.stackMap } s' rfl rfl hcb0
    have hstks : ∀ u, stackOf { h with now := st, stackMap := insertA tid (id :: stackOf h tid) h.stackMap } u
        = if u = tid then id :: stackOf h tid else stackOf h u := by
      intro u
      show (lookupA u (insertA tid (id :: stackOf h tid) h.stackMap)).getD [] = _
      by_cases hu : u = tid
      · subst hu
        rw [lookupA_insertA_self, if_pos rfl]
        rfl
      · rw [lookupA_insertA_ne _ _ fun he => hu he.symm, if_neg hu]
        rfl
    have hnowle : h.now ≤ st := Nat.le_trans hnlp hlpst
    simp only [on_enter] at hs
    cases hsp : lookupA id s.spans with
    | none => rw [hsp] at hs; exact absurd hs (by simp)
    | some sd =>
      simp only [hsp] at hs
      have hpr : pr = sd.parent := by
        have hm := inv.cbase.mirror id
        rw [hcr, hsp] at hm
        simp only [Option.map_some'] at hm
        exact Option.some.inj hm
      cases hti : lookupA id s.timing with
      | none =>
        simp only [hti] at hs
        cases hs
        have htpe : ∀ c, tpar s c = tpar s c := fun c => rfl
        have htin : tpar s id = none := by
          unfold tpar
          rw [hti]
        have hcovm : ∀ z u, coveredT h s u z ↔
coveredT { h with now := st, stackMap := insertA tid (id :: stackOf h tid) h.stackMap } s u z := by
          intro z u
          unfold coveredT
          rw [hstks u]
          by_cases hu : u = tid
          · rw [if_pos hu, hu]
            constructor
            · rintro ⟨c, hc, hp⟩
              exact ⟨c, List.mem_cons_of_mem id hc, hp⟩
            · rintro ⟨c, hc, hp⟩
              rcases List.mem_cons.1 hc with rfl | hc2
              · rw [htin] at hp
                cases hp
              · exact ⟨c, hc2, hp⟩
          · rw [if_neg hu]
        refine ⟨hcb, ?_, ?_, ?_, inv.noSelfPar, inv.ptkeys, ?_, ?_, ?_,
          inv.psound, inv.fsound⟩
        · intro u c hc
          rw [hstks u] at hc
          by_cases hu : u = tid
          · rw [if_pos hu] at hc
            rcases List.mem_cons.1 hc with rfl | hc2
            · rw [hcr]
              rfl
            · exact inv.smem tid c hc2
          · rw [if_neg hu] at hc
            exact inv.smem u c hc
        · intro u
          rw [hstks u]
          by_cases hu : u = tid
          · rw [if_pos hu]
            exact List.nodup_cons.2 ⟨hnid, inv.snodup tid⟩
          · rw [if_neg hu]
            exact inv.snodup u
        · intro u
          rw [hstks u]
          by_cases hu : u = tid
          · rw [if_pos hu]
            refine ⟨?_, inv.swf tid⟩
            intro x hp
            rw [htin] at hp
            cases hp
          · rw [if_neg hu]
            exact inv.swf u
        · intro x ti t pt hx hslot
          rw [hstks t]
          have h2 := inv.slotStack x ti t pt hx hslot
          by_cases ht : t = tid
          · rw [if_pos ht]
            rw [ht] at h2
            exact List.mem_cons_of_mem id h2
          · rw [if_neg ht]
            exact h2
        · intro x ti t pt hx hslot
          have h2 := inv.slotTimes x ti t pt hx hslot
          exact ⟨h2.1, Nat.le_trans h2.2 hnowle⟩
        · intro x ti hx
          have h2 := inv.sound x ti hx
          refine Nat.le_trans h2 (Nat.add_le_add_left ?_ _)
          show sumOver _ _ ≤ sumOver _ _
          refine sumSlack_mono_list h _ s s x ti.per_thread hnowle ?_ ?_
          · intro pq hp
            exact inv.slotTimes x ti pq.1 pq.2 hx
              (lookupA_of_mem (inv.ptkeys x ti hx) hp)
          · intro pq hp2 hc
            exact (hcovm x pq.1).1 hc
      | some ti =>
        simp only [hti] at hs
        have hnoslot : lookupA tid ti.per_thread = none := by
          cases hq : lookupA tid ti.per_thread with
          | none => rfl
          | some pt =>
            exact absurd (inv.slotStack id ti tid pt hti hq) hnid
        have htpeq : ∀ T, (∀ c, (lookupA c T).isSome
              = (lookupA c s.timing).isSome) →
            ∀ c, tpar { s with timing := T } c = tpar s c := by
          intro T hT c
          exact @tpar_congr s { s with timing := T } rfl hT c
        cases hpar : sd.parent with
        | none =>
          simp only [hpar] at hs
          cases hs
          have htp1 : ∀ c, tpar { s with timing := insertA id { ti with per_thread := insertA tid ⟨st, st⟩ ti.per_thread } s.timing } c = tpar s c :=
            htpeq _ (isSome_insertA_existing _ hti)
          have htidp : tpar s id = none := by
            unfold tpar
            rw [hti, hsp]
            exact hpar
          have hcovm : ∀ z u, coveredT { h with now := st, stackMap := insertA tid (id :: stackOf h tid) h.stackMap } { s with timing := insertA id { ti with per_thread := insertA tid ⟨st, st⟩ ti.per_thread } s.timing } u z ↔ coveredT h s u z := by
            intro z u
            unfold coveredT
            rw [hstks u]
            by_cases hu : u = tid
            · rw [if_pos hu, hu]
              constructor
              · rintro ⟨c, hc, hp⟩
                rw [htp1 c] at hp
                rcases List.mem_cons.1 hc with rfl | hc2
                · rw [htidp] at hp
                  cases hp
                · exact ⟨c, hc2, hp⟩
              · rintro ⟨c, hc, hp⟩
                exact ⟨c, List.mem_cons_of_mem id hc, by rw [htp1 c]; exact hp⟩
            · rw [if_neg hu]
              constructor
              · rintro ⟨c, hc, hp⟩
                exact ⟨c, hc, by rw [← htp1 c]; exact hp⟩
              · rintro ⟨c, hc, hp⟩
                exact ⟨c, hc, by rw [htp1 c]; exact hp⟩
          refine ⟨hcb, ?_, ?_, ?_, inv.noSelfPar, ?_, ?_, ?_, ?_,
            inv.psound, inv.fsound⟩
          · intro u c hc
            rw [hstks u] at hc
            by_cases hu : u = tid
            · rw [if_pos hu] at hc
              rcases List.mem_cons.1 hc with rfl | hc2
              · rw [hcr]
                rfl
              · exact inv.smem tid c hc2
            · rw [if_neg hu] at hc
              exact inv.smem u c hc
          · intro u
            rw [hstks u]
            by_cases hu : u = tid
            · rw [if_pos hu]
              exact List.nodup_cons.2 ⟨hnid, inv.snodup tid⟩
            · rw [if_neg hu]
              exact inv.snodup u
          · intro u
            rw [hstks u]
            by_cases hu : u = tid
            · rw [if_pos hu]
              refine ⟨?_, stackWf_congr _ (fun c hc => htp1 c) (inv.swf tid)⟩
              intro x hp
              rw [htp1 id, htidp] at hp
              cases hp
            · rw [if_neg hu]
              exact stackWf_congr _ (fun c hc => htp1 c) (inv.swf u)
          · intro x ti2 hx
            by_cases hxi : x = id
            · subst hxi
              rw [lookupA_insertA_self] at hx
              have hti2 : ti2 = { ti with per_thread := insertA tid ⟨st, st⟩ ti.per_thread } := (Option.some.inj hx).symm
              rw [hti2]
              exact keysA_nodup_insertA _ (inv.ptkeys x ti hti)
            · rw [lookupA_insertA_ne _ _ fun he => hxi he.symm] at hx
              exact inv.ptkeys x ti2 hx
          · intro x ti2 t pt hx hslot
            rw [hstks t]
            by_cases hxi : x = id
            · subst hxi
              rw [lookupA_insertA_self] at hx
              have hti2 : ti2 = { ti with per_thread := insertA tid ⟨st, st⟩ ti.per_thread } := (Option.some.inj hx).symm
              rw [hti2] at hslot
              by_cases ht : t = tid
              · rw [if_pos ht]
                exact List.mem_cons_self x _
              · rw [if_neg ht]
                have hslot2 : lookupA t (insertA tid (⟨st, st⟩ : PerThreadInfo) ti.per_thread) = some pt := hslot
                rw [lookupA_insertA_ne _ _ fun he => ht he.symm] at hslot2
                exact inv.slotStack x ti t pt hti hslot2
            · rw [lookupA_insertA_ne _ _ fun he => hxi he.symm] at hx
              have h2 := inv.slotStack x ti2 t pt hx hslot
              by_cases ht : t = tid
              · rw [if_pos ht]
                rw [ht] at h2
                exact List.mem_cons_of_mem id h2
              · rw [if_neg ht]
                exact h2
          · intro x ti2 t pt hx hslot
            by_cases hxi : x = id
            · subst hxi
              rw [lookupA_insertA_self] at hx
              have hti2 : ti2 = { ti with per_thread := insertA tid ⟨st, st⟩ ti.per_thread } := (Option.some.inj hx).symm
              rw [hti2] at hslot
              by_cases ht : t = tid
              · subst ht
                have hslot2 : lookupA t (insertA t (⟨st, st⟩ : PerThreadInfo) ti.per_thread) = some pt := hslot
                rw [lookupA_insertA_self] at hslot2
                have hpt : pt = ⟨st, st⟩ := (Option.some.inj hslot2).symm
                rw [hpt]
                exact ⟨Nat.le_refl st, Nat.le_refl st⟩
              · have hslot2 : lookupA t (insertA tid (⟨st, st⟩ : PerThreadInfo) ti.per_thread) = some pt := hslot
                rw [lookupA_insertA_ne _ _ fun he => ht he.symm] at hslot2
                have h2 := inv.slotTimes x ti t pt hti hslot2
                exact ⟨h2.1, Nat.le_trans h2.2 hnowle⟩
            · rw [lookupA_insertA_ne _ _ fun he => hxi he.symm] at hx
              have h2 := inv.slotTimes x ti2 t pt hx hslot
              exact ⟨h2.1, Nat.le_trans h2.2 hnowle⟩
          · intro x ti2 hx
            by_cases hxi : x = id
            · subst hxi
              rw [lookupA_insertA_self] at hx
              have hti2 : ti2 = { ti with per_thread := insertA tid ⟨st, st⟩ ti.per_thread } := (Option.some.inj hx).symm
              rw [hti2]
              show ti.sum_own ≤ ti.sum_with_children + slackSum _ _ x _
              have h2 := inv.sound x ti hti
              refine Nat.le_trans h2 (Nat.add_le_add_left ?_ _)
              show sumOver _ _ ≤ sumOver (insertA tid _ ti.per_thread) _
              rw [sumOver_insertA_none _ _ hnoslot]
              refine Nat.le_trans ?_ (Nat.le_add_right _ _)
              refine sumSlack_mono_list h _ s _ x ti.per_thread hnowle ?_ ?_
              · intro pq hp
                exact inv.slotTimes x ti pq.1 pq.2 hti
                  (lookupA_of_mem (inv.ptkeys x ti hti) hp)
              · intro pq hp2 hc
                exact (hcovm x pq.1).2 hc
            · rw [lookupA_insertA_ne _ _ fun he => hxi he.symm] at hx
              have h2 := inv.sound x ti2 hx
              refine Nat.le_trans h2 (Nat.add_le_add_left ?_ _)
              show sumOver _ _ ≤ sumOver _ _
              refine sumSlack_mono_list h _ s _ x ti2.per_thread hnowle ?_ ?_
              · intro pq hp
                exact inv.slotTimes x ti2 pq.1 pq.2 hx
                  (lookupA_of_mem (inv.ptkeys x ti2 hx) hp)
              · intro pq hp2 hc
                exact (hcovm x pq.1).2 hc
        | some p =>
          simp only [hpar] at hs
          have hpid : p ≠ id := by
            intro he
            exact inv.noSelfPar id sd hsp (by rw [hpar, he])
          have hptm : (lookupA p s.timing).isSome :=
            inv.cbase.tparent id ti sd p hti hsp hpar
          cases hpt : lookupA p s.timing with
          | none => rw [hpt] at hptm; exact absurd hptm (by simp)
          | some pti =>
            have hps1 : lookupA p (insertA id { ti with per_thread := insertA tid ⟨st, st⟩ ti.per_thread } s.timing) = some pti := by
              rw [lookupA_insertA_ne _ _ fun he => hpid he.symm]
              exact hpt
            simp only [hps1] at hs
            cases hppt : lookupA tid pti.per_thread with
            | none => simp only [hppt] at hs; exact absurd hs (by simp)
            | some ppt =>
              simp only [hppt] at hs
              cases hs
              have hpstk : p ∈ stackOf h tid :=
                inv.slotStack p pti tid ppt hpt hppt
              have hphead : (stackOf h tid).head? = some p := by
                rcases hpcond p (by rw [hpr, hpar]) with hq | hq
                · exact hq
                · exact absurd hpstk hq
              have hppt2 := inv.slotTimes p pti tid ppt hpt hppt
              have htidp : tpar s id = some p := tpar_of_parts hti hsp hpar
              have htp1 : ∀ c, tpar { s with timing := insertA p { pti with sum_own := pti.sum_own + delta ppt.last_enter_own lp } (insertA id { ti with per_thread := insertA tid ⟨st, st⟩ ti.per_thread } s.timing) } c = tpar s c := by
                refine htpeq _ ?_
                intro c
                rw [isSome_insertA_existing _ hps1 c]
                exact isSome_insertA_existing _ hti c
              have hcovm : ∀ z u, coveredT { h with now := st, stackMap := insertA tid (id :: stackOf h tid) h.stackMap } { s with timing := insertA p { pti with sum_own := pti.sum_own + delta ppt.last_enter_own lp } (insertA id { ti with per_thread := insertA tid ⟨st, st⟩ ti.per_thread } s.timing) } u z ↔
                  ((u = tid ∧ z = p) ∨ coveredT h s u z) := by
                intro z u
                unfold coveredT
                rw [hstks u]
                by_cases hu : u = tid
                · rw [if_pos hu, hu]
                  constructor
                  · rintro ⟨c, hc, hp⟩
                    rw [htp1 c] at hp
                    rcases List.mem_cons.1 hc with rfl | hc2
                    · rw [htidp] at hp
                      exact Or.inl ⟨rfl, (Option.some.inj hp).symm⟩
                    · exact Or.inr ⟨c, hc2, hp⟩
                  · rintro (⟨-, rfl⟩ | ⟨c, hc, hp⟩)
                    · exact ⟨id, List.mem_cons_self id _,
                        by rw [htp1 id]; exact htidp⟩
                    · exact ⟨c, List.mem_cons_of_mem id hc,
                        by rw [htp1 c]; exact hp⟩
                · rw [if_neg hu]
                  constructor
                  · rintro ⟨c, hc, hp⟩
                    exact Or.inr ⟨c, hc, by rw [← htp1 c]; exact hp⟩
                  · rintro (⟨he, -⟩ | ⟨c, hc, hp⟩)
                    · exact absurd he hu
                    · exact ⟨c, hc, by rw [htp1 c]; exact hp⟩
              have hpuncov : ¬ coveredT h s tid p := by
                intro hcv
                exact head_not_covered (inv.swf tid) (inv.snodup tid) hphead
                  (tpar_ne_self inv.noSelfPar) hcv
              refine ⟨hcb, ?_, ?_, ?_, inv.noSelfPar, ?_, ?_, ?_, ?_,
                inv.psound, inv.fsound⟩
              · intro u c hc
                rw [hstks u] at hc
                by_cases hu : u = tid
                · rw [if_pos hu] at hc
                  rcases List.mem_cons.1 hc with rfl | hc2
                  · rw [hcr]
                    rfl
                  · exact inv.smem tid c hc2
                · rw [if_neg hu] at hc
                  exact inv.smem u c hc
              · intro u
                rw [hstks u]
                by_cases hu : u = tid
                · rw [if_pos hu]
                  exact List.nodup_cons.2 ⟨hnid, inv.snodup tid⟩
                · rw [if_neg hu]
                  exact inv.snodup u
              · intro u
                rw [hstks u]
                by_cases hu : u = tid
                · rw [if_pos hu]
                  refine ⟨?_, stackWf_congr _ (fun c hc => htp1 c) (inv.swf tid)⟩
                  intro x hp
                  rw [htp1 id, htidp] at hp
                  rw [← Option.some.inj hp]
                  exact hphead
                · rw [if_neg hu]
                  exact stackWf_congr _ (fun c hc => htp1 c) (inv.swf u)
              · intro x ti2 hx
                by_cases hxp : x = p
                · subst hxp
                  rw [lookupA_insertA_self] at hx
                  have hti2 : ti2 = { pti with sum_own := pti.sum_own + delta ppt.last_enter_own lp } :=
                    (Option.some.inj hx).symm
                  rw [hti2]
                  exact inv.ptkeys x pti hpt
                · rw [lookupA_insertA_ne _ _ fun he => hxp he.symm] at hx
                  by_cases hxi : x = id
                  · subst hxi
                    rw [lookupA_insertA_self] at hx
                    have hti2 : ti2 = { ti with per_thread := insertA tid ⟨st, st⟩ ti.per_thread } := (Option.some.inj hx).symm
                    rw [hti2]
                    exact keysA_nodup_insertA _ (inv.ptkeys x ti hti)
                  · rw [lookupA_insertA_ne _ _ fun he => hxi he.symm] at hx
                    exact inv.ptkeys x ti2 hx
              · intro x ti2 t pt hx hslot
                rw [hstks t]
                by_cases hxp : x = p
                · subst hxp
                  rw [lookupA_insertA_self] at hx
                  have hti2 : ti2 = { pti with sum_own := pti.sum_own + delta ppt.last_enter_own lp } :=
                    (Option.some.inj hx).symm
                  rw [hti2] at hslot
                  have h2 := inv.slotStack x pti t pt hpt hslot
                  by_cases ht : t = tid
                  · rw [if_pos ht]
                    rw [ht] at h2
                    exact List.mem_cons_of_mem id h2
                  · rw [if_neg ht]
                    exact h2
                · rw [lookupA_insertA_ne _ _ fun he => hxp he.symm] at hx
                  by_cases hxi : x = id
                  · subst hxi
                    rw [lookupA_insertA_self] at hx
                    have hti2 : ti2 = { ti with per_thread := insertA tid ⟨st, st⟩ ti.per_thread } := (Option.some.inj hx).symm
                    rw [hti2] at hslot
                    by_cases ht : t = tid
                    · rw [if_pos ht]
                      exact List.mem_cons_self x _
                    · rw [if_neg ht]
                      have hslot2 : lookupA t (insertA tid (⟨st, st⟩ : PerThreadInfo) ti.per_thread) = some pt := hslot
                      rw [lookupA_insertA_ne _ _ fun he => ht he.symm] at hslot2
                      exact inv.slotStack x ti t pt hti hslot2
                  · rw [lookupA_insertA_ne _ _ fun he => hxi he.symm] at hx
                    have h2 := inv.slotStack x ti2 t pt hx hslot
                    by_cases ht : t = tid
                    · rw [if_pos ht]
                      rw [ht] at h2
                      exact List.mem_cons_of_mem id h2
                    · rw [if_neg ht]
                      exact h2
              · intro x ti2 t pt hx hslot
                by_cases hxp : x = p
                · subst hxp
                  rw [lookupA_insertA_self] at hx
                  have hti2 : ti2 = { pti with sum_own := pti.sum_own + delta ppt.last_enter_own lp } :=
                    (Option.some.inj hx).symm
                  rw [hti2] at hslot
                  have h2 := inv.slotTimes x pti t pt hpt hslot
                  exact ⟨h2.1, Nat.le_trans h2.2 hnowle⟩
                · rw [lookupA_insertA_ne _ _ fun he => hxp he.symm] at hx
                  by_cases hxi : x = id
                  · subst hxi
                    rw [lookupA_insertA_self] at hx
                    have hti2 : ti2 = { ti with per_thread := insertA tid ⟨st, st⟩ ti.per_thread } := (Option.some.inj hx).symm
                    rw [hti2] at hslot
                    by_cases ht : t = tid
                    · subst ht
                      have hslot2 : lookupA t (insertA t (⟨st, st⟩ : PerThreadInfo) ti.per_thread) = some pt := hslot
                      rw [lookupA_insertA_self] at hslot2
                      have hpt2 : pt = ⟨st, st⟩ := (Option.some.inj hslot2).symm
                      rw [hpt2]
                      exact ⟨Nat.le_refl st, Nat.le_refl st⟩
                    · have hslot2 : lookupA t (insertA tid (⟨st, st⟩ : PerThreadInfo) ti.per_thread) = some pt := hslot
                      rw [lookupA_insertA_ne _ _ fun he => ht he.symm] at hslot2
                      have h2 := inv.slotTimes x ti t pt hti hslot2
                      exact ⟨h2.1, Nat.le_trans h2.2 hnowle⟩
                  · rw [lookupA_insertA_ne _ _ fun he => hxi he.symm] at hx
                    have h2 := inv.slotTimes x ti2 t pt hx hslot
                    exact ⟨h2.1, Nat.le_trans h2.2 hnowle⟩
              · intro x ti2 hx
                by_cases hxp : x = p
                · subst hxp
                  rw [lookupA_insertA_self] at hx
                  have hti2 : ti2 = { pti with sum_own := pti.sum_own + delta ppt.last_enter_own lp } :=
                    (Option.some.inj hx).symm
                  rw [hti2]
                  show pti.sum_own + delta ppt.last_enter_own lp ≤
                    pti.sum_with_children + slackSum _ _ x pti
                  have h2 := inv.sound x pti hpt
                  unfold slackSum at h2
                  rw [sumOver_removeA_add _ hppt] at h2
                  show pti.sum_own + delta ppt.last_enter_own lp ≤
                    pti.sum_with_children +
                      sumOver pti.per_thread (fun t pt => slotSlack _ _ x t pt)
                  rw [sumOver_removeA_add (fun t pt => slotSlack { h with now := st, stackMap := insertA tid (id :: stackOf h tid) h.stackMap } { s with timing := insertA x { pti with sum_own := pti.sum_own + delta ppt.last_enter_own lp } (insertA id { ti with per_thread := insertA tid ⟨st, st⟩ ti.per_thread } s.timing) } x t pt) hppt]
                  have hold : slotSlack h s x tid ppt
                      = ppt.last_enter_own - ppt.last_enter := by
                    unfold slotSlack
                    rw [if_neg hpuncov]
                  have hnew : slotSlack { h with now := st, stackMap := insertA tid (id :: stackOf h tid) h.stackMap } { s with timing := insertA x { pti with sum_own := pti.sum_own + delta ppt.last_enter_own lp } (insertA id { ti with per_thread := insertA tid ⟨st, st⟩ ti.per_thread } s.timing) } x tid ppt
                      = st - ppt.last_enter := by
                    unfold slotSlack
                    rw [if_pos ((hcovm x tid).2 (Or.inl ⟨rfl, rfl⟩))]
                  rw [hold] at h2
                  rw [hnew]
                  have hrest : sumOver (removeA tid pti.per_thread)
                      (fun t pt => slotSlack h s x t pt) ≤
                      sumOver (removeA tid pti.per_thread)
                      (fun t pt => slotSlack { h with now := st, stackMap := insertA tid (id :: stackOf h tid) h.stackMap } { s with timing := insertA x { pti with sum_own := pti.sum_own + delta ppt.last_enter_own lp } (insertA id { ti with per_thread := insertA tid ⟨st, st⟩ ti.per_thread } s.timing) } x t pt) := by
                    refine sumSlack_mono_list h _ s _ x _ hnowle ?_ ?_
                    · intro pq hp
                      exact inv.slotTimes x pti pq.1 pq.2 hpt
                        (lookupA_of_mem (inv.ptkeys x pti hpt)
                          (mem_removeA_subset hp))
                    · intro pq hp2 hc
                      exact (hcovm x pq.1).2 (Or.inr hc)
                  have harith : delta ppt.last_enter_own lp +
                      (ppt.last_enter_own - ppt.last_enter) ≤
                      st - ppt.last_enter := by
                    unfold delta
                    have h3 := hppt2.1
                    have h4 := hppt2.2
                    omega
                  omega
                · rw [lookupA_insertA_ne _ _ fun he => hxp he.symm] at hx
                  by_cases hxi : x = id
                  · subst hxi
                    rw [lookupA_insertA_self] at hx
                    have hti2 : ti2 = { ti with per_thread := insertA tid ⟨st, st⟩ ti.per_thread } := (Option.some.inj hx).symm
                    rw [hti2]
                    show ti.sum_own ≤ ti.sum_with_children + slackSum _ _ x _
                    have h2 := inv.sound x ti hti
                    refine Nat.le_trans h2 (Nat.add_le_add_left ?_ _)
                    show sumOver _ _ ≤ sumOver (insertA tid _ ti.per_thread) _
                    rw [sumOver_insertA_none _ _ hnoslot]
                    refine Nat.le_trans ?_ (Nat.le_add_right _ _)
                    refine sumSlack_mono_list h _ s _ x ti.per_thread hnowle ?_ ?_
                    · intro pq hp
                      exact inv.slotTimes x ti pq.1 pq.2 hti
                        (lookupA_of_mem (inv.ptkeys x ti hti) hp)
                    · intro pq hp2 hc
                      exact (hcovm x pq.1).2 (Or.inr hc)
                  · rw [lookupA_insertA_ne _ _ fun he => hxi he.symm] at hx
                    have h2 := inv.sound x ti2 hx
                    refine Nat.le_trans h2 (Nat.add_le_add_left ?_ _)
                    show sumOver _ _ ≤ sumOver _ _
                    refine sumSlack_mono_list h _ s _ x ti2.per_thread hnowle ?_ ?_
                    · intro pq hp
                      exact inv.slotTimes x ti2 pq.1 pq.2 hx
                        (lookupA_of_mem (inv.ptkeys x ti2 hx) hp)
                    · intro pq hp2 hc
                      exact (hcovm x pq.1).2 (Or.inr hc)

/-! ## Preservation of the nesting invariant: exit -/

theorem tinv_exit (id tid endT enterOwn : Nat) (h h' : Host) (s s' : State)
    (hh : hostStepT (Event.exit id tid endT enterOwn) h = some h')
    (hs : on_exit id tid endT enterOwn s = some s')
    (inv : TInv h s) : TInv h' s' := by
  have hs0 := hs
  simp only [hostStepT] at hh
  by_cases hcond : (stackOf h tid).head? = some id ∧ h.now ≤ endT ∧ endT ≤ enterOwn
  swap
  · rw [if_neg hcond] at hh
    exact absurd hh (by simp)
  rw [if_pos hcond] at hh
  cases hh
  obtain ⟨hhead, hne, her⟩ := hcond
  have hnowle : h.now ≤ enterOwn := Nat.le_trans hne her
  have hcb0 : CInv h s' := cinv_exit id tid endT enterOwn h h s s' rfl hs0 inv.cbase
  have hcb : CInv { h with now := enterOwn, stackMap := insertA tid (stackOf h tid).tail h.stackMap } s' :=
    @cinv_congr h { h with now := enterOwn, stackMap := insertA tid (stackOf h tid).tail h.stackMap } s' rfl rfl hcb0
  have hcons : ∃ rest, stackOf h tid = id :: rest := by
    cases hq : stackOf h tid with
    | nil =>
      rw [hq] at hhead
      exact absurd hhead (by simp)
    | cons a r2 =>
      rw [hq] at hhead
      simp only [List.head?] at hhead
      have ha : a = id := Option.some.inj hhead
      exact ⟨r2, by rw [ha]⟩
  obtain ⟨rest, hstk0⟩ := hcons
  have hstks : ∀ u, stackOf { h with now := enterOwn, stackMap := insertA tid (stackOf h tid).tail h.stackMap } u = if u = tid then rest else stackOf h u := by
    intro u
    show (lookupA u (insertA tid (stackOf h tid).tail h.stackMap)).getD [] = _
    by_cases hu : u = tid
    · rw [hu, lookupA_insertA_self, if_pos rfl]
      show (stackOf h tid).tail = rest
      rw [hstk0]
      rfl
    · rw [lookupA_insertA_ne _ _ fun he => hu he.symm, if_neg hu]
      rfl
  have hnodup0 : (id :: rest).Nodup := by
    rw [← hstk0]
    exact inv.snodup tid
  have hidrest : id ∉ rest := (List.nodup_cons.1 hnodup0).1
  have hrestnd : rest.Nodup := (List.nodup_cons.1 hnodup0).2
  have hwf0 : stackWf s (id :: rest) := by
    rw [← hstk0]
    exact inv.swf tid
  have hmemtid : ∀ c, c ∈ rest → c ∈ stackOf h tid := by
    intro c hc
    rw [hstk0]
    exact List.mem_cons_of_mem id hc
  have huncov : ¬ coveredT h s tid id :=
    head_not_covered (inv.swf tid) (inv.snodup tid)
      (by rw [hstk0]; rfl) (tpar_ne_self inv.noSelfPar)
  simp only [on_exit] at hs
  cases hsp : lookupA id s.spans with
  | none => rw [hsp] at hs; exact absurd hs (by simp)
  | some sd =>
    simp only [hsp] at hs
    cases hti : lookupA id s.timing with
    | none =>
      simp only [hti] at hs
      cases hs
      have htidn : tpar s id = none := by
        unfold tpar
        rw [hti]
      have hcovm : ∀ z u, coveredT { h with now := enterOwn, stackMap := insertA tid (stackOf h tid).tail h.stackMap } s u z ↔ coveredT h s u z := by
        intro z u
        unfold coveredT
        rw [hstks u]
        by_cases hu : u = tid
        · rw [if_pos hu, hu]
          constructor
          · rintro ⟨c, hc, hp⟩
            exact ⟨c, hmemtid c hc, hp⟩
          · rintro ⟨c, hc, hp⟩
            rw [hstk0] at hc
            rcases List.mem_cons.1 hc with rfl | hc2
            · rw [htidn] at hp
              cases hp
            · exact ⟨c, hc2, hp⟩
        · rw [if_neg hu]
      refine ⟨hcb, ?_, ?_, ?_, inv.noSelfPar, inv.ptkeys, ?_, ?_, ?_,
        inv.psound, inv.fsound⟩
      · intro u c hc
        rw [hstks u] at hc
        by_cases hu : u = tid
        · rw [if_pos hu] at hc
          exact inv.smem tid c (hmemtid c hc)
        · rw [if_neg hu] at hc
          exact inv.smem u c hc
      · intro u
        rw [hstks u]
        by_cases hu : u = tid
        · rw [if_pos hu]
          exact hrestnd
        · rw [if_neg hu]
          exact inv.snodup u
      · intro u
        rw [hstks u]
        by_cases hu : u = tid
        · rw [if_pos hu]
          exact hwf0.2
        · rw [if_neg hu]
          exact inv.swf u
      · intro x ti t pt hx hslot
        rw [hstks t]
        have h2 := inv.slotStack x ti t pt hx hslot
        by_cases ht : t = tid
        · rw [if_pos ht]
          rw [ht, hstk0] at h2
          rcases List.mem_cons.1 h2 with rfl | h3
          · rw [hti] at hx
            cases hx
          · exact h3
        · rw [if_neg ht]
          exact h2
      · intro x ti t pt hx hslot
        have h2 := inv.slotTimes x ti t pt hx hslot
        exact ⟨h2.1, Nat.le_trans h2.2 hnowle⟩
      · intro x ti hx
        have h2 := inv.sound x ti hx
        refine Nat.le_trans h2 (Nat.add_le_add_left ?_ _)
        show sumOver _ _ ≤ sumOver _ _
        refine sumSlack_mono_list h _ s s x ti.per_thread hnowle ?_ ?_
        · intro pq hp
          exact inv.slotTimes x ti pq.1 pq.2 hx
            (lookupA_of_mem (inv.ptkeys x ti hx) hp)
        · intro pq hp2 hc
          exact (hcovm x pq.1).2 hc
    | some ti =>
      simp only [hti] at hs
      cases hslot : lookupA tid ti.per_thread with
      | none => simp only [hslot] at hs; exact absurd hs (by simp)
      | some pt =>
        simp only [hslot] at hs
        have hS2id := inv.slotTimes id ti tid pt hti hslot
        cases hpar : sd.parent with
        | none =>
          simp only [hpar] at hs
          cases hs
          have htidn : tpar s id = none := by
            unfold tpar
            rw [hti, hsp]
            exact hpar
          have htp1 : ∀ c, tpar { s with timing := insertA id { ti with sum_with_children := ti.sum_with_children + delta pt.last_enter endT, sum_own := ti.sum_own + delta pt.last_enter_own endT, per_thread := removeA tid ti.per_thread } s.timing } c = tpar s c :=
            @tpar_congr s _ rfl (isSome_insertA_existing _ hti)
          have hcovm : ∀ z u, coveredT { h with now := enterOwn, stackMap := insertA tid (stackOf h tid).tail h.stackMap } { s with timing := insertA id { ti with sum_with_children := ti.sum_with_children + delta pt.last_enter endT, sum_own := ti.sum_own + delta pt.last_enter_own endT, per_thread := removeA tid ti.per_thread } s.timing } u z ↔ coveredT h s u z := by
            intro z u
            unfold coveredT
            rw [hstks u]
            by_cases hu : u = tid
            · rw [if_pos hu, hu]
              constructor
              · rintro ⟨c, hc, hp⟩
                rw [htp1 c] at hp
                exact ⟨c, hmemtid c hc, hp⟩
              · rintro ⟨c, hc, hp⟩
                rw [hstk0] at hc
                rcases List.mem_cons.1 hc with rfl | hc2
                · rw [htidn] at hp
                  cases hp
                · exact ⟨c, hc2, by rw [htp1 c]; exact hp⟩
            · rw [if_neg hu]
              constructor
              · rintro ⟨c, hc, hp⟩
                exact ⟨c, hc, by rw [← htp1 c]; exact hp⟩
              · rintro ⟨c, hc, hp⟩
                exact ⟨c, hc, by rw [htp1 c]; exact hp⟩
          refine ⟨hcb, ?_, ?_, ?_, inv.noSelfPar, ?_, ?_, ?_, ?_,
            inv.psound, inv.fsound⟩
          · intro u c hc
            rw [hstks u] at hc
            by_cases hu : u = tid
            · rw [if_pos hu] at hc
              exact inv.smem tid c (hmemtid c hc)
            · rw [if_neg hu] at hc
              exact inv.smem u c hc
          · intro u
            rw [hstks u]
            by_cases hu : u = tid
            · rw [if_pos hu]
              exact hrestnd
            · rw [if_neg hu]
              exact inv.snodup u
          · intro u
            rw [hstks u]
            by_cases hu : u = tid
            · rw [if_pos hu]
              exact stackWf_congr _ (fun c hc => htp1 c) hwf0.2
            · rw [if_neg hu]
              exact stackWf_congr _ (fun c hc => htp1 c) (inv.swf u)
          · intro x ti2 hx
            by_cases hxi : x = id
            · subst hxi
              rw [lookupA_insertA_self] at hx
              have hti2 : ti2 = { ti with sum_with_children := ti.sum_with_children + delta pt.last_enter endT, sum_own := ti.sum_own + delta pt.last_enter_own endT, per_thread := removeA tid ti.per_thread } := (Option.some.inj hx).symm
              rw [hti2]
              exact keysA_nodup_removeA _ (inv.ptkeys x ti hti)
            · rw [lookupA_insertA_ne _ _ fun he => hxi he.symm] at hx
              exact inv.ptkeys x ti2 hx
          · intro x ti2 t pt2 hx hslot2
            rw [hstks t]
            by_cases hxi : x = id
            · subst hxi
              rw [lookupA_insertA_self] at hx
              have hti2 : ti2 = { ti with sum_with_children := ti.sum_with_children + delta pt.last_enter endT, sum_own := ti.sum_own + delta pt.last_enter_own endT, per_thread := removeA tid ti.per_thread } := (Option.some.inj hx).symm
              rw [hti2] at hslot2
              have hslot3 : lookupA t (removeA tid ti.per_thread) = some pt2 := hslot2
              by_cases ht : t = tid
              · rw [ht, lookupA_removeA_self (inv.ptkeys x ti hti)] at hslot3
                cases hslot3
              · rw [lookupA_removeA_ne _ fun he => ht he.symm] at hslot3
                rw [if_neg ht]
                exact inv.slotStack x ti t pt2 hti hslot3
            · rw [lookupA_insertA_ne _ _ fun he => hxi he.symm] at hx
              have h2 := inv.slotStack x ti2 t pt2 hx hslot2
              by_cases ht : t = tid
              · rw [if_pos ht]
                rw [ht, hstk0] at h2
                rcases List.mem_cons.1 h2 with rfl | h3
                · exact absurd rfl hxi
                · exact h3
              · rw [if_neg ht]
                exact h2
          · intro x ti2 t pt2 hx hslot2
            by_cases hxi : x = id
            · subst hxi
              rw [lookupA_insertA_self] at hx
              have hti2 : ti2 = { ti with sum_with_children := ti.sum_with_children + delta pt.last_enter endT, sum_own := ti.sum_own + delta pt.last_enter_own endT, per_thread := removeA tid ti.per_thread } := (Option.some.inj hx).symm
              rw [hti2] at hslot2
              have hslot3 : lookupA t (removeA tid ti.per_thread) = some pt2 := hslot2
              by_cases ht : t = tid
              · rw [ht, lookupA_removeA_self (inv.ptkeys x ti hti)] at hslot3
                cases hslot3
              · rw [lookupA_removeA_ne _ fun he => ht he.symm] at hslot3
                have h2 := inv.slotTimes x ti t pt2 hti hslot3
                exact ⟨h2.1, Nat.le_trans h2.2 hnowle⟩
            · rw [lookupA_insertA_ne _ _ fun he => hxi he.symm] at hx
              have h2 := inv.slotTimes x ti2 t pt2 hx hslot2
              exact ⟨h2.1, Nat.le_trans h2.2 hnowle⟩
          · intro x ti2 hx
            by_cases hxi : x = id
            · subst hxi
              rw [lookupA_insertA_self] at hx
              have hti2 : ti2 = { ti with sum_with_children := ti.sum_with_children + delta pt.last_enter endT, sum_own := ti.sum_own + delta pt.last_enter_own endT, per_thread := removeA tid ti.per_thread } := (Option.some.inj hx).symm
              rw [hti2]
              show ti.sum_own + delta pt.last_enter_own endT ≤
                ti.sum_with_children + delta pt.last_enter endT + slackSum _ _ x { ti with sum_with_children := ti.sum_with_children + delta pt.last_enter endT, sum_own := ti.sum_own + delta pt.last_enter_own endT, per_thread := removeA tid ti.per_thread }
              have h2 := inv.sound x ti hti
              unfold slackSum at h2
              rw [sumOver_removeA_add _ hslot] at h2
              have hold : slotSlack h s x tid pt
                  = pt.last_enter_own - pt.last_enter := by
                unfold slotSlack
                rw [if_neg huncov]
              rw [hold] at h2
              show _ ≤ _ + sumOver (removeA tid ti.per_thread) _
              have hrest2 : sumOver (removeA tid ti.per_thread)
                  (fun u2 q2 => slotSlack h s x u2 q2) ≤
                  sumOver (removeA tid ti.per_thread)
                  (fun u2 q2 => slotSlack { h with now := enterOwn, stackMap := insertA tid (stackOf h tid).tail h.stackMap } { s with timing := insertA x { ti with sum_with_children := ti.sum_with_children + delta pt.last_enter endT, sum_own := ti.sum_own + delta pt.last_enter_own endT, per_thread := removeA tid ti.per_thread } s.timing } x u2 q2) := by
                refine sumSlack_mono_list h _ s _ x _ hnowle ?_ ?_
                · intro pq hp
                  exact inv.slotTimes x ti pq.1 pq.2 hti
                    (lookupA_of_mem (inv.ptkeys x ti hti)
                      (mem_removeA_subset hp))
                · intro pq hp2 hc
                  exact (hcovm x pq.1).2 hc
              have hd1 : delta pt.last_enter endT = endT - pt.last_enter := rfl
              have hd2 : delta pt.last_enter_own endT = endT - pt.last_enter_own := rfl
              have h3 := hS2id.1
              have h4 := hS2id.2
              omega
            · rw [lookupA_insertA_ne _ _ fun he => hxi he.symm] at hx
              have h2 := inv.sound x ti2 hx
              refine Nat.le_trans h2 (Nat.add_le_add_left ?_ _)
              show sumOver _ _ ≤ sumOver _ _
              refine sumSlack_mono_list h _ s _ x ti2.per_thread hnowle ?_ ?_
              · intro pq hp
                exact inv.slotTimes x ti2 pq.1 pq.2 hx
                  (lookupA_of_mem (inv.ptkeys x ti2 hx) hp)
              · intro pq hp2 hc
                exact (hcovm x pq.1).2 hc
        | some p =>
          simp only [hpar] at hs
          have hpid : p ≠ id := by
            intro he
            exact inv.noSelfPar id sd hsp (by rw [hpar, he])
          have htidp : tpar s id = some p := tpar_of_parts hti hsp hpar
          have hptm : (lookupA p s.timing).isSome :=
            inv.cbase.tparent id ti sd p hti hsp hpar
          cases hpt0 : lookupA p s.timing with
          | none => rw [hpt0] at hptm; exact absurd hptm (by simp)
          | some pti =>
            have hps1 : lookupA p (insertA id { ti with sum_with_children := ti.sum_with_children + delta pt.last_enter endT, sum_own := ti.sum_own + delta pt.last_enter_own endT, per_thread := removeA tid ti.per_thread } s.timing) = some pti := by
              rw [lookupA_insertA_ne _ _ fun he => hpid he.symm]
              exact hpt0
            simp only [hps1] at hs
            have htp1 : ∀ c, tpar { s with timing := insertA id { ti with sum_with_children := ti.sum_with_children + delta pt.last_enter endT, sum_own := ti.sum_own + delta pt.last_enter_own endT, per_thread := removeA tid ti.per_thread } s.timing } c = tpar s c :=
              @tpar_congr s _ rfl (isSome_insertA_existing _ hti)
            cases hppt : lookupA tid pti.per_thread with
            | none =>
              simp only [hppt] at hs
              cases hs
              have hcovm : ∀ z u, (coveredT { h with now := enterOwn, stackMap := insertA tid (stackOf h tid).tail h.stackMap } { s with timing := insertA id { ti with sum_with_children := ti.sum_with_children + delta pt.last_enter endT, sum_own := ti.sum_own + delta pt.last_enter_own endT, per_thread := removeA tid ti.per_thread } s.timing } u z → coveredT h s u z) ∧
                  ((u ≠ tid ∨ z ≠ p) → coveredT h s u z → coveredT { h with now := enterOwn, stackMap := insertA tid (stackOf h tid).tail h.stackMap } { s with timing := insertA id { ti with sum_with_children := ti.sum_with_children + delta pt.last_enter endT, sum_own := ti.sum_own + delta pt.last_enter_own endT, per_thread := removeA tid ti.per_thread } s.timing } u z) := by
                intro z u
                constructor
                · rintro ⟨c, hc, hp⟩
                  rw [hstks u] at hc
                  rw [htp1 c] at hp
                  by_cases hu : u = tid
                  · rw [if_pos hu] at hc
                    rw [hu]
                    exact ⟨c, hmemtid c hc, hp⟩
                  · rw [if_neg hu] at hc
                    exact ⟨c, hc, hp⟩
                · intro hcase
                  rintro ⟨c, hc, hp⟩
                  refine ⟨c, ?_, by rw [htp1 c]; exact hp⟩
                  rw [hstks u]
                  by_cases hu : u = tid
                  · rw [if_pos hu]
                    rw [hu, hstk0] at hc
                    rcases List.mem_cons.1 hc with rfl | hc2
                    · rw [htidp] at hp
                      rcases hcase with hca | hcb2
                      · exact absurd hu hca
                      · exact absurd (Option.some.inj hp).symm hcb2
                    · exact hc2
                  · rw [if_neg hu]
                    exact hc
              refine ⟨hcb, ?_, ?_, ?_, inv.noSelfPar, ?_, ?_, ?_, ?_,
                inv.psound, inv.fsound⟩
              · intro u c hc
                rw [hstks u] at hc
                by_cases hu : u = tid
                · rw [if_pos hu] at hc
                  exact inv.smem tid c (hmemtid c hc)
                · rw [if_neg hu] at hc
                  exact inv.smem u c hc
              · intro u
                rw [hstks u]
                by_cases hu : u = tid
                · rw [if_pos hu]
                  exact hrestnd
                · rw [if_neg hu]
                  exact inv.snodup u
              · intro u
                rw [hstks u]
                by_cases hu : u = tid
                · rw [if_pos hu]
                  exact stackWf_congr _ (fun c hc => htp1 c) hwf0.2
                · rw [if_neg hu]
                  exact stackWf_congr _ (fun c hc => htp1 c) (inv.swf u)
              · intro x ti2 hx
                by_cases hxi : x = id
                · subst hxi
                  rw [lookupA_insertA_self] at hx
                  have hti2 : ti2 = { ti with sum_with_children := ti.sum_with_children + delta pt.last_enter endT, sum_own := ti.sum_own + delta pt.last_enter_own endT, per_thread := removeA tid ti.per_thread } := (Option.some.inj hx).symm
                  rw [hti2]
                  exact keysA_nodup_removeA _ (inv.ptkeys x ti hti)
                · rw [lookupA_insertA_ne _ _ fun he => hxi he.symm] at hx
                  exact inv.ptkeys x ti2 hx
              · intro x ti2 t pt2 hx hslot2
                rw [hstks t]
                by_cases hxi : x = id
                · subst hxi
                  rw [lookupA_insertA_self] at hx
                  have hti2 : ti2 = { ti with sum_with_children := ti.sum_with_children + delta pt.last_enter endT, sum_own := ti.sum_own + delta pt.last_enter_own endT, per_thread := removeA tid ti.per_thread } := (Option.some.inj hx).symm
                  rw [hti2] at hslot2
                  have hslot3 : lookupA t (removeA tid ti.per_thread) = some pt2 := hslot2
                  by_cases ht : t = tid
                  · rw [ht, lookupA_removeA_self (inv.ptkeys x ti hti)] at hslot3
                    cases hslot3
                  · rw [lookupA_removeA_ne _ fun he => ht he.symm] at hslot3
                    rw [if_neg ht]
                    exact inv.slotStack x ti t pt2 hti hslot3
                · rw [lookupA_insertA_ne _ _ fun he => hxi he.symm] at hx
                  have h2 := inv.slotStack x ti2 t pt2 hx hslot2
                  by_cases ht : t = tid
                  · rw [if_pos ht]
                    rw [ht, hstk0] at h2
                    rcases List.mem_cons.1 h2 with rfl | h3
                    · exact absurd rfl hxi
                    · exact h3
                  · rw [if_neg ht]
                    exact h2
              · intro x ti2 t pt2 hx hslot2
                by_cases hxi : x = id
                · subst hxi
                  rw [lookupA_insertA_self] at hx
                  have hti2 : ti2 = { ti with sum_with_children := ti.sum_with_children + delta pt.last_enter endT, sum_own := ti.sum_own + delta pt.last_enter_own endT, per_thread := removeA tid ti.per_thread } := (Option.some.inj hx).symm
                  rw [hti2] at hslot2
                  have hslot3 : lookupA t (removeA tid ti.per_thread) = some pt2 := hslot2
                  by_cases ht : t = tid
                  · rw [ht, lookupA_removeA_self (inv.ptkeys x ti hti)] at hslot3
                    cases hslot3
                  · rw [lookupA_removeA_ne _ fun he => ht he.symm] at hslot3
                    have h2 := inv.slotTimes x ti t pt2 hti hslot3
                    exact ⟨h2.1, Nat.le_trans h2.2 hnowle⟩
                · rw [lookupA_insertA_ne _ _ fun he => hxi he.symm] at hx
                  have h2 := inv.slotTimes x ti2 t pt2 hx hslot2
                  exact ⟨h2.1, Nat.le_trans h2.2 hnowle⟩
              · intro x ti2 hx
                by_cases hxi : x = id
                · subst hxi
                  rw [lookupA_insertA_self] at hx
                  have hti2 : ti2 = { ti with sum_with_children := ti.sum_with_children + delta pt.last_enter endT, sum_own := ti.sum_own + delta pt.last_enter_own endT, per_thread := removeA tid ti.per_thread } := (Option.some.inj hx).symm
                  rw [hti2]
                  show ti.sum_own + delta pt.last_enter_own endT ≤
                    ti.sum_with_children + delta pt.last_enter endT + slackSum _ _ x { ti with sum_with_children := ti.sum_with_children + delta pt.last_enter endT, sum_own := ti.sum_own + delta pt.last_enter_own endT, per_thread := removeA tid ti.per_thread }
                  have h2 := inv.sound x ti hti
                  unfold slackSum at h2
                  rw [sumOver_removeA_add _ hslot] at h2
                  have hold : slotSlack h s x tid pt
                      = pt.last_enter_own - pt.last_enter := by
                    unfold slotSlack
                    rw [if_neg huncov]
                  rw [hold] at h2
                  show _ ≤ _ + sumOver (removeA tid ti.per_thread) _
                  have hrest2 : sumOver (removeA tid ti.per_thread)
                      (fun u2 q2 => slotSlack h s x u2 q2) ≤
                      sumOver (removeA tid ti.per_thread)
                      (fun u2 q2 => slotSlack { h with now := enterOwn, stackMap := insertA tid (stackOf h tid).tail h.stackMap } { s with timing := insertA x { ti with sum_with_children := ti.sum_with_children + delta pt.last_enter endT, sum_own := ti.sum_own + delta pt.last_enter_own endT, per_thread := removeA tid ti.per_thread } s.timing } x u2 q2) := by
                    refine sumSlack_mono_list h _ s _ x _ hnowle ?_ ?_
                    · intro pq hp
                      exact inv.slotTimes x ti pq.1 pq.2 hti
                        (lookupA_of_mem (inv.ptkeys x ti hti)
                          (mem_removeA_subset hp))
                    · intro pq hp2 hc
                      refine ((hcovm x pq.1).2) (Or.inl ?_) hc
                      intro he
                      obtain ⟨k2, v2⟩ := pq
                      have hk2 : k2 = tid := he
                      rw [hk2] at hp2
                      exact mem_removeA_self_false (inv.ptkeys x ti hti) hp2
                  have hd1 : delta pt.last_enter endT = endT - pt.last_enter := rfl
                  have hd2 : delta pt.last_enter_own endT = endT - pt.last_enter_own := rfl
                  have h3 := hS2id.1
                  have h4 := hS2id.2
                  omega
                · rw [lookupA_insertA_ne _ _ fun he => hxi he.symm] at hx
                  have h2 := inv.sound x ti2 hx
                  refine Nat.le_trans h2 (Nat.add_le_add_left ?_ _)
                  show sumOver _ _ ≤ sumOver _ _
                  refine sumSlack_mono_list h _ s _ x ti2.per_thread hnowle ?_ ?_
                  · intro pq hp
                    exact inv.slotTimes x ti2 pq.1 pq.2 hx
                      (lookupA_of_mem (inv.ptkeys x ti2 hx) hp)
                  · intro pq hp2 hc
                    by_cases hxp : x = p
                    · refine ((hcovm x pq.1).2) (Or.inl ?_) hc
                      intro he
                      have hlk := lookupA_of_mem (inv.ptkeys x ti2 hx) hp2
                      rw [he] at hlk
                      rw [hxp, hpt0] at hx
                      have hti2 : ti2 = pti := Option.some.inj hx.symm
                      rw [hti2] at hlk
                      rw [hppt] at hlk
                      cases hlk
                    · exact ((hcovm x pq.1).2) (Or.inr hxp) hc
            | some ppt =>
              simp only [hppt] at hs
              cases hs
              have hS2p := inv.slotTimes p pti tid ppt hpt0 hppt
              have hpcov : coveredT h s tid p := by
                refine ⟨id, ?_, htidp⟩
                rw [hstk0]
                exact List.mem_cons_self id rest
              have hprest : p ∈ rest := by
                have h2 := inv.slotStack p pti tid ppt hpt0 hppt
                rw [hstk0] at h2
                rcases List.mem_cons.1 h2 with he | h3
                · exact absurd he hpid
                · exact h3
              have htp2 : ∀ c, tpar { s with timing := insertA p { pti with per_thread := insertA tid { ppt with last_enter_own := enterOwn } pti.per_thread } (insertA id { ti with sum_with_children := ti.sum_with_children + delta pt.last_enter endT, sum_own := ti.sum_own + delta pt.last_enter_own endT, per_thread := removeA tid ti.per_thread } s.timing) } c = tpar s c := by
                refine @tpar_congr s _ rfl ?_
                intro c
                rw [isSome_insertA_existing _ hps1 c]
                exact isSome_insertA_existing _ hti c
              have hcovm : ∀ z u, (coveredT { h with now := enterOwn, stackMap := insertA tid (stackOf h tid).tail h.stackMap } { s with timing := insertA p { pti with per_thread := insertA tid { ppt with last_enter_own := enterOwn } pti.per_thread } (insertA id { ti with sum_with_children := ti.sum_with_children + delta pt.last_enter endT, sum_own := ti.sum_own + delta pt.last_enter_own endT, per_thread := removeA tid ti.per_thread } s.timing) } u z → coveredT h s u z) ∧
                  ((u ≠ tid ∨ z ≠ p) → coveredT h s u z → coveredT { h with now := enterOwn, stackMap := insertA tid (stackOf h tid).tail h.stackMap } { s with timing := insertA p { pti with per_thread := insertA tid { ppt with last_enter_own := enterOwn } pti.per_thread } (insertA id { ti with sum_with_children := ti.sum_with_children + delta pt.last_enter endT, sum_own := ti.sum_own + delta pt.last_enter_own endT, per_thread := removeA tid ti.per_thread } s.timing) } u z) := by
                intro z u
                constructor
                · rintro ⟨c, hc, hp⟩
                  rw [hstks u] at hc
                  rw [htp2 c] at hp
                  by_cases hu : u = tid
                  · rw [if_pos hu] at hc
                    rw [hu]
                    exact ⟨c, hmemtid c hc, hp⟩
                  · rw [if_neg hu] at hc
                    exact ⟨c, hc, hp⟩
                · intro hcase
                  rintro ⟨c, hc, hp⟩
                  refine ⟨c, ?_, by rw [htp2 c]; exact hp⟩
                  rw [hstks u]
                  by_cases hu : u = tid
                  · rw [if_pos hu]
                    rw [hu, hstk0] at hc
                    rcases List.mem_cons.1 hc with rfl | hc2
                    · rw [htidp] at hp
                      rcases hcase with hca | hcb2
                      · exact absurd hu hca
                      · exact absurd (Option.some.inj hp).symm hcb2
                    · exact hc2
                  · rw [if_neg hu]
                    exact hc
              refine ⟨hcb, ?_, ?_, ?_, inv.noSelfPar, ?_, ?_, ?_, ?_,
                inv.psound, inv.fsound⟩
              · intro u c hc
                rw [hstks u] at hc
                by_cases hu : u = tid
                · rw [if_pos hu] at hc
                  exact inv.smem tid c (hmemtid c hc)
                · rw [if_neg hu] at hc
                  exact inv.smem u c hc
              · intro u
                rw [hstks u]
                by_cases hu : u = tid
                · rw [if_pos hu]
                  exact hrestnd
                · rw [if_neg hu]
                  exact inv.snodup u
              · intro u
                rw [hstks u]
                by_cases hu : u = tid
                · rw [if_pos hu]
                  exact stackWf_congr _ (fun c hc => htp2 c) hwf0.2
                · rw [if_neg hu]
                  exact stackWf_congr _ (fun c hc => htp2 c) (inv.swf u)
              · intro x ti2 hx
                by_cases hxp : x = p
                · subst hxp
                  rw [lookupA_insertA_self] at hx
                  have hti2 : ti2 = { pti with per_thread := insertA tid { ppt with last_enter_own := enterOwn } pti.per_thread } := (Option.some.inj hx).symm
                  rw [hti2]
                  exact keysA_nodup_insertA _ (inv.ptkeys x pti hpt0)
                · rw [lookupA_insertA_ne _ _ fun he => hxp he.symm] at hx
                  by_cases hxi : x = id
                  · subst hxi
                    rw [lookupA_insertA_self] at hx
                    have hti2 : ti2 = { ti with sum_with_children := ti.sum_with_children + delta pt.last_enter endT, sum_own := ti.sum_own + delta pt.last_enter_own endT, per_thread := removeA tid ti.per_thread } := (Option.some.inj hx).symm
                    rw [hti2]
                    exact keysA_nodup_removeA _ (inv.ptkeys x ti hti)
                  · rw [lookupA_insertA_ne _ _ fun he => hxi he.symm] at hx
                    exact inv.ptkeys x ti2 hx
              · intro x ti2 t pt2 hx hslot2
                rw [hstks t]
                by_cases hxp : x = p
                · subst hxp
                  rw [lookupA_insertA_self] at hx
                  have hti2 : ti2 = { pti with per_thread := insertA tid { ppt with last_enter_own := enterOwn } pti.per_thread } := (Option.some.inj hx).symm
                  rw [hti2] at hslot2
                  have hslot3 : lookupA t (insertA tid { ppt with last_enter_own := enterOwn } pti.per_thread) = some pt2 := hslot2
                  by_cases ht : t = tid
                  · rw [if_pos ht]
                    exact hprest
                  · rw [lookupA_insertA_ne _ _ fun he => ht he.symm] at hslot3
                    rw [if_neg ht]
                    exact inv.slotStack x pti t pt2 hpt0 hslot3
                · rw [lookupA_insertA_ne _ _ fun he => hxp he.symm] at hx
                  by_cases hxi : x = id
                  · subst hxi
                    rw [lookupA_insertA_self] at hx
                    have hti2 : ti2 = { ti with sum_with_children := ti.sum_with_children + delta pt.last_enter endT, sum_own := ti.sum_own + delta pt.last_enter_own endT, per_thread := removeA tid ti.per_thread } := (Option.some.inj hx).symm
                    rw [hti2] at hslot2
                    have hslot3 : lookupA t (removeA tid ti.per_thread) = some pt2 := hslot2
                    by_cases ht : t = tid
                    · rw [ht, lookupA_removeA_self (inv.ptkeys x ti hti)] at hslot3
                      cases hslot3
                    · rw [lookupA_removeA_ne _ fun he => ht he.symm] at hslot3
                      rw [if_neg ht]
                      exact inv.slotStack x ti t pt2 hti hslot3
                  · rw [lookupA_insertA_ne _ _ fun he => hxi he.symm] at hx
                    have h2 := inv.slotStack x ti2 t pt2 hx hslot2
                    by_cases ht : t = tid
                    · rw [if_pos ht]
                      rw [ht, hstk0] at h2
                      rcases List.mem_cons.1 h2 with rfl | h3
                      · exact absurd rfl hxi
                      · exact h3
                    · rw [if_neg ht]
                      exact h2
              · intro x ti2 t pt2 hx hslot2
                by_cases hxp : x = p
                · subst hxp
                  rw [lookupA_insertA_self] at hx
                  have hti2 : ti2 = { pti with per_thread := insertA tid { ppt with last_enter_own := enterOwn } pti.per_thread } := (Option.some.inj hx).symm
                  rw [hti2] at hslot2
                  have hslot3 : lookupA t (insertA tid { ppt with last_enter_own := enterOwn } pti.per_thread) = some pt2 := hslot2
                  by_cases ht : t = tid
                  · rw [ht, lookupA_insertA_self] at hslot3
                    have hpt2 : pt2 = { ppt with last_enter_own := enterOwn } := (Option.some.inj hslot3).symm
                    rw [hpt2]
                    refine ⟨?_, Nat.le_refl enterOwn⟩
                    show ppt.last_enter ≤ enterOwn
                    exact Nat.le_trans hS2p.1 (Nat.le_trans hS2p.2 hnowle)
                  · rw [lookupA_insertA_ne _ _ fun he => ht he.symm] at hslot3
                    have h2 := inv.slotTimes x pti t pt2 hpt0 hslot3
                    exact ⟨h2.1, Nat.le_trans h2.2 hnowle⟩
                · rw [lookupA_insertA_ne _ _ fun he => hxp he.symm] at hx
                  by_cases hxi : x = id
                  · subst hxi
                    rw [lookupA_insertA_self] at hx
                    have hti2 : ti2 = { ti with sum_with_children := ti.sum_with_children + delta pt.last_enter endT, sum_own := ti.sum_own + delta pt.last_enter_own endT, per_thread := removeA tid ti.per_thread } := (Option.some.inj hx).symm
                    rw [hti2] at hslot2
                    have hslot3 : lookupA t (removeA tid ti.per_thread) = some pt2 := hslot2
                    by_cases ht : t = tid
                    · rw [ht, lookupA_removeA_self (inv.ptkeys x ti hti)] at hslot3
                      cases hslot3
                    · rw [lookupA_removeA_ne _ fun he => ht he.symm] at hslot3
                      have h2 := inv.slotTimes x ti t pt2 hti hslot3
                      exact ⟨h2.1, Nat.le_trans h2.2 hnowle⟩
                  · rw [lookupA_insertA_ne _ _ fun he => hxi he.symm] at hx
                    have h2 := inv.slotTimes x ti2 t pt2 hx hslot2
                    exact ⟨h2.1, Nat.le_trans h2.2 hnowle⟩
              · intro x ti2 hx
                by_cases hxp : x = p
                · subst hxp
                  rw [lookupA_insertA_self] at hx
                  have hti2 : ti2 = { pti with per_thread := insertA tid { ppt with last_enter_own := enterOwn } pti.per_thread } := (Option.some.inj hx).symm
                  rw [hti2]
                  show pti.sum_own ≤ pti.sum_with_children + slackSum { h with now := enterOwn, stackMap := insertA tid (stackOf h tid).tail h.stackMap } { s with timing := insertA x { pti with per_thread := insertA tid { ppt with last_enter_own := enterOwn } pti.per_thread } (insertA id { ti with sum_with_children := ti.sum_with_children + delta pt.last_enter endT, sum_own := ti.sum_own + delta pt.last_enter_own endT, per_thread := removeA tid ti.per_thread } s.timing) } x { pti with per_thread := insertA tid { ppt with last_enter_own := enterOwn } pti.per_thread }
                  have h2 := inv.sound x pti hpt0
                  unfold slackSum at h2
                  rw [sumOver_removeA_add _ hppt] at h2
                  have hold : slotSlack h s x tid ppt
                      = h.now - ppt.last_enter := by
                    unfold slotSlack
                    rw [if_pos hpcov]
                  rw [hold] at h2
                  unfold slackSum
                  show _ ≤ _ + sumOver (insertA tid { ppt with last_enter_own := enterOwn } pti.per_thread) _
                  rw [sumOver_insertA_some _ _ hppt]
                  have hnew : slotSlack { h with now := enterOwn, stackMap := insertA tid (stackOf h tid).tail h.stackMap } { s with timing := insertA x { pti with per_thread := insertA tid { ppt with last_enter_own := enterOwn } pti.per_thread } (insertA id { ti with sum_with_children := ti.sum_with_children + delta pt.last_enter endT, sum_own := ti.sum_own + delta pt.last_enter_own endT, per_thread := removeA tid ti.per_thread } s.timing) } x tid { ppt with last_enter_own := enterOwn }
                      = enterOwn - ppt.last_enter := by
                    unfold slotSlack
                    by_cases hc : coveredT { h with now := enterOwn, stackMap := insertA tid (stackOf h tid).tail h.stackMap } { s with timing := insertA x { pti with per_thread := insertA tid { ppt with last_enter_own := enterOwn } pti.per_thread } (insertA id { ti with sum_with_children := ti.sum_with_children + delta pt.last_enter endT, sum_own := ti.sum_own + delta pt.last_enter_own endT, per_thread := removeA tid ti.per_thread } s.timing) } tid x
                    · rw [if_pos hc]
                    · rw [if_neg hc]
                  rw [hnew]
                  have hrest2 : sumOver (removeA tid pti.per_thread)
                      (fun u2 q2 => slotSlack h s x u2 q2) ≤
                      sumOver (removeA tid pti.per_thread)
                      (fun u2 q2 => slotSlack { h with now := enterOwn, stackMap := insertA tid (stackOf h tid).tail h.stackMap } { s with timing := insertA x { pti with per_thread := insertA tid { ppt with last_enter_own := enterOwn } pti.per_thread } (insertA id { ti with sum_with_children := ti.sum_with_children + delta pt.last_enter endT, sum_own := ti.sum_own + delta pt.last_enter_own endT, per_thread := removeA tid ti.per_thread } s.timing) } x u2 q2) := by
                    refine sumSlack_mono_list h _ s _ x _ hnowle ?_ ?_
                    · intro pq hp
                      exact inv.slotTimes x pti pq.1 pq.2 hpt0
                        (lookupA_of_mem (inv.ptkeys x pti hpt0)
                          (mem_removeA_subset hp))
                    · intro pq hp2 hc
                      refine ((hcovm x pq.1).2) (Or.inl ?_) hc
                      intro he
                      obtain ⟨k2, v2⟩ := pq
                      have hk2 : k2 = tid := he
                      rw [hk2] at hp2
                      exact mem_removeA_self_false (inv.ptkeys x pti hpt0) hp2
                  have h3 := hS2p.2
                  omega
                · rw [lookupA_insertA_ne _ _ fun he => hxp he.symm] at hx
                  by_cases hxi : x = id
                  · subst hxi
                    rw [lookupA_insertA_self] at hx
                    have hti2 : ti2 = { ti with sum_with_children := ti.sum_with_children + delta pt.last_enter endT, sum_own := ti.sum_own + delta pt.last_enter_own endT, per_thread := removeA tid ti.per_thread } := (Option.some.inj hx).symm
                    rw [hti2]
                    show ti.sum_own + delta pt.last_enter_own endT ≤
                      ti.sum_with_children + delta pt.last_enter endT + slackSum _ _ x { ti with sum_with_children := ti.sum_with_children + delta pt.last_enter endT, sum_own := ti.sum_own + delta pt.last_enter_own endT, per_thread := removeA tid ti.per_thread }
                    have h2 := inv.sound x ti hti
                    unfold slackSum at h2
                    rw [sumOver_removeA_add _ hslot] at h2
                    have hold : slotSlack h s x tid pt
                        = pt.last_enter_own - pt.last_enter := by
                      unfold slotSlack
                      rw [if_neg huncov]
                    rw [hold] at h2
                    show _ ≤ _ + sumOver (removeA tid ti.per_thread) _
                    have hrest2 : sumOver (removeA tid ti.per_thread)
                        (fun u2 q2 => slotSlack h s x u2 q2) ≤
                        sumOver (removeA tid ti.per_thread)
                        (fun u2 q2 => slotSlack { h with now := enterOwn, stackMap := insertA tid (stackOf h tid).tail h.stackMap } { s with timing := insertA p { pti with per_thread := insertA tid { ppt with last_enter_own := enterOwn } pti.per_thread } (insertA x { ti with sum_with_children := ti.sum_with_children + delta pt.last_enter endT, sum_own := ti.sum_own + delta pt.last_enter_own endT, per_thread := removeA tid ti.per_thread } s.timing) } x u2 q2) := by
                      refine sumSlack_mono_list h _ s _ x _ hnowle ?_ ?_
                      · intro pq hp
                        exact inv.slotTimes x ti pq.1 pq.2 hti
                          (lookupA_of_mem (inv.ptkeys x ti hti)
                            (mem_removeA_subset hp))
                      · intro pq hp2 hc
                        refine ((hcovm x pq.1).2) (Or.inl ?_) hc
                        intro he
                        obtain ⟨k2, v2⟩ := pq
                        have hk2 : k2 = tid := he
                        rw [hk2] at hp2
                        exact mem_removeA_self_false (inv.ptkeys x ti hti) hp2
                    have hd1 : delta pt.last_enter endT = endT - pt.last_enter := rfl
                    have hd2 : delta pt.last_enter_own endT = endT - pt.last_enter_own := rfl
                    have h3 := hS2id.1
                    have h4 := hS2id.2
                    omega
                  · rw [lookupA_insertA_ne _ _ fun he => hxi he.symm] at hx
                    have h2 := inv.sound x ti2 hx
                    refine Nat.le_trans h2 (Nat.add_le_add_left ?_ _)
                    show sumOver _ _ ≤ sumOver _ _
                    refine sumSlack_mono_list h _ s _ x ti2.per_thread hnowle ?_ ?_
                    · intro pq hp
                      exact inv.slotTimes x ti2 pq.1 pq.2 hx
                        (lookupA_of_mem (inv.ptkeys x ti2 hx) hp)
                    · intro pq hp2 hc
                      exact ((hcovm x pq.1).2) (Or.inr hxp) hc

/-! ## Preservation of the nesting invariant: close -/

theorem tinv_close_aux {h : Host} {s : State} (inv : TInv h s)
    (id : Nat) (ti : SpanTimingInfo)
    (hti : lookupA id s.timing = some ti)
    (hnostk : ∀ t, id ∉ stackOf h t)
    (s' : State) (hcb : CInv { h with closed := id :: h.closed } s')
    (hsp' : s'.spans = s.spans)
    (ht' : s'.timing = removeA id s.timing)
    (hps : ∀ pr ∈ s'.pools, PoolSound pr.2)
    (hfs : ∀ pl ∈ s'.finished, PoolSound pl) :
    TInv { h with closed := id :: h.closed } s' := by
  have hstks : ∀ u, stackOf { h with closed := id :: h.closed } u = stackOf h u :=
    fun u => rfl
  have htp : ∀ c, c ≠ id → tpar s' c = tpar s c := by
    intro c hc
    unfold tpar
    rw [ht', hsp', lookupA_removeA_ne _ fun he => hc he.symm]
  have hcov : ∀ z u, coveredT { h with closed := id :: h.closed } s' u z ↔
      coveredT h s u z := by
    intro z u
    unfold coveredT
    rw [hstks u]
    constructor
    · rintro ⟨c, hc, hp⟩
      refine ⟨c, hc, ?_⟩
      rw [← htp c fun he => hnostk u (he ▸ hc)]
      exact hp
    · rintro ⟨c, hc, hp⟩
      refine ⟨c, hc, ?_⟩
      rw [htp c fun he => hnostk u (he ▸ hc)]
      exact hp
  refine ⟨hcb, inv.smem, inv.snodup, ?_, ?_, ?_, ?_, ?_, ?_, hps, hfs⟩
  · intro u
    rw [hstks u]
    refine stackWf_congr _ ?_ (inv.swf u)
    intro c hc
    exact htp c fun he => hnostk u (he ▸ hc)
  · intro x sd hx hcon
    rw [hsp'] at hx
    exact inv.noSelfPar x sd hx hcon
  · intro x ti2 hx
    rw [ht'] at hx
    by_cases hxi : x = id
    · rw [hxi, lookupA_removeA_self inv.cbase.tkeys] at hx
      cases hx
    · rw [lookupA_removeA_ne _ fun he => hxi he.symm] at hx
      exact inv.ptkeys x ti2 hx
  · intro x ti2 t pt hx hslot
    rw [ht'] at hx
    rw [hstks t]
    by_cases hxi : x = id
    · rw [hxi, lookupA_removeA_self inv.cbase.tkeys] at hx
      cases hx
    · rw [lookupA_removeA_ne _ fun he => hxi he.symm] at hx
      exact inv.slotStack x ti2 t pt hx hslot
  · intro x ti2 t pt hx hslot
    rw [ht'] at hx
    by_cases hxi : x = id
    · rw [hxi, lookupA_removeA_self inv.cbase.tkeys] at hx
      cases hx
    · rw [lookupA_removeA_ne _ fun he => hxi he.symm] at hx
      exact inv.slotTimes x ti2 t pt hx hslot
  · intro x ti2 hx
    rw [ht'] at hx
    by_cases hxi : x = id
    · rw [hxi, lookupA_removeA_self inv.cbase.tkeys] at hx
      cases hx
    · rw [lookupA_removeA_ne _ fun he => hxi he.symm] at hx
      have h2 := inv.sound x ti2 hx
      have hss : slackSum { h with closed := id :: h.closed } s' x ti2
          = slackSum h s x ti2 := by
        unfold slackSum
        refine sumOver_congr _ _ fun pq hp => ?_
        exact slotSlack_congr x pq.1 pq.2 rfl (hcov x pq.1)
      rw [hss]
      exact h2

theorem tinv_close (id : Nat) (h h' : Host) (s s' : State)
    (hh : hostStepT (Event.close id) h = some h')
    (hs : on_close id s = some s')
    (inv : TInv h s) : TInv h' s' := by
  have hs0 := hs
  simp only [hostStepT] at hh
  by_cases hcond : childrenClosed h id ∧ (∀ p ∈ h.stackMap, id ∉ p.2)
  swap
  · rw [if_neg hcond] at hh
    exact absurd hh (by simp)
  rw [if_pos hcond] at hh
  cases hh
  obtain ⟨hcc, hnst⟩ := hcond
  have hC : hostStepC (Event.close id) h = some { h with closed := id :: h.closed } := by
    have h3 : hostStepC (Event.close id) h = (if childrenClosed h id then some { h with closed := id :: h.closed } else none) := rfl
    rw [h3, if_pos hcc]
  have hcb : CInv { h with closed := id :: h.closed } s' :=
    cinv_close id h _ s s' hC hs0 inv.cbase
  have hnostk : ∀ t, id ∉ stackOf h t := by
    intro t hmem
    obtain ⟨stk, hm, hin⟩ := mem_stackOf_mem_stackMap hmem
    exact hnst (t, stk) hm hin
  simp only [on_close] at hs
  cases hsp : lookupA id s.spans with
  | none => rw [hsp] at hs; exact absurd hs (by simp)
  | some sd =>
    simp only [hsp] at hs
    cases hti : lookupA id s.timing with
    | none =>
      simp only [hti] at hs
      cases hs
      exact ⟨hcb, inv.smem, inv.snodup, inv.swf, inv.noSelfPar, inv.ptkeys,
        inv.slotStack, inv.slotTimes, inv.sound, inv.psound, inv.fsound⟩
    | some ti =>
      simp only [hti] at hs
      have hsoundid : ti.sum_own ≤ ti.sum_with_children := by
        have h2 := inv.sound id ti hti
        have hz : slackSum h s id ti = 0 := by
          refine sumOver_eq_zero fun pq hp => ?_
          exact absurd (inv.slotStack id ti pq.1 pq.2 hti
            (lookupA_of_mem (inv.ptkeys id ti hti) hp)) (hnostk pq.1)
        unfold slackSum at hz h2
        rw [hz] at h2
        omega
      cases hr : rootOf s.spans (s.spans.length + 1) id with
      | none => simp only [hr] at hs; exact absurd hs (by simp)
      | some rootId =>
        simp only [hr] at hs
        cases hpl : lookupA rootId s.pools with
        | none => simp only [hpl] at hs; exact absurd hs (by simp)
        | some pool =>
          simp only [hpl] at hs
          cases hg : pool.get? ti.call_path_idx with
          | none => simp only [hg] at hs; exact absurd hs (by simp)
          | some cpt =>
            simp only [hg] at hs
            have hpoolsnd : PoolSound pool :=
              inv.psound (rootId, pool) (mem_of_lookupA_eq_some hpl)
            have hsetsnd : PoolSound (pool.set ti.call_path_idx
                { cpt with
                  call_count := cpt.call_count + 1
                  sum_with_children := cpt.sum_with_children + ti.sum_with_children
                  sum_own := cpt.sum_own + ti.sum_own }) := by
              intro e he
              rcases List.mem_or_eq_of_mem_set he with hmem | heq
              · exact hpoolsnd e hmem
              · rw [heq]
                show cpt.sum_own + ti.sum_own ≤
                  cpt.sum_with_children + ti.sum_with_children
                have h3 := hpoolsnd cpt (List.get?_mem hg)
                omega
            cases hpar : sd.parent with
            | none =>
              simp only [hpar] at hs
              cases hs
              refine tinv_close_aux inv id ti hti hnostk _ hcb rfl rfl ?_ ?_
              · intro pr hpr
                exact inv.psound pr (mem_removeA_subset hpr)
              · intro pl hplm
                rcases List.mem_append.1 hplm with hold | hnew
                · exact inv.fsound pl hold
                · rw [List.mem_singleton] at hnew
                  rw [hnew]
                  exact hsetsnd
            | some q =>
              simp only [hpar] at hs
              cases hs
              refine tinv_close_aux inv id ti hti hnostk _ hcb rfl rfl ?_ ?_
              · intro pr hpr
                rcases mem_insertA_cases hpr with hnew | hold
                · rw [hnew]
                  exact hsetsnd
                · exact inv.psound pr hold
              · intro pl hplm
                exact inv.fsound pl hplm

/-! ## The nesting invariant along whole runs, and the amended claim C1 -/

theorem tinv_init : TInv host0 init := by
  have hstk : ∀ t, stackOf host0 t = [] := by
    intro t
    rfl
  refine ⟨cinv_init, ?_, ?_, ?_, ?_, ?_, ?_, ?_, ?_, ?_, ?_⟩
  · intro t c hc
    rw [hstk t] at hc
    cases hc
  · intro t
    rw [hstk t]
    exact List.nodup_nil
  · intro t
    rw [hstk t]
    trivial
  · intro x sd hx
    cases hx
  · intro x ti hx
    cases hx
  · intro x ti t pt hx
    cases hx
  · intro x ti t pt hx
    cases hx
  · intro x ti hx
    cases hx
  · intro pr hpr
    cases hpr
  · intro pl hpl
    cases hpl

theorem tinv_step (maxD : Nat) (e : Event) (h h' : Host) (s s' : State)
    (hh : hostStepT e h = some h')
    (hs : step maxD e s = some s')
    (inv : TInv h s) : TInv h' s' := by
  cases e with
  | create id parent cs => exact tinv_create maxD id cs parent h h' s s' hh hs inv
  | enter id tid lp st => exact tinv_enter id tid lp st h h' s s' hh hs inv
  | exit id tid endT enterOwn =>
    exact tinv_exit id tid endT enterOwn h h' s s' hh hs inv
  | close id => exact tinv_close id h h' s s' hh hs inv

theorem tinv_run (maxD : Nat) (tr : List Event) :
    ∀ (h h' : Host) (s s' : State),
    hostRun hostStepT tr h = some h' →
    run maxD tr s = some s' →
    TInv h s → TInv h' s' := by
  induction tr with
  | nil =>
    intro h h' s s' hh hs inv
    simp only [hostRun] at hh
    simp only [run] at hs
    cases hh
    cases hs
    exact inv
  | cons e tr ih =>
    intro h h' s s' hh hs inv
    simp only [hostRun] at hh
    simp only [run] at hs
    cases hf : hostStepT e h with
    | none => rw [hf] at hh; exact absurd hh (by simp)
    | some h1 =>
      simp only [hf] at hh
      cases hst : step maxD e s with
      | none => rw [hst] at hs; exact absurd hs (by simp)
      | some s1 =>
        simp only [hst] at hs
        exact ih h1 h' s1 s' hh hs (tinv_step maxD e h h1 s s1 hf hst inv)

/-- C1, amended: under the host contract with per-thread well-nesting (a
unit is created before it is entered, all children close before their
parent, enters and exits are properly bracketed on each thread with a
non-root unit entered only directly above its parent, a unit is closed
only while not entered, and the clock samples drawn by the hooks are
monotone), every recorded `CallPathTiming` — in every live pool and in
every pool handed to the processor — satisfies
`sum_own ≤ sum_with_children`, at every reachable state. -/
theorem c1_sum_own_le_sum_with_children (maxD : Nat) (tr : List Event)
    (s : State) (hleg : LegalT tr) (hrun : run maxD tr init = some s) :
    AllSound s := by
  unfold LegalT at hleg
  cases hh : hostRun hostStepT tr host0 with
  | none => rw [hh] at hleg; exact absurd hleg (by simp)
  | some h1 =>
    have inv := tinv_run maxD tr host0 h1 init s hh hrun tinv_init
    exact ⟨inv.psound, inv.fsound⟩

theorem c1_witness : AllSound soloFinal :=
  c1_sum_own_le_sum_with_children 2 soloTrace soloFinal (by decide) (by decide)

end Reqray
